import Mathlib

/-!
# Verification of the logo-similarity grouping pipeline

Shallow embedding of the pure core of the `logo-similarity` repository
(candidate filtering, candidate selection, perceptual-hash similarity,
shortlisting, pairwise edge emission, union-find grouping, reporting),
together with theorems settling the specification claims.

Modelling conventions:
* Python `float` arithmetic is modelled by `ℚ` (exact arithmetic; the
  similarity weights and thresholds are short decimal literals).
* Python `dict` values are modelled by association lists
  (`List (String × _)`) so that insertion order — which Python dicts
  preserve and the code's iteration depends on — is part of the model.
  Lookup is by first occurrence; Python dicts cannot hold duplicate keys,
  and theorems carry a no-duplicate-keys hypothesis where it matters.
* Functions of external libraries (OpenCV ORB, PIL, HTTP, base64,
  urljoin) are abstracted as explicit function parameters; all repository
  code around them is embedded.
-/

/-- Clamp a rational to the unit interval, as Python's
`max(0.0, min(1.0, x))` idiom. -/
def clamp01 (x : ℚ) : ℚ := max 0 (min 1 x)

/-- Lexicographic comparison of character lists by code point, as
Python's `str.__lt__`. (Defined from scratch so that it evaluates by
kernel reduction.) -/
def charsLt : List Char → List Char → Bool
  | _, [] => false
  | [], _ :: _ => true
  | a :: as, b :: bs => if a < b then true else if b < a then false else charsLt as bs

/-- Python's `<` on strings. -/
def strLt (a b : String) : Bool := charsLt a.data b.data

/-- Python's `<=` on strings. -/
def strLe (a b : String) : Bool := !strLt b a

/-- Python's `str.strip()` (whitespace trim on both ends). -/
def strStrip (s : String) : String :=
  String.mk (((s.data.dropWhile Char.isWhitespace).reverse.dropWhile
    Char.isWhitespace).reverse)

/-- Python's `str.lower()` (ASCII case folding suffices for the hash and
path strings this program manipulates). -/
def strLower (s : String) : String := String.mk (s.data.map Char.toLower)

/-- Python's `str.startswith`. -/
def strStarts (s pre : String) : Bool := pre.data.isPrefixOf s.data

/-- Python's `str.endswith`. -/
def strEnds (s suf : String) : Bool := suf.data.reverse.isPrefixOf s.data.reverse

/-- Contiguous-sublist test for character lists. -/
def charsInfix (sub : List Char) : List Char → Bool
  | [] => sub.isEmpty
  | c :: rest => sub.isPrefixOf (c :: rest) || charsInfix sub rest

/-- Python's `in` on strings (contiguous substring containment). -/
def strContains (s sub : String) : Bool := charsInfix sub.data s.data

/-- String length in characters (Python's `len`). -/
def strLen (s : String) : Nat := s.data.length

/-- Emptiness test (Python's `if not s`). -/
def strIsEmpty (s : String) : Bool := s.data.isEmpty

/-- Value of a single (lowercase or uppercase) hexadecimal digit. -/
def hexDigitVal (c : Char) : Option Nat :=
  if '0' ≤ c ∧ c ≤ '9' then some (c.toNat - '0'.toNat)
  else if 'a' ≤ c ∧ c ≤ 'f' then some (c.toNat - 'a'.toNat + 10)
  else if 'A' ≤ c ∧ c ≤ 'F' then some (c.toNat - 'A'.toNat + 10)
  else none

/-- Parse a hexadecimal numeral, as Python's `int(s, 16)` on digit-only
strings (`none` models `ValueError`). -/
def parseHex (s : String) : Option Nat :=
  if strIsEmpty s then none
  else s.data.foldlM (fun acc c => (hexDigitVal c).map (fun d => acc * 16 + d)) 0

/-- Structural worker for `popcount`; the fuel argument only bounds the
recursion depth (`n` itself is always enough fuel). -/
def popcountFuel : Nat → Nat → Nat
  | 0, _ => 0
  | fuel + 1, n => if n = 0 then 0 else n % 2 + popcountFuel fuel (n / 2)

/-- Number of set bits, as Python's `int.bit_count()`. -/
def popcount (n : Nat) : Nat := popcountFuel n n

/-- Python's `str.zfill` for unsigned strings: left-pad with `'0'` to
width `n`. -/
def zfill (s : String) (n : Nat) : String :=
  if strLen s ≥ n then s
  else String.mk (List.replicate (n - strLen s) '0' ++ s.data)

/-- `_normalise_hex` from `src/features/perceptual.py`: strip, lowercase
and drop a leading `0x`. -/
def normalise_hex (value : String) : String :=
  let stripped := strLower (strStrip value)
  if strStarts stripped "0x" then String.mk (stripped.data.drop 2) else stripped

/-- `hamming_distance_hex` from `src/features/perceptual.py`. `none`
models a raised `ValueError` (non-hexadecimal input). -/
def hamming_distance_hex (h1 h2 : String) : Option Nat :=
  let n1 := normalise_hex h1
  let n2 := normalise_hex h2
  let maxLen := max (strLen n1) (strLen n2)
  if maxLen = 0 then some 0
  else do
    let v1 ← parseHex (zfill n1 maxLen)
    let v2 ← parseHex (zfill n2 maxLen)
    some (popcount (v1 ^^^ v2))

/-- The `perceptual` dict of a `LogoFeatures` row: hash values under the
keys `ahash`/`dhash`/`phash` (`none` models a missing key). -/
structure Perceptual where
  ahash : Option String
  dhash : Option String
  phash : Option String
deriving DecidableEq, Repr

/-- `LogoFeatures` from `src/io/models.py` (the fields the grouping code
reads; storage-path fields omitted as they only feed I/O). -/
structure LogoFeatures where
  website : String
  perceptual : Perceptual
  hsv_histogram : List ℚ
  dominant_hues : List Int
deriving DecidableEq, Repr

/-- Truthiness of an optional string, as Python's `if not x` on
`str | None` (`None` and `""` are falsy). -/
def strFalsy (o : Option String) : Bool :=
  match o with
  | none => true
  | some s => strIsEmpty s

/-- `histogram_intersection` from `src/group/similarity.py`. -/
def histogram_intersection (a b : List ℚ) : ℚ :=
  if a.isEmpty ∨ b.isEmpty then 0
  else clamp01 ((List.zip a b).foldl (fun total p => total + min p.1 p.2) 0)

/-- `_hash_similarity` from `src/group/similarity.py`. -/
def hash_similarity (hash_a hash_b : Option String) : ℚ :=
  if strFalsy hash_a ∨ strFalsy hash_b then 0
  else
    match hamming_distance_hex (hash_a.getD "") (hash_b.getD "") with
    | none => 0
    | some distance => clamp01 (1 - (distance : ℚ) / 64)

/-- Per-channel similarity components (the dict returned by
`base_similarity`). -/
structure Components where
  ahash : ℚ
  dhash : ℚ
  phash : ℚ
  hist : ℚ
deriving DecidableEq, Repr

/-- `base_similarity` from `src/group/similarity.py`. -/
def base_similarity (fA fB : LogoFeatures) : Components :=
  { ahash := hash_similarity fA.perceptual.ahash fB.perceptual.ahash
    dhash := hash_similarity fA.perceptual.dhash fB.perceptual.dhash
    phash := hash_similarity fA.perceptual.phash fB.perceptual.phash
    hist := histogram_intersection fA.hsv_histogram fB.hsv_histogram }

/-- `T_LINK` from `src/group/similarity.py`. -/
def T_LINK : ℚ := 0.72

/-- `T_CONFIRM` from `src/group/similarity.py`. -/
def T_CONFIRM : ℚ := 0.86

/-- `combine_components` from `src/group/similarity.py`: weighted sum in
the `WEIGHTS` insertion order, optional ORB blend, final clamp. -/
def combine_components (components : Components) (orb_score : Option ℚ) : ℚ :=
  let score := 0.35 * components.phash + 0.25 * components.dhash
    + 0.15 * components.ahash + 0.25 * components.hist
  let score :=
    match orb_score with
    | some o => 0.8 * score + 0.2 * clamp01 o
    | none => score
  clamp01 score

/-- `combined_similarity` from `src/group/similarity.py`. -/
def combined_similarity (fA fB : LogoFeatures) (orb_score : Option ℚ) : ℚ :=
  combine_components (base_similarity fA fB) orb_score

/-- Association-list lookup: the value stored under key `k`, by first
occurrence. Models Python `dict` access on the dict's items. -/
def alookup {α : Type} (k : String) : List (String × α) → Option α
  | [] => none
  | (k', v) :: rest => if k' = k then some v else alookup k rest

/-- The key list of an association list (Python `dict` iteration order). -/
def keysOf {α : Type} (m : List (String × α)) : List String := m.map Prod.fst

/-- Stable insertion into a list kept ascending with respect to the
strict comparison `lt`: the new element goes before the first existing
element it does not exceed. -/
def insSorted {α : Type} (lt : α → α → Bool) (x : α) : List α → List α
  | [] => [x]
  | y :: ys => if lt y x then y :: insSorted lt x ys else x :: y :: ys

/-- Stable ascending sort by the strict comparison `lt`: elements that
compare equal keep their original relative order. Models Python's
(stable) `list.sort` / `sorted`. -/
def isortBy {α : Type} (lt : α → α → Bool) : List α → List α
  | [] => []
  | x :: xs => insSorted lt x (isortBy lt xs)

/-- `shortlist_by_hash` from `src/group/similarity.py`. The feature map
is the association list of the Python dict's items, in insertion order.
(The `feature is fA` identity test of line 74 has no value-level content;
the accompanying `feature.website == fA.website` test is kept.) -/
def shortlist_by_hash (fA : LogoFeatures) (f_all : List (String × LogoFeatures))
    (max_candidates : Nat := 50) (max_hamming : Nat := 16) : List String :=
  if max_candidates = 0 then []
  else if strFalsy fA.perceptual.phash then []
  else
    let anchor_hash := fA.perceptual.phash.getD ""
    let ranked : List (Nat × String) := f_all.filterMap (fun wf =>
      if wf.2.website = fA.website then none
      else if strFalsy wf.2.perceptual.phash then none
      else
        match hamming_distance_hex anchor_hash (wf.2.perceptual.phash.getD "") with
        | none => none
        | some distance =>
          if distance ≤ max_hamming then some (distance, wf.1) else none)
    (((isortBy (fun p q => decide (p.1 < q.1)) ranked).take max_candidates).map Prod.snd)

/-- `orb_keypoints_match` from `src/features/shape.py`. The OpenCV
keypoint detection and matching is abstracted as the parameter `orbRaw`;
the function's final clamp to `[0, 1]` (line 51; the early returns are
`0.0`, also in range) is retained. -/
def orb_keypoints_match {Img : Type} (orbRaw : Img → Img → ℚ) (img1 img2 : Img) : ℚ :=
  clamp01 (orbRaw img1 img2)

/-- Lines 114-122 of `src/group/similarity.py` (the body of the inner
loop of `pairwise_scores` that computes the final score of one pair):
base components, base score, and the conditional ORB rescore. -/
def pair_final_score {Img : Type} (orbRaw : Img → Img → ℚ)
    (images_map : String → Option Img) (t_link : ℚ)
    (website candidate : String) (feature other_feature : LogoFeatures) : ℚ :=
  let components := base_similarity feature other_feature
  let score := combine_components components none
  if t_link - 0.05 ≤ score ∧ score ≤ t_link + 0.1 then
    match images_map website, images_map candidate with
    | some img_a, some img_b =>
      combine_components components (some (orb_keypoints_match orbRaw img_a img_b))
    | _, _ => score
  else score

/-- `pairwise_scores` from `src/group/similarity.py`, with the generator
materialised as a list. `images_map` is read only through `.get`, so it
is modelled as a function. -/
def pairwise_scores {Img : Type} (orbRaw : Img → Img → ℚ)
    (features_map : List (String × LogoFeatures)) (images_map : String → Option Img)
    (max_candidates : Nat := 50) (max_hamming : Nat := 16) (t_link : ℚ := T_LINK) :
    List (String × String × ℚ) :=
  if features_map.isEmpty then []
  else
    (isortBy strLt (keysOf features_map)).flatMap (fun website =>
      match alookup website features_map with
      | none => []
      | some feature =>
        (shortlist_by_hash feature features_map max_candidates max_hamming).filterMap
          (fun candidate =>
            match alookup candidate features_map with
            | none => none
            | some other_feature =>
              if strLe candidate website then none
              else
                let score := pair_final_score orbRaw images_map t_link
                  website candidate feature other_feature
                if score ≥ t_link then some (website, candidate, score) else none))

/-- Key-membership test for association lists (Python's `in` on dicts). -/
def containsKey {α : Type} (m : List (String × α)) (k : String) : Bool :=
  (alookup k m).isSome

/-- Python `dict` assignment `m[k] = v`: overwrite in place when the key
exists (its position is kept), append otherwise. -/
def assocSet {α : Type} (m : List (String × α)) (k : String) (v : α) :
    List (String × α) :=
  if containsKey m k then m.map (fun e => if e.1 = k then (k, v) else e)
  else m ++ [(k, v)]

/-- `UnionFind` from `src/group/unionfind.py`: the two dicts `_parent`
and `_rank`, as insertion-ordered association lists. -/
structure UnionFind where
  parent : List (String × String)
  rank : List (String × Nat)
deriving DecidableEq, Repr

/-- `UnionFind()` constructor. -/
def UnionFind.empty : UnionFind := ⟨[], []⟩

/-- Worker for `UnionFind.find` with explicit recursion depth. On the
states the program reaches, the parent map is an acyclic forest, so the
parent chain from any key reaches a root in fewer steps than the number
of keys; the wrapper therefore passes `parent.length` as fuel and the
fuel-exhausted branch is never taken. -/
def ufFind : Nat → UnionFind → String → String × UnionFind
  | fuel, uf, item =>
    match alookup item uf.parent with
    | none => (item, ⟨assocSet uf.parent item item, assocSet uf.rank item 0⟩)
    | some p =>
      if p = item then (item, uf)
      else
        match fuel with
        | 0 => (p, uf)
        | fuel' + 1 =>
          let ruf := ufFind fuel' uf p
          (ruf.1, ⟨assocSet ruf.2.parent item ruf.1, ruf.2.rank⟩)

/-- `UnionFind.find` from `src/group/unionfind.py` (recursive with path
compression; see `ufFind` for the fuel). -/
def UnionFind.find (uf : UnionFind) (item : String) : String × UnionFind :=
  ufFind uf.parent.length uf item

/-- `UnionFind.union` from `src/group/unionfind.py` (union by rank). The
rank lookups read keys that `find` has always populated on the states the
program reaches, so the `KeyError` path is modelled by the default 0. -/
def UnionFind.union (uf : UnionFind) (a b : String) : UnionFind :=
  let fa := uf.find a
  let fb := fa.2.find b
  let root_a := fa.1
  let root_b := fb.1
  let uf2 := fb.2
  if root_a = root_b then uf2
  else
    let rank_a := (alookup root_a uf2.rank).getD 0
    let rank_b := (alookup root_b uf2.rank).getD 0
    if rank_a < rank_b then { uf2 with parent := assocSet uf2.parent root_a root_b }
    else if rank_b < rank_a then { uf2 with parent := assocSet uf2.parent root_b root_a }
    else
      { parent := assocSet uf2.parent root_b root_a
        rank := assocSet uf2.rank root_a (rank_a + 1) }

/-- `UnionFind.add_all` from `src/group/unionfind.py`. -/
def UnionFind.add_all (uf : UnionFind) (items : List String) : UnionFind :=
  items.foldl (fun u item => (u.find item).2) uf

/-- One step of `UnionFind.groups`: append `item` to the bucket of its
root (`defaultdict(list)` semantics: first-seen roots keep order). -/
def bucketAdd (buckets : List (String × List String)) (root item : String) :
    List (String × List String) :=
  assocSet buckets root ((alookup root buckets).getD [] ++ [item])

/-- `UnionFind.groups` from `src/group/unionfind.py`. Python iterates the
`_parent` dict while `find` compresses paths; compression never adds or
removes keys, so iterating the snapshot of the key list is faithful. -/
def UnionFind.groups (uf : UnionFind) : List (String × List String) :=
  ((keysOf uf.parent).foldl
    (fun st item =>
      let r := st.1.find item
      (r.2, bucketAdd st.2 r.1 item))
    (uf, [])).2

/-- `build_similarity_edges` from `src/group/group_and_metrics.py` (the
`tqdm` progress wrapper and the identity `float()` are dropped). -/
def build_similarity_edges {Img : Type} (orbRaw : Img → Img → ℚ)
    (features : List (String × LogoFeatures)) (images : String → Option Img)
    (t_link : ℚ := T_LINK) : List (String × String × ℚ) :=
  pairwise_scores orbRaw features images 50 16 t_link

/-- The `metrics.json` payload assembled by `group_and_report`. -/
structure Metrics where
  total : Nat
  extracted : Nat
  coverage : ℚ
  pairs : Nat
  groups : Nat
  largest_group : Nat
  threshold : ℚ
deriving DecidableEq, Repr

/-- Strict comparison on `(-len(members), group_id)` used by
`group_and_report`'s `sorted(..., key=lambda item: (-len(item[1]), item[0]))`. -/
def groupKeyLt (g h : String × List String) : Bool :=
  decide (h.2.length < g.2.length) ||
    (decide (g.2.length = h.2.length) && strLt g.1 h.1)

/-- The pure content of `group_and_report` from
`src/group/group_and_metrics.py`: the `groups.json` payload (list of
`(group_id, members)`), the `pairs_sample.csv` rows are not modelled, and
the `metrics.json` payload. File writes and prints are I/O. -/
def group_and_report {Img : Type} (orbRaw : Img → Img → ℚ)
    (features_map : List (String × LogoFeatures)) (images_map : String → Option Img)
    (total_sites : Nat) (t_link : ℚ := T_LINK) :
    List (String × List String) × Metrics :=
  let edges := build_similarity_edges orbRaw features_map images_map t_link
  let uf0 := UnionFind.empty.add_all (keysOf features_map)
  let uf1 := edges.foldl (fun u e => u.union e.1 e.2.1) uf0
  let groups_map := uf1.groups
  let sorted_groups :=
    isortBy groupKeyLt (groups_map.map (fun rm => (rm.1, isortBy strLt rm.2)))
  let extracted := features_map.length
  let coverage := if total_sites ≠ 0 then (extracted : ℚ) / (total_sites : ℚ) else 0
  let largest_group := (sorted_groups.map (fun g => g.2.length)).foldl max 0
  (sorted_groups,
    { total := total_sites
      extracted := extracted
      coverage := coverage
      pairs := edges.length
      groups := sorted_groups.length
      largest_group := largest_group
      threshold := t_link })

/-- `_LOGO_FILENAME_EXTS` from `src/crawl/discover_candidates.py`. -/
def LOGO_FILENAME_EXTS : List String :=
  [".svg", ".png", ".jpg", ".jpeg", ".webp", ".ico", ".gif"]

/-- The alternatives of `_UNLIKELY_FILENAME_PATTERN` (a plain-word
alternation, so regex `search` is substring containment of one of the
words; the input is lowercased first, subsuming `re.IGNORECASE`). -/
def UNLIKELY_WORDS : List String :=
  ["hero", "banner", "placeholder", "header", "cover", "background", "slider"]

/-- Characters of `l` before the first occurrence of `c` (Python's
`s.split(c, 1)[0]`). -/
def takeUntilChar (c : Char) (l : List Char) : List Char := l.takeWhile (· ≠ c)

/-- Characters after the last `/` (Python's `s.rsplit("/", 1)[-1]`). -/
def afterLastChar (c : Char) (l : List Char) : List Char :=
  (l.reverse.takeWhile (· ≠ c)).reverse

/-- `is_plausible_logo_filename` from `src/crawl/discover_candidates.py`. -/
def is_plausible_logo_filename (path : String) : Bool :=
  if strIsEmpty path then true
  else
    let sanitized := String.mk (takeUntilChar '#' (takeUntilChar '?' path.data))
    if strIsEmpty sanitized then true
    else
      let filename := String.mk (afterLastChar '/' sanitized.data)
      if strIsEmpty filename then true
      else
        let lower := strLower filename
        if UNLIKELY_WORDS.any (fun w => strContains lower w) then false
        else
          let extBad :=
            if lower.data.contains '.' then
              !(LOGO_FILENAME_EXTS.contains
                (String.mk ('.' :: afterLastChar '.' lower.data)))
            else false
          if extBad then false
          else if ["logo", "brand", "icon", "mark", "favicon"].any
              (fun key => strContains lower key) then true
          else LOGO_FILENAME_EXTS.any (fun ext => strEnds lower ext)

/-- The `image_info` dict sniffed from image bytes
(`src/extract/select_logo.py`). Numeric-or-absent fields are `Option ℚ`
(`_coerce_numeric` treats non-numeric values as absent); `has_alpha` is
read through `bool(...)`. -/
structure ImageInfo where
  width : Option ℚ
  height : Option ℚ
  has_alpha : Bool
  mime : Option String
  aspect_ratio : Option ℚ
deriving DecidableEq, Repr

/-- A candidate dict as read and written by `select_best`
(`src/extract/select_logo.py`). `src` holds string values only
(`isinstance` guards make non-strings behave as absent); `score` is the
`"_score"` key. The free-form `source`/`context` keys are never read by
the selector and are omitted. -/
structure Candidate where
  src : Option String
  confidence : Option ℚ
  resolved_src : Option String
  image_bytes : Option (List Nat)
  image_info : Option ImageInfo
  score : Option ℚ
deriving DecidableEq, Repr

/-- The all-absent candidate dict (out-of-range heap reads fall back to
it; theorems assume valid addresses). -/
def emptyCandidate : Candidate :=
  { src := none, confidence := none, resolved_src := none
    image_bytes := none, image_info := none, score := none }

/-- `float(candidate.get("confidence", 0.0) or 0.0)`: absent and falsy
values both read as 0. -/
def confVal (c : Candidate) : ℚ := c.confidence.getD 0

/-- External collaborators of the selector, abstracted as functions:
the HTTP transport of `fetch_image_bytes`, the PIL/XML sniffing of
`sniff_image_info`, `base64.b64decode(validate=True)`,
`urllib.parse.unquote_to_bytes`, and `urllib.parse.urljoin` (reached via
`normalize_url` from `src/crawl/fetch.py`, which never raises). -/
structure SelectOracles where
  fetchHttp : String → Option String → Option (List Nat)
  sniffRaw : List Nat → Option ImageInfo
  b64decode : String → Option (List Nat)
  pctdecode : String → Option (List Nat)
  urljoin : String → String → String

/-- `fetch_image_bytes` from `src/extract/select_logo.py` (the guard is
code; the GET itself is the oracle, `none` covering every transport
error). -/
def fetch_image_bytes (O : SelectOracles) (url : String) (referer : Option String) :
    Option (List Nat) :=
  if strIsEmpty url then none else O.fetchHttp url referer

/-- `sniff_image_info` from `src/extract/select_logo.py` (the emptiness
guard is code; decoding is the oracle). -/
def sniff_image_info (O : SelectOracles) (image_bytes : List Nat) : Option ImageInfo :=
  if image_bytes.isEmpty then none else O.sniffRaw image_bytes

/-- Split on the first occurrence of `c`; `none` when `c` is absent
(Python's 2-target unpacking of `split(c, 1)` raising `ValueError`). -/
def splitFirst (c : Char) (s : String) : Option (String × String) :=
  if s.data.contains c then
    some (String.mk (s.data.takeWhile (· ≠ c)),
      String.mk ((s.data.dropWhile (· ≠ c)).drop 1))
  else none

/-- `_decode_data_uri` from `src/extract/select_logo.py`. -/
def decode_data_uri (O : SelectOracles) (uri : String) : Option (List Nat) :=
  if !strContains uri "data:" then none
  else
    match splitFirst ',' uri with
    | none => none
    | some hd =>
      if strContains hd.1 ";base64" then O.b64decode hd.2 else O.pctdecode hd.2

/-- `_load_candidate_bytes` from `src/extract/select_logo.py`. -/
def load_candidate_bytes (O : SelectOracles) (src : Option String)
    (referer : Option String) : Option (List Nat) :=
  match src with
  | none => none
  | some s =>
    if strIsEmpty s then none
    else if strStarts s "data:" then decode_data_uri O s
    else fetch_image_bytes O s referer

/-- `_resolve_candidate_src` from `src/extract/select_logo.py`
(`normalize_url(value, base_url)` is `urljoin(base_url, value)`, which
does not raise, so the defensive `except` branch is dead). -/
def resolve_candidate_src (O : SelectOracles) (src : Option String)
    (base_url : String) : Option String :=
  match src with
  | none => none
  | some s =>
    if strIsEmpty (strStrip s) then none
    else
      let value := strStrip s
      if strStarts value "data:" then some value
      else some (O.urljoin base_url value)

/-- `score_candidate` from `src/extract/select_logo.py`. -/
def score_candidate (candidate : Candidate) (image_info : Option ImageInfo) : ℚ :=
  let base := confVal candidate
  match image_info with
  | none => base
  | some info =>
    let score := base
    let score := if info.has_alpha then score + 0.05 else score
    let score :=
      match info.aspect_ratio with
      | some ar => if 0.8 ≤ ar ∧ ar ≤ 5.0 then score + 0.05 else score
      | none => score
    match info.width, info.height with
    | some w, some h =>
      let score := if min w h < 48 then score - 0.10 else score
      let score :=
        if (match info.aspect_ratio with
            | some ar => decide (ar > 6.0)
            | none => false) = true ∨ (w > 1024 ∧ h > 1024 ∧ !info.has_alpha) then
          score - 0.15
        else score
      score
    | _, _ => score

/-- `_MAX_FETCH` from `src/extract/select_logo.py`. -/
def MAX_FETCH : Nat := 6

/-- Read of a heap address (theorems restrict to valid addresses). -/
def heapGet (heap : List Candidate) (a : Nat) : Candidate :=
  heap.getD a emptyCandidate

/-- `top.setdefault("resolved_src", resolved)` guarded by `if resolved:`
on a candidate copy. -/
def setResolved (c : Candidate) (resolved : Option String) : Candidate :=
  match resolved with
  | some r => if c.resolved_src = none then { c with resolved_src := some r } else c
  | none => c

/-- The byte-loading attempt of one loop iteration (lines 143-144 of
`src/extract/select_logo.py`): only the first `_MAX_FETCH` candidates are
attempted. -/
def fetchAttempt (O : SelectOracles) (base_url : String) (index : Nat)
    (orig : Candidate) : Option (List Nat) :=
  if index < MAX_FETCH then
    load_candidate_bytes O (resolve_candidate_src O orig.src base_url) (some base_url)
  else none

/-- Whether the iteration obtained (non-empty) bytes (the `if
image_bytes:` truthiness checks). -/
def gotBytesAt (O : SelectOracles) (base_url : String) (index : Nat)
    (orig : Candidate) : Bool :=
  match fetchAttempt O base_url index orig with
  | some b => !b.isEmpty
  | none => false

/-- The per-candidate work of one non-lazy loop iteration (lines 135-152
of `src/extract/select_logo.py`): `dict(candidate)` copy, `resolved_src`
enrichment, conditional byte fetch and sniff, scoring, and the `_score`
write. The returned value is the fully-written copy. -/
def enrichCandidate (O : SelectOracles) (base_url : String) (index : Nat)
    (orig : Candidate) : Candidate :=
  let resolved_src := resolve_candidate_src O orig.src base_url
  let copy1 := setResolved orig resolved_src
  let image_bytes := fetchAttempt O base_url index orig
  let gotBytes := gotBytesAt O base_url index orig
  let image_info :=
    if gotBytes then sniff_image_info O (image_bytes.getD []) else none
  let copy2 :=
    if gotBytes then
      { copy1 with
        image_bytes := image_bytes
        image_info := if image_info.isSome then image_info else copy1.image_info }
    else copy1
  let score := score_candidate copy2 image_info
  { copy2 with score := some score }

/-- One Python `if score > running_max:` update of a running maximum,
the maximum starting at `-inf` (`none`). -/
def maxStep (newAddr : Nat) (score : ℚ) (acc : Option (Nat × ℚ)) : Option (Nat × ℚ) :=
  match acc with
  | none => some (newAddr, score)
  | some p => if p.2 < score then some (newAddr, score) else some p

/-- The non-lazy loop of `select_best` (lines 129-162 of
`src/extract/select_logo.py`): one `enrichCandidate` copy per candidate
address (`dict(candidate)` allocates a fresh dict, mutated only while no
other reference observes it, so appending the fully-written copy is
faithful), with the running maxima updated by strict `>` against scores
started at `-inf`, and the final `best_with_bytes or fallback_best`. -/
def selectLoop (O : SelectOracles) (base_url : String) :
    List Nat → Nat → List Candidate → Option (Nat × ℚ) → Option (Nat × ℚ) →
    Option Nat × List Candidate
  | [], _, heap, best_with_bytes, fallback_best =>
    ((best_with_bytes.map Prod.fst).orElse (fun _ => fallback_best.map Prod.fst), heap)
  | a :: rest, index, heap, best_with_bytes, fallback_best =>
    let orig := heapGet heap a
    let copy3 := enrichCandidate O base_url index orig
    let gotBytes := gotBytesAt O base_url index orig
    let score := copy3.score.getD 0
    let newAddr := heap.length
    let fallback' := maxStep newAddr score fallback_best
    let best' :=
      if gotBytes then maxStep newAddr score best_with_bytes else best_with_bytes
    selectLoop O base_url rest (index + 1) (heap ++ [copy3]) best' fallback'

/-- `select_best` from `src/extract/select_logo.py`. The candidate list
is a list of addresses into a heap of candidate dicts (so that sharing
and copying are explicit); the returned address points at the chosen
enriched copy, and the final heap is returned alongside. `sorted(...,
reverse=True)` is stable descending sort by confidence. -/
def select_best (O : SelectOracles) (heap : List Candidate) (candidates : List Nat)
    (base_url : String) (lazy : Bool) : Option Nat × List Candidate :=
  if candidates.isEmpty then (none, heap)
  else
    let ordered := isortBy
      (fun x y => decide (confVal (heapGet heap y) < confVal (heapGet heap x)))
      candidates
    if lazy then
      let orig := heapGet heap (ordered.headD 0)
      let resolved := resolve_candidate_src O orig.src base_url
      let top := setResolved orig resolved
      (some heap.length, heap ++ [top])
    else
      selectLoop O base_url ordered 0 heap none none

/-- The query/fragment stripping step of `is_plausible_logo_filename`
(`path.split("?", 1)[0].split("#", 1)[0]`). -/
def sanitizedOf (path : String) : String :=
  String.mk (takeUntilChar '#' (takeUntilChar '?' path.data))

/-- The filename component examined by `is_plausible_logo_filename`:
query/fragment stripped, then everything after the last `/`. -/
def filenameOf (path : String) : String :=
  String.mk (afterLastChar '/' (takeUntilChar '#' (takeUntilChar '?' path.data)))

/-- The plausible-filename acceptance rule as the claim describes it,
with the pattern rejection applied to the filename (the amended reading):
reject when the filename matches `hero|banner|placeholder|header|cover|
background|slider` case-insensitively; reject when it carries an
extension outside `{svg,png,jpg,jpeg,webp,ico,gif}`; otherwise accept
exactly when the filename contains `logo|brand|icon|mark|favicon` or ends
in one of those extensions. -/
def claimFilenameRule (filename : String) : Bool :=
  let lower := strLower filename
  if UNLIKELY_WORDS.any (fun w => strContains lower w) then false
  else if lower.data.contains '.' &&
      !(LOGO_FILENAME_EXTS.contains (String.mk ('.' :: afterLastChar '.' lower.data))) then
    false
  else
    (["logo", "brand", "icon", "mark", "favicon"].any (fun key => strContains lower key)) ||
      LOGO_FILENAME_EXTS.any (fun ext => strEnds lower ext)

/-- The scoring rule exactly as the claim words it: the base score `s`
is the weighted sum `0.35·phash + 0.25·dhash + 0.15·ahash + 0.25·hist`
clamped to `[0, 1]`; an ORB score `o` is computed and blended as
`clamp(0.8·s + 0.2·o)` precisely when `s ∈ [T_LINK − 0.05, T_LINK + 0.10]`
and both normalized images are available. -/
def claimPairScore {Img : Type} (orbRaw : Img → Img → ℚ)
    (images_map : String → Option Img)
    (website candidate : String) (fA fB : LogoFeatures) : ℚ :=
  let c := base_similarity fA fB
  let s := clamp01 (0.35 * c.phash + 0.25 * c.dhash + 0.15 * c.ahash + 0.25 * c.hist)
  match images_map website, images_map candidate with
  | some img_a, some img_b =>
    if T_LINK - 0.05 ≤ s ∧ s ≤ T_LINK + 0.1 then
      clamp01 (0.8 * s + 0.2 * orb_keypoints_match orbRaw img_a img_b)
    else s
  | _, _ => s

/-- Concrete feature row used by witnesses: all three hashes equal, empty
histogram. -/
def uniformFeat (w h : String) : LogoFeatures :=
  { website := w, perceptual := ⟨some h, some h, some h⟩
    hsv_histogram := [], dominant_hues := [] }

def featB : LogoFeatures := uniformFeat "b" "0000000000000033"

def featC : LogoFeatures := uniformFeat "c" "0000000000000000"

def featD : LogoFeatures := uniformFeat "d" "0000000000000003"

def featE : LogoFeatures := uniformFeat "e" "000000000000000c"

/-- Witness feature map in insertion order `b, c, d, e`. -/
def mapBCDE : List (String × LogoFeatures) :=
  [("b", featB), ("c", featC), ("d", featD), ("e", featE)]

/-- The same feature map with `e` inserted before `d`. -/
def mapBCED : List (String × LogoFeatures) :=
  [("b", featB), ("c", featC), ("e", featE), ("d", featD)]

/-- Image map with no images (ORB is then never computed). -/
def noImages : String → Option Unit := fun _ => none

/-- Trivial stand-in for the OpenCV matcher (never reached with
`noImages`). -/
def zeroOrb : Unit → Unit → ℚ := fun _ _ => 0

/-- Sortedness with respect to a strict Bool comparison: no later element
compares strictly below an earlier one. -/
abbrev SortedB {α : Type} (lt : α → α → Bool) (l : List α) : Prop :=
  l.Pairwise (fun a b => lt b a = false)

/-- Claim-side transcription of an anchor's eligible candidates: one
`(hamming distance, website)` entry for every other site with a usable
pHash within `max_hamming`, in feature-map iteration order. -/
def rankedOf (fA : LogoFeatures) (f_all : List (String × LogoFeatures))
    (max_hamming : Nat) : List (Nat × String) :=
  if strFalsy fA.perceptual.phash then []
  else
    f_all.filterMap (fun wf =>
      if wf.2.website = fA.website then none
      else if strFalsy wf.2.perceptual.phash then none
      else
        match hamming_distance_hex (fA.perceptual.phash.getD "")
            (wf.2.perceptual.phash.getD "") with
        | none => none
        | some distance =>
          if distance ≤ max_hamming then some (distance, wf.1) else none)

/-- Strict comparison by hamming distance alone (the `key=item[0]` of the
code's `ranked.sort`). -/
def distLt (p q : Nat × String) : Bool := decide (p.1 < q.1)

/-- Comparison by `(distance, website)` — the tie-breaking the claim
asserts (distance ascending, then website key ascending). -/
def distKeyLt (p q : Nat × String) : Bool :=
  decide (p.1 < q.1) || (decide (p.1 = q.1) && strLt p.2 q.2)

/-- The shortlist as the claim describes it, ties at equal distance
broken by website key ascending. -/
def claimShortlistKeyTies (fA : LogoFeatures)
    (f_all : List (String × LogoFeatures)) : List String :=
  ((isortBy distKeyLt (rankedOf fA f_all 16)).take 50).map Prod.snd

/-- Anchor and feature map for the C2 counterexample: both candidates sit
at hamming distance 1 from the anchor, and the map lists `c` before `b`. -/
def anchorA : LogoFeatures := uniformFeat "a" "00"

def mapCB : List (String × LogoFeatures) :=
  [("c", uniformFeat "c" "01"), ("b", uniformFeat "b" "01")]

/-- One step of Python's first-maximum fold over abstract items. -/
def argStep {α : Type} (key : α → ℚ) (acc : Option α) (x : α) : Option α :=
  match acc with
  | none => some x
  | some b => if key b < key x then some x else some b

/-- First maximum of a list under `key` (Python's running maximum with a
strict `>` update starting at `-inf`). -/
def argFold {α : Type} (key : α → ℚ) (acc : Option α) (l : List α) : Option α :=
  l.foldl (argStep key) acc

/-- The enriched copy and the obtained-bytes flag of every candidate, in
visit order with running index. -/
def evalsOf (O : SelectOracles) (base_url : String) (heap : List Candidate) :
    List Nat → Nat → List (Candidate × Bool)
  | [], _ => []
  | a :: rest, i =>
    (enrichCandidate O base_url i (heapGet heap a),
      gotBytesAt O base_url i (heapGet heap a)) :: evalsOf O base_url heap rest (i + 1)

/-- The `_score` written on an enriched copy. -/
def scoreKeyC (c : Candidate) : ℚ := c.score.getD 0

/-- Non-lazy selection exactly as the claim words it: sort by confidence
descending (stable), enrich every candidate — bytes are attempted only
for the first `_MAX_FETCH = 6` in that order, and every candidate gets a
score — then return the highest-scoring candidate that obtained bytes,
or, if none did, the highest-scoring candidate overall. -/
def claimSelect (O : SelectOracles) (heap : List Candidate)
    (candidates : List Nat) (base_url : String) : Option Candidate :=
  let ordered := isortBy
    (fun x y => decide (confVal (heapGet heap y) < confVal (heapGet heap x)))
    candidates
  let evals := evalsOf O base_url heap ordered 0
  (argFold scoreKeyC none ((evals.filter (fun p => p.2)).map Prod.fst)).orElse
    (fun _ => argFold scoreKeyC none (evals.map Prod.fst))

/-- Oracles with no network, no decodable bytes, and a urljoin that
returns its second argument; used only to witness selector theorems. -/
def trivialOracles : SelectOracles :=
  { fetchHttp := fun _ _ => none
    sniffRaw := fun _ => none
    b64decode := fun _ => none
    pctdecode := fun _ => none
    urljoin := fun _ u => u }

/-- The concatenation of all member lists of a `groups()` bucket map
(`[m for members in groups.values() for m in members]`). -/
def flattenB : List (String × List String) → List String
  | [] => []
  | e :: rest => e.2 ++ flattenB rest

/-- The union-find state in which every key of `ks` is its own parent
with rank `0`: the state `add_all` builds from a fresh `UnionFind()`. -/
def diagUF (ks : List String) : UnionFind :=
  ⟨ks.map (fun x => (x, x)), ks.map (fun x => (x, 0))⟩

/-- The key set produced by running `add_all` items against an existing
key list `ks`: already-present items are skipped, new ones appended. -/
def addNewKeys (ks : List String) : List String → List String
  | [] => ks
  | i :: rest => if i ∈ ks then addNewKeys ks rest else addNewKeys (ks ++ [i]) rest

/-- Invariant of the `_parent` dict: every stored parent is itself a
key. All states reached by the pipeline satisfy it. -/
def ufClosed (uf : UnionFind) : Prop :=
  ∀ p ∈ uf.parent, p.2 ∈ keysOf uf.parent

/-- `w` is a root that no other key points to: its `_parent` entry is
itself and no other entry stores `w`. Websites incident to no edge stay
in this state through every `union` of the pipeline. -/
def untouched (w : String) (uf : UnionFind) : Prop :=
  alookup w uf.parent = some w ∧ ∀ p ∈ uf.parent, p.1 ≠ w → p.2 ≠ w

/-- The step function of the fold inside `UnionFind.groups`. -/
def gstep (st : UnionFind × List (String × List String)) (item : String) :
    UnionFind × List (String × List String) :=
  ((st.1.find item).2, bucketAdd st.2 (st.1.find item).1 item)

/-- The step function of the edge-merging fold of `group_and_report`. -/
def ustep (u : UnionFind) (e : String × String × ℚ) : UnionFind :=
  u.union e.1 e.2.1

/-- The step function of `UnionFind.add_all`. -/
def addStep (u : UnionFind) (item : String) : UnionFind := (u.find item).2

/-- The union-find state built by `group_and_report` (its local `uf`
after `add_all` and the edge-merging loop, lines 53-58 of
`src/group/group_and_metrics.py`). -/
def pipeline_uf {Img : Type} (orbRaw : Img → Img → ℚ)
    (features_map : List (String × LogoFeatures)) (images_map : String → Option Img)
    (t_link : ℚ) : UnionFind :=
  (build_similarity_edges orbRaw features_map images_map t_link).foldl
    (fun u e => u.union e.1 e.2.1)
    (UnionFind.empty.add_all (keysOf features_map))

/-- A feature record with no perceptual hashes: its site joins no edge. -/
def noHashFeat (w : String) : LogoFeatures :=
  { website := w
    perceptual := { ahash := none, dhash := none, phash := none }
    hsv_histogram := []
    dominant_hues := [] }

/-- Two-site feature map with hash-free features for the C7 witness. -/
def mapXY : List (String × LogoFeatures) :=
  [("x", noHashFeat "x"), ("y", noHashFeat "y")]

/-- The parent value stored for `k` in the `_rank` dict read with the
`.get(k, 0)`-style default the code's arithmetic relies on. -/
def rkOf (uf : UnionFind) (k : String) : Nat := (alookup k uf.rank).getD 0

/-- Pure parent-pointer chasing with explicit fuel: the root computation
performed by `UnionFind.find`, without the path-compression writes. -/
def chase : Nat → List (String × String) → String → String
  | fuel, m, k =>
    match alookup k m with
    | none => k
    | some p =>
      if p = k then k
      else
        match fuel with
        | 0 => p
        | f + 1 => chase f m p

/-- Union-by-rank invariant: ranks strictly increase along parent
pointers. It holds for every state the pipeline reaches and bounds the
parent-chain length, making the recursion depth of `find` sufficient. -/
def RankInv (uf : UnionFind) : Prop :=
  ∀ k p, alookup k uf.parent = some p → p ≠ k → rkOf uf k < rkOf uf p

/-- Number of keys of strictly larger rank: the decreasing measure along
a parent chain. -/
def muOf (uf : UnionFind) (k : String) : Nat :=
  ((keysOf uf.parent).filter (fun x => decide (rkOf uf k < rkOf uf x))).length

/-- Lookup-equivalence of two union-find states: equal parent and rank
dictionaries as functions, and equally many parent entries. Two pipeline
runs over permuted feature maps stay in this relation. -/
def UFR (S₁ S₂ : UnionFind) : Prop :=
  (∀ k, alookup k S₁.parent = alookup k S₂.parent) ∧
    (∀ k, alookup k S₁.rank = alookup k S₂.rank) ∧
    S₁.parent.length = S₂.parent.length

/-- Tie-free two-site feature map, and the same map reversed. -/
def mapBD : List (String × LogoFeatures) := [("b", featB), ("d", featD)]

def mapDB : List (String × LogoFeatures) := [("d", featD), ("b", featB)]

theorem strIsEmpty_iff {s : String} : strIsEmpty s = true ↔ s.data = [] := by
  cases s with
  | mk l => simp [strIsEmpty, List.isEmpty_iff]

theorem sanitized_fold (path : String) :
    String.mk (takeUntilChar '#' (takeUntilChar '?' path.data)) = sanitizedOf path := rfl

theorem filename_fold (path : String) :
    String.mk (afterLastChar '/' (takeUntilChar '#' (takeUntilChar '?' path.data))) =
      filenameOf path := rfl

theorem plausible_eq_rule (path : String) (hp : strIsEmpty path = false)
    (hs : strIsEmpty (sanitizedOf path) = false)
    (hf : strIsEmpty (filenameOf path) = false) :
    is_plausible_logo_filename path = claimFilenameRule (filenameOf path) := by
  rw [is_plausible_logo_filename]
  simp only []
  rw [sanitized_fold, hs, hp]
  simp only [Bool.false_eq_true, if_false]
  rw [filename_fold, hf]
  simp only [Bool.false_eq_true, if_false]
  rw [claimFilenameRule]
  by_cases hw : (UNLIKELY_WORDS.any
      (fun w => strContains (strLower (filenameOf path)) w)) = true
  · simp [hw]
  · simp only [Bool.not_eq_true] at hw
    simp only [hw, Bool.false_eq_true, if_false]
    by_cases hdot : ((strLower (filenameOf path)).data.contains '.') = true
    · simp only [hdot, Bool.true_and]
      by_cases hext : (LOGO_FILENAME_EXTS.contains
          (String.mk ('.' :: afterLastChar '.' (strLower (filenameOf path)).data))) = true
      · simp [hext]
      · simp only [Bool.not_eq_true] at hext
        simp [hext]
    · simp only [Bool.not_eq_true] at hdot
      simp [hdot]

/-- C6 (counterexample): the claim says the filter rejects any path
matching `hero|banner|placeholder|header|cover|background|slider`
case-insensitively, but the code applies the pattern to the filename
component only, so `/hero/logo.png` — whose path matches `hero` — is
accepted. -/
theorem C6_counterexample :
    is_plausible_logo_filename "/hero/logo.png" = true ∧
      strContains (strLower "/hero/logo.png") "hero" = true := by
  decide

/-- C6 (amended): for every path with a non-empty filename component
(query/fragment stripped, after the last slash), the filter decides
acceptance exactly by the claim's rule applied to that filename — the
`hero|banner|placeholder|header|cover|background|slider` rejection tests
the filename rather than the whole path; an extension outside
`{svg,png,jpg,jpeg,webp,ico,gif}` rejects; otherwise the path is accepted
exactly when the filename contains `logo|brand|icon|mark|favicon` or ends
in one of those extensions. -/
theorem C6_filter_matches_filename_rule (path : String)
    (hfn : strIsEmpty (filenameOf path) = false) :
    is_plausible_logo_filename path = claimFilenameRule (filenameOf path) := by
  have hpath : strIsEmpty path = false := by
    cases hp : strIsEmpty path
    · rfl
    · exfalso
      have hd : path.data = [] := strIsEmpty_iff.mp hp
      rw [filenameOf] at hfn
      simp [hd, takeUntilChar, afterLastChar, strIsEmpty] at hfn
  have hsan : strIsEmpty (sanitizedOf path) = false := by
    cases hs : strIsEmpty (sanitizedOf path)
    · rfl
    · exfalso
      have hd : (takeUntilChar '#' (takeUntilChar '?' path.data)) = [] := by
        have := strIsEmpty_iff.mp hs
        simpa [sanitizedOf] using this
      rw [filenameOf] at hfn
      simp [hd, afterLastChar, strIsEmpty] at hfn
  exact plausible_eq_rule path hpath hsan hfn

/-- C6 (witness for the amended theorem): the rule agrees with the code
on `/img/brand-icon.webp`, whose filename is non-empty. -/
theorem C6_filter_matches_filename_rule_witness :
    strIsEmpty (filenameOf "/img/brand-icon.webp") = false ∧
      is_plausible_logo_filename "/img/brand-icon.webp" =
        claimFilenameRule (filenameOf "/img/brand-icon.webp") :=
  ⟨by decide, C6_filter_matches_filename_rule "/img/brand-icon.webp" (by decide)⟩

/-- C9: a path with no filename component — empty, reduced to empty by
query/fragment stripping, or ending in `/` after stripping — is always
accepted by the plausible-filename filter, regardless of keywords and
extensions. -/
theorem C9_no_filename_accepted (path : String)
    (h : path.data = [] ∨ strIsEmpty (sanitizedOf path) = true ∨
      strEnds (sanitizedOf path) "/" = true) :
    is_plausible_logo_filename path = true := by
  rcases h with h | h | h
  · rw [is_plausible_logo_filename]
    simp [strIsEmpty, h]
  · by_cases hp : strIsEmpty path = true
    · rw [is_plausible_logo_filename, hp]
      simp
    · simp only [Bool.not_eq_true] at hp
      rw [is_plausible_logo_filename, hp]
      simp only [Bool.false_eq_true, if_false]
      rw [sanitized_fold, h]
      simp
  · by_cases hp : strIsEmpty path = true
    · rw [is_plausible_logo_filename, hp]
      simp
    · simp only [Bool.not_eq_true] at hp
      by_cases hs : strIsEmpty (sanitizedOf path) = true
      · rw [is_plausible_logo_filename, hp]
        simp only [Bool.false_eq_true, if_false]
        rw [sanitized_fold, hs]
        simp
      · simp only [Bool.not_eq_true] at hs
        rw [is_plausible_logo_filename, hp]
        simp only [Bool.false_eq_true, if_false]
        rw [sanitized_fold, hs]
        simp only [Bool.false_eq_true, if_false]
        have hrev : ∃ t, (sanitizedOf path).data.reverse = '/' :: t := by
          rcases hr : (sanitizedOf path).data.reverse with _ | ⟨c, t⟩
          · rw [strEnds, hr] at h
            simp [List.isPrefixOf] at h
          · rw [strEnds, hr] at h
            simp only [List.isPrefixOf, List.isPrefixOf, Bool.and_eq_true,
              beq_iff_eq] at h
            refine ⟨t, ?_⟩
            rw [h.1]
        obtain ⟨t, ht⟩ := hrev
        rw [filename_fold]
        have hfe : strIsEmpty (filenameOf path) = true := by
          have : filenameOf path =
              String.mk (afterLastChar '/' (sanitizedOf path).data) := rfl
          rw [this]
          simp [afterLastChar, ht, strIsEmpty]
        rw [hfe]
        simp

/-- C9 (witness): the filter accepts the filename-less path `dir/`. -/
theorem C9_no_filename_accepted_witness :
    (("dir/" : String).data = [] ∨ strIsEmpty (sanitizedOf "dir/") = true ∨
      strEnds (sanitizedOf "dir/") "/" = true) ∧
      is_plausible_logo_filename "dir/" = true :=
  ⟨by decide, C9_no_filename_accepted "dir/" (by decide)⟩

theorem clamp01_nonneg (x : ℚ) : 0 ≤ clamp01 x := le_max_left 0 (min 1 x)

theorem clamp01_le_one (x : ℚ) : clamp01 x ≤ 1 :=
  max_le (by norm_num) (min_le_left 1 x)

theorem clamp01_eq_self {x : ℚ} (h0 : 0 ≤ x) (h1 : x ≤ 1) : clamp01 x = x := by
  rw [clamp01, min_eq_right h1, max_eq_right h0]

theorem hamming_distance_hex_comm (h1 h2 : String) :
    hamming_distance_hex h1 h2 = hamming_distance_hex h2 h1 := by
  simp only [hamming_distance_hex]
  rw [max_comm (strLen (normalise_hex h2)) (strLen (normalise_hex h1))]
  by_cases hL : max (strLen (normalise_hex h1)) (strLen (normalise_hex h2)) = 0
  · simp [hL]
  · simp only [hL, if_false]
    cases hp1 : parseHex (zfill (normalise_hex h1)
        (max (strLen (normalise_hex h1)) (strLen (normalise_hex h2)))) <;>
      cases hp2 : parseHex (zfill (normalise_hex h2)
        (max (strLen (normalise_hex h1)) (strLen (normalise_hex h2)))) <;>
        simp [hp1, hp2, Nat.xor_comm]

theorem hash_similarity_comm (a b : Option String) :
    hash_similarity a b = hash_similarity b a := by
  rw [hash_similarity, hash_similarity, hamming_distance_hex_comm]
  by_cases hf : (strFalsy a = true) ∨ (strFalsy b = true)
  · rcases hf with h | h <;> simp [h]
  · push_neg at hf
    simp [hf.1, hf.2]

theorem foldl_min_zip_comm (a : List ℚ) :
    ∀ (b : List ℚ) (init : ℚ),
      (List.zip a b).foldl (fun total p => total + min p.1 p.2) init =
        (List.zip b a).foldl (fun total p => total + min p.1 p.2) init := by
  induction a with
  | nil => intro b init; cases b <;> simp
  | cons x xs ih =>
    intro b init
    cases b with
    | nil => simp
    | cons y ys =>
      simp only [List.zip_cons_cons, List.foldl_cons]
      rw [min_comm x y]
      exact ih ys (init + min y x)

theorem histogram_intersection_comm (a b : List ℚ) :
    histogram_intersection a b = histogram_intersection b a := by
  rw [histogram_intersection, histogram_intersection]
  by_cases he : (a.isEmpty = true) ∨ (b.isEmpty = true)
  · rcases he with h | h <;> simp [h]
  · push_neg at he
    simp only [he.1, he.2, Bool.false_eq_true, or_self, if_false]
    rw [foldl_min_zip_comm]

/-- C8: `combined_similarity` is symmetric in its two feature arguments
for every optional ORB score, and its value always lies in `[0, 1]`. -/
theorem C8_combined_similarity_symm_bounded (fA fB : LogoFeatures)
    (orb_score : Option ℚ) :
    combined_similarity fA fB orb_score = combined_similarity fB fA orb_score ∧
      0 ≤ combined_similarity fA fB orb_score ∧
      combined_similarity fA fB orb_score ≤ 1 := by
  refine ⟨?_, ?_, ?_⟩
  · rw [combined_similarity, combined_similarity]
    have hbase : base_similarity fA fB = base_similarity fB fA := by
      rw [base_similarity, base_similarity, hash_similarity_comm,
        hash_similarity_comm fA.perceptual.dhash, hash_similarity_comm fA.perceptual.phash,
        histogram_intersection_comm]
    rw [hbase]
  · exact clamp01_nonneg _
  · exact clamp01_le_one _

theorem clamp01_mem (x : ℚ) : 0 ≤ clamp01 x ∧ clamp01 x ≤ 1 :=
  ⟨clamp01_nonneg x, clamp01_le_one x⟩

theorem clamp01_idem (x : ℚ) : clamp01 (clamp01 x) = clamp01 x :=
  clamp01_eq_self (clamp01_nonneg x) (clamp01_le_one x)

theorem hash_similarity_mem (a b : Option String) :
    0 ≤ hash_similarity a b ∧ hash_similarity a b ≤ 1 := by
  rw [hash_similarity]
  by_cases hf : (strFalsy a = true) ∨ (strFalsy b = true)
  · simp only [hf, if_true]
    norm_num
  · simp only [hf, if_false]
    cases hamming_distance_hex (a.getD "") (b.getD "") with
    | none => norm_num
    | some d => exact clamp01_mem _

theorem histogram_intersection_mem (a b : List ℚ) :
    0 ≤ histogram_intersection a b ∧ histogram_intersection a b ≤ 1 := by
  rw [histogram_intersection]
  by_cases he : (a.isEmpty = true) ∨ (b.isEmpty = true)
  · simp only [he, if_true]
    norm_num
  · simp only [he, if_false]
    exact clamp01_mem _

/-- The weighted sum of the base components lies in `[0, 1]`, so the
final clamp of `combine_components` is the identity on the base score. -/
theorem base_weighted_sum_mem (fA fB : LogoFeatures) :
    0 ≤ 0.35 * (base_similarity fA fB).phash + 0.25 * (base_similarity fA fB).dhash
        + 0.15 * (base_similarity fA fB).ahash + 0.25 * (base_similarity fA fB).hist ∧
      0.35 * (base_similarity fA fB).phash + 0.25 * (base_similarity fA fB).dhash
        + 0.15 * (base_similarity fA fB).ahash + 0.25 * (base_similarity fA fB).hist ≤ 1 := by
  obtain ⟨ha0, ha1⟩ := hash_similarity_mem fA.perceptual.ahash fB.perceptual.ahash
  obtain ⟨hd0, hd1⟩ := hash_similarity_mem fA.perceptual.dhash fB.perceptual.dhash
  obtain ⟨hp0, hp1⟩ := hash_similarity_mem fA.perceptual.phash fB.perceptual.phash
  obtain ⟨hh0, hh1⟩ := histogram_intersection_mem fA.hsv_histogram fB.hsv_histogram
  rw [base_similarity] at *
  constructor <;> nlinarith

theorem combine_components_none_eq (fA fB : LogoFeatures) :
    combine_components (base_similarity fA fB) none =
      0.35 * (base_similarity fA fB).phash + 0.25 * (base_similarity fA fB).dhash
        + 0.15 * (base_similarity fA fB).ahash + 0.25 * (base_similarity fA fB).hist := by
  obtain ⟨h0, h1⟩ := base_weighted_sum_mem fA fB
  rw [combine_components]
  exact clamp01_eq_self h0 h1

/-- C3: the score computed for a pair inside `pairwise_scores` equals the
claim's rule — the clamped weighted base score, ORB-blended (and clamped
again) if and only if the base score lies in the uncertain band
`[T_LINK − 0.05, T_LINK + 0.10]` and both normalized images are
available. -/
theorem C3_pair_score_formula {Img : Type} (orbRaw : Img → Img → ℚ)
    (images_map : String → Option Img)
    (website candidate : String) (fA fB : LogoFeatures) :
    pair_final_score orbRaw images_map T_LINK website candidate fA fB =
      claimPairScore orbRaw images_map website candidate fA fB := by
  obtain ⟨h0, h1⟩ := base_weighted_sum_mem fA fB
  rw [pair_final_score, claimPairScore]
  simp only [combine_components_none_eq fA fB, clamp01_eq_self h0 h1]
  cases hw : images_map website with
  | none => split <;> rfl
  | some img_a =>
    cases hc : images_map candidate with
    | none => split <;> rfl
    | some img_b =>
      by_cases hband : T_LINK - 0.05 ≤
          0.35 * (base_similarity fA fB).phash + 0.25 * (base_similarity fA fB).dhash
            + 0.15 * (base_similarity fA fB).ahash + 0.25 * (base_similarity fA fB).hist ∧
          0.35 * (base_similarity fA fB).phash + 0.25 * (base_similarity fA fB).dhash
            + 0.15 * (base_similarity fA fB).ahash + 0.25 * (base_similarity fA fB).hist ≤
            T_LINK + 0.1
      · simp only [if_pos hband]
        have hcc : combine_components (base_similarity fA fB)
            (some (orb_keypoints_match orbRaw img_a img_b)) =
            clamp01 (0.8 * (0.35 * (base_similarity fA fB).phash
                + 0.25 * (base_similarity fA fB).dhash
                + 0.15 * (base_similarity fA fB).ahash
                + 0.25 * (base_similarity fA fB).hist)
              + 0.2 * clamp01 (orb_keypoints_match orbRaw img_a img_b)) := rfl
        rw [hcc, show clamp01 (orb_keypoints_match orbRaw img_a img_b) =
          orb_keypoints_match orbRaw img_a img_b from clamp01_idem (orbRaw img_a img_b)]
      · simp only [if_neg hband]

theorem base_similarity_uniform (w1 w2 h1 h2 : String) (d : Nat)
    (hne1 : strIsEmpty h1 = false) (hne2 : strIsEmpty h2 = false)
    (hd : hamming_distance_hex h1 h2 = some d) :
    base_similarity (uniformFeat w1 h1) (uniformFeat w2 h2) =
      ⟨clamp01 (1 - (d : ℚ) / 64), clamp01 (1 - (d : ℚ) / 64),
        clamp01 (1 - (d : ℚ) / 64), 0⟩ := by
  rw [base_similarity]
  simp [uniformFeat, hash_similarity, strFalsy, hne1, hne2, hd, histogram_intersection]

theorem combine_components_uniform (q : ℚ) :
    combine_components ⟨q, q, q, 0⟩ none = clamp01 (0.75 * q) := by
  rw [combine_components]
  simp only []
  congr 1
  ring

theorem pair_final_score_noImages {Img : Type} (orbRaw : Img → Img → ℚ) (t : ℚ)
    (w c : String) (f g : LogoFeatures) :
    pair_final_score orbRaw (fun _ => (none : Option Img)) t w c f g =
      combine_components (base_similarity f g) none := by
  rw [pair_final_score]
  split
  · rfl
  · rfl

/-- The per-pair final score of two uniform feature rows at pHash
distance `d` with no images available. -/
theorem pair_final_score_uniform (w1 w2 h1 h2 wa wb : String) (d : Nat)
    (hne1 : strIsEmpty h1 = false) (hne2 : strIsEmpty h2 = false)
    (hd : hamming_distance_hex h1 h2 = some d) :
    pair_final_score zeroOrb noImages T_LINK wa wb
        (uniformFeat w1 h1) (uniformFeat w2 h2) =
      clamp01 (0.75 * clamp01 (1 - (d : ℚ) / 64)) := by
  rw [show noImages = (fun _ => (none : Option Unit)) from rfl]
  rw [pair_final_score_noImages, base_similarity_uniform w1 w2 h1 h2 d hne1 hne2 hd,
    combine_components_uniform]

theorem score_of_dist (d : Nat) (hd : (d : ℚ) ≤ 64) :
    clamp01 (0.75 * clamp01 (1 - (d : ℚ) / 64)) = 0.75 * (1 - (d : ℚ) / 64) := by
  have h1 : clamp01 (1 - (d : ℚ) / 64) = 1 - (d : ℚ) / 64 := by
    apply clamp01_eq_self
    · have : (0 : ℚ) ≤ (d : ℚ) := Nat.cast_nonneg d
      linarith
    · have : (0 : ℚ) ≤ (d : ℚ) := Nat.cast_nonneg d
      linarith
  rw [h1]
  apply clamp01_eq_self
  · have : (0 : ℚ) ≤ (d : ℚ) := Nat.cast_nonneg d
    nlinarith
  · have : (0 : ℚ) ≤ (d : ℚ) := Nat.cast_nonneg d
    nlinarith

theorem score_dist2 : clamp01 (0.75 * clamp01 (1 - ((2 : Nat) : ℚ) / 64)) = 93 / 128 := by
  rw [score_of_dist 2 (by norm_num)]
  norm_num

theorem score_dist4 : clamp01 (0.75 * clamp01 (1 - ((4 : Nat) : ℚ) / 64)) = 45 / 64 := by
  rw [score_of_dist 4 (by norm_num)]
  norm_num

theorem score_dist6 : clamp01 (0.75 * clamp01 (1 - ((6 : Nat) : ℚ) / 64)) = 87 / 128 := by
  rw [score_of_dist 6 (by norm_num)]
  norm_num

theorem pairwise_mapBCDE :
    pairwise_scores zeroOrb mapBCDE noImages 50 16 T_LINK =
      [("b", "d", 93 / 128), ("c", "d", 93 / 128), ("c", "e", 93 / 128)] := by
  rw [pairwise_scores]
  rw [if_neg (by decide : ¬(mapBCDE.isEmpty = true))]
  rw [show isortBy strLt (keysOf mapBCDE) = ["b", "c", "d", "e"] from by decide]
  simp only [List.flatMap_cons, List.flatMap_nil, List.append_nil]
  rw [show alookup "b" mapBCDE = some featB from by decide,
    show alookup "c" mapBCDE = some featC from by decide,
    show alookup "d" mapBCDE = some featD from by decide,
    show alookup "e" mapBCDE = some featE from by decide]
  simp only []
  rw [show shortlist_by_hash featB mapBCDE 50 16 = ["d", "c", "e"] from by decide,
    show shortlist_by_hash featC mapBCDE 50 16 = ["d", "e", "b"] from by decide,
    show shortlist_by_hash featD mapBCDE 50 16 = ["b", "c", "e"] from by decide,
    show shortlist_by_hash featE mapBCDE 50 16 = ["c", "d", "b"] from by decide]
  simp only [List.filterMap_cons, List.filterMap_nil]
  rw [show alookup "b" mapBCDE = some featB from by decide,
    show alookup "c" mapBCDE = some featC from by decide,
    show alookup "d" mapBCDE = some featD from by decide,
    show alookup "e" mapBCDE = some featE from by decide]
  simp only [featB, featC, featD, featE]
  rw [pair_final_score_uniform "b" "d" _ _ _ _ 2 (by decide) (by decide) (by decide),
    pair_final_score_uniform "b" "c" _ _ _ _ 4 (by decide) (by decide) (by decide),
    pair_final_score_uniform "b" "e" _ _ _ _ 6 (by decide) (by decide) (by decide),
    pair_final_score_uniform "c" "d" _ _ _ _ 2 (by decide) (by decide) (by decide),
    pair_final_score_uniform "c" "e" _ _ _ _ 2 (by decide) (by decide) (by decide),
    pair_final_score_uniform "d" "e" _ _ _ _ 4 (by decide) (by decide) (by decide)]
  rw [score_dist2, score_dist4, score_dist6]
  simp only [show strLe "d" "b" = false from by decide,
    show strLe "c" "b" = false from by decide,
    show strLe "e" "b" = false from by decide,
    show strLe "d" "c" = false from by decide,
    show strLe "e" "c" = false from by decide,
    show strLe "b" "c" = true from by decide,
    show strLe "b" "d" = true from by decide,
    show strLe "c" "d" = true from by decide,
    show strLe "e" "d" = false from by decide,
    show strLe "c" "e" = true from by decide,
    show strLe "d" "e" = true from by decide,
    show strLe "b" "e" = true from by decide,
    Bool.false_eq_true, if_false, if_true]
  simp only [if_pos (by norm_num [T_LINK] : (93 : ℚ) / 128 ≥ T_LINK),
    if_neg (by norm_num [T_LINK] : ¬((45 : ℚ) / 64 ≥ T_LINK)),
    if_neg (by norm_num [T_LINK] : ¬((87 : ℚ) / 128 ≥ T_LINK))]
  rfl

theorem pairwise_mapBCED :
    pairwise_scores zeroOrb mapBCED noImages 50 16 T_LINK =
      [("b", "d", 93 / 128), ("c", "e", 93 / 128), ("c", "d", 93 / 128)] := by
  rw [pairwise_scores]
  rw [if_neg (by decide : ¬(mapBCED.isEmpty = true))]
  rw [show isortBy strLt (keysOf mapBCED) = ["b", "c", "d", "e"] from by decide]
  simp only [List.flatMap_cons, List.flatMap_nil, List.append_nil]
  rw [show alookup "b" mapBCED = some featB from by decide,
    show alookup "c" mapBCED = some featC from by decide,
    show alookup "d" mapBCED = some featD from by decide,
    show alookup "e" mapBCED = some featE from by decide]
  simp only []
  rw [show shortlist_by_hash featB mapBCED 50 16 = ["d", "c", "e"] from by decide,
    show shortlist_by_hash featC mapBCED 50 16 = ["e", "d", "b"] from by decide,
    show shortlist_by_hash featD mapBCED 50 16 = ["b", "c", "e"] from by decide,
    show shortlist_by_hash featE mapBCED 50 16 = ["c", "d", "b"] from by decide]
  simp only [List.filterMap_cons, List.filterMap_nil]
  rw [show alookup "b" mapBCED = some featB from by decide,
    show alookup "c" mapBCED = some featC from by decide,
    show alookup "d" mapBCED = some featD from by decide,
    show alookup "e" mapBCED = some featE from by decide]
  simp only [featB, featC, featD, featE]
  rw [pair_final_score_uniform "b" "d" _ _ _ _ 2 (by decide) (by decide) (by decide),
    pair_final_score_uniform "b" "c" _ _ _ _ 4 (by decide) (by decide) (by decide),
    pair_final_score_uniform "b" "e" _ _ _ _ 6 (by decide) (by decide) (by decide),
    pair_final_score_uniform "c" "e" _ _ _ _ 2 (by decide) (by decide) (by decide),
    pair_final_score_uniform "c" "d" _ _ _ _ 2 (by decide) (by decide) (by decide),
    pair_final_score_uniform "d" "e" _ _ _ _ 4 (by decide) (by decide) (by decide)]
  rw [score_dist2, score_dist4, score_dist6]
  simp only [show strLe "d" "b" = false from by decide,
    show strLe "c" "b" = false from by decide,
    show strLe "e" "b" = false from by decide,
    show strLe "d" "c" = false from by decide,
    show strLe "e" "c" = false from by decide,
    show strLe "b" "c" = true from by decide,
    show strLe "b" "d" = true from by decide,
    show strLe "c" "d" = true from by decide,
    show strLe "e" "d" = false from by decide,
    show strLe "c" "e" = true from by decide,
    show strLe "d" "e" = true from by decide,
    show strLe "b" "e" = true from by decide,
    Bool.false_eq_true, if_false, if_true]
  simp only [if_pos (by norm_num [T_LINK] : (93 : ℚ) / 128 ≥ T_LINK),
    if_neg (by norm_num [T_LINK] : ¬((45 : ℚ) / 64 ≥ T_LINK)),
    if_neg (by norm_num [T_LINK] : ¬((87 : ℚ) / 128 ≥ T_LINK))]
  rfl

theorem pair_final_score_le_one {Img : Type} (orbRaw : Img → Img → ℚ)
    (images_map : String → Option Img) (t : ℚ) (w c : String)
    (f g : LogoFeatures) :
    pair_final_score orbRaw images_map t w c f g ≤ 1 := by
  rw [pair_final_score]
  split
  · split
    · exact clamp01_le_one _
    · exact clamp01_le_one _
  · exact clamp01_le_one _

/-- C4: every edge `(left, right, s)` emitted by `pairwise_scores` (with
the pipeline's default shortlist parameters and threshold) satisfies
`left < right` in Python's lexicographic string order and
`T_LINK ≤ s ≤ 1`. -/
theorem C4_edge_invariants {Img : Type} (orbRaw : Img → Img → ℚ)
    (features_map : List (String × LogoFeatures))
    (images_map : String → Option Img) (left right : String) (s : ℚ)
    (hmem : (left, right, s) ∈
      pairwise_scores orbRaw features_map images_map 50 16 T_LINK) :
    strLt left right = true ∧ T_LINK ≤ s ∧ s ≤ 1 := by
  rw [pairwise_scores] at hmem
  by_cases hemp : features_map.isEmpty = true
  · rw [if_pos hemp] at hmem
    simp at hmem
  · rw [if_neg hemp] at hmem
    obtain ⟨website, hw, hin⟩ := List.mem_flatMap.mp hmem
    cases ha : alookup website features_map with
    | none =>
      rw [ha] at hin
      simp at hin
    | some feature =>
      rw [ha] at hin
      obtain ⟨candidate, hc, heq⟩ := List.mem_filterMap.mp hin
      cases hb : alookup candidate features_map with
      | none =>
        rw [hb] at heq
        simp at heq
      | some other =>
        rw [hb] at heq
        simp only [] at heq
        by_cases hle : strLe candidate website = true
        · rw [if_pos hle] at heq
          simp at heq
        · rw [if_neg hle] at heq
          by_cases hge : pair_final_score orbRaw images_map T_LINK
              website candidate feature other ≥ T_LINK
          · rw [if_pos hge] at heq
            have h := Option.some.inj heq
            have h1 : website = left := congrArg Prod.fst h
            have h23 := congrArg Prod.snd h
            have h2 : candidate = right := congrArg Prod.fst h23
            have h3 : pair_final_score orbRaw images_map T_LINK
                website candidate feature other = s := congrArg Prod.snd h23
            subst h1
            subst h2
            refine ⟨?_, ?_, ?_⟩
            · rw [Bool.not_eq_true, strLe, Bool.not_eq_false'] at hle
              exact hle
            · rw [← h3]
              exact hge
            · rw [← h3]
              exact pair_final_score_le_one orbRaw images_map T_LINK website candidate
                feature other
          · rw [if_neg hge] at heq
            simp at heq

/-- C4 (witness): the concrete edge `("b", "d", 93/128)` emitted on
`mapBCDE` is ordered and within the thresholds. -/
theorem C4_edge_invariants_witness :
    strLt "b" "d" = true ∧ T_LINK ≤ 93 / 128 ∧ (93 : ℚ) / 128 ≤ 1 :=
  C4_edge_invariants zeroOrb mapBCDE noImages "b" "d" (93 / 128)
    (by rw [pairwise_mapBCDE]; exact List.mem_cons_self _ _)

/-- C1 (counterexample): grouping is not order-invariant. `mapBCDE` and
`mapBCED` hold the same sites and features, only in different insertion
order, yet the `groups.json` payload differs: anchor `c`'s two candidates
`d` and `e` tie at pHash distance 2, the stable sort keeps them in map
order, the union-find merges them in different orders, and the resulting
group representative (`group_id`) is `b` in one run and `c` in the
other. -/
theorem C1_counterexample :
    mapBCDE.Perm mapBCED ∧
      (group_and_report zeroOrb mapBCDE noImages 4 T_LINK).1 ≠
        (group_and_report zeroOrb mapBCED noImages 4 T_LINK).1 := by
  constructor
  · decide
  · rw [group_and_report, group_and_report, build_similarity_edges,
      build_similarity_edges, pairwise_mapBCDE, pairwise_mapBCED]
    decide

theorem insSorted_perm {α : Type} (lt : α → α → Bool) (x : α) (l : List α) :
    (insSorted lt x l).Perm (x :: l) := by
  induction l with
  | nil => simp [insSorted]
  | cons y ys ih =>
    rw [insSorted]
    by_cases h : lt y x = true
    · rw [if_pos h]
      exact (ih.cons y).trans (List.Perm.swap x y ys)
    · rw [if_neg h]

theorem mem_insSorted {α : Type} (lt : α → α → Bool) (x z : α) (l : List α) :
    z ∈ insSorted lt x l ↔ z = x ∨ z ∈ l := by
  rw [(insSorted_perm lt x l).mem_iff]
  simp

theorem isortBy_perm {α : Type} (lt : α → α → Bool) (l : List α) :
    (isortBy lt l).Perm l := by
  induction l with
  | nil => simp [isortBy]
  | cons x xs ih =>
    rw [isortBy]
    exact (insSorted_perm lt x (isortBy lt xs)).trans (ih.cons x)

theorem insSorted_sorted {α : Type} (lt : α → α → Bool)
    (hasymm : ∀ a b, lt a b = true → lt b a = false)
    (hnegtrans : ∀ a b c, lt a b = false → lt b c = false → lt a c = false)
    (x : α) (l : List α) (hl : SortedB lt l) : SortedB lt (insSorted lt x l) := by
  induction l with
  | nil => simp [insSorted, SortedB]
  | cons y ys ih =>
    rw [show SortedB lt (y :: ys) = List.Pairwise (fun a b => lt b a = false) (y :: ys) from rfl, List.pairwise_cons] at hl
    obtain ⟨hy, hys⟩ := hl
    rw [insSorted]
    by_cases h : lt y x = true
    · rw [if_pos h]
      rw [show SortedB lt (y :: insSorted lt x ys) = List.Pairwise (fun a b => lt b a = false) (y :: insSorted lt x ys) from rfl, List.pairwise_cons]
      constructor
      · intro z hz
        rcases (mem_insSorted lt x z ys).mp hz with hz | hz
        · rw [hz]
          exact hasymm y x h
        · exact hy z hz
      · exact ih hys
    · rw [if_neg h]
      rw [show SortedB lt (x :: y :: ys) = List.Pairwise (fun a b => lt b a = false) (x :: y :: ys) from rfl, List.pairwise_cons]
      refine ⟨?_, ?_⟩
      · intro z hz
        rcases List.mem_cons.mp hz with hz | hz
        · rw [hz]
          exact Bool.not_eq_true _ ▸ h
        · exact hnegtrans z y x (hy z hz) (Bool.not_eq_true _ ▸ h)
      · exact List.pairwise_cons.mpr ⟨hy, hys⟩

theorem isortBy_sorted {α : Type} (lt : α → α → Bool)
    (hasymm : ∀ a b, lt a b = true → lt b a = false)
    (hnegtrans : ∀ a b c, lt a b = false → lt b c = false → lt a c = false)
    (l : List α) : SortedB lt (isortBy lt l) := by
  induction l with
  | nil => simp [isortBy, SortedB]
  | cons x xs ih =>
    rw [isortBy]
    exact insSorted_sorted lt hasymm hnegtrans x (isortBy lt xs) ih

theorem insSorted_filter_neg {α : Type} (lt : α → α → Bool) (p : α → Bool)
    (x : α) (l : List α) (hx : p x = false) :
    (insSorted lt x l).filter p = l.filter p := by
  induction l with
  | nil => simp [insSorted, List.filter, hx]
  | cons y ys ih =>
    rw [insSorted]
    by_cases h : lt y x = true
    · rw [if_pos h]
      rw [List.filter_cons, List.filter_cons]
      cases hpy : p y <;> simp [ih]
    · rw [if_neg h]
      rw [List.filter_cons, hx]
      simp

theorem insSorted_filter_pos {α : Type} (lt : α → α → Bool) (p : α → Bool)
    (x : α) (l : List α) (hx : p x = true)
    (hl : ∀ y ∈ l, p y = true → lt y x = false) :
    (insSorted lt x l).filter p = x :: l.filter p := by
  induction l with
  | nil => simp [insSorted, List.filter, hx]
  | cons y ys ih =>
    rw [insSorted]
    by_cases h : lt y x = true
    · rw [if_pos h]
      have hpy : p y = false := by
        cases hpy : p y
        · rfl
        · exact absurd (hl y (List.mem_cons_self y ys) hpy) (by simp [h])
      rw [List.filter_cons, hpy]
      simp only [Bool.false_eq_true, if_false]
      rw [List.filter_cons, hpy]
      simp only [Bool.false_eq_true, if_false]
      exact ih (fun z hz hpz => hl z (List.mem_cons_of_mem y hz) hpz)
    · rw [if_neg h]
      rw [List.filter_cons, hx]
      simp

/-- Stability of the insertion sort: filtering by any predicate whose
elements are mutually incomparable under `lt` (for instance, all entries
with one given sort key) returns them in their original order. -/
theorem isortBy_filter_stable {α : Type} (lt : α → α → Bool) (p : α → Bool)
    (hp : ∀ a b, p a = true → p b = true → lt a b = false) (l : List α) :
    (isortBy lt l).filter p = l.filter p := by
  induction l with
  | nil => simp [isortBy]
  | cons x xs ih =>
    rw [isortBy]
    cases hx : p x with
    | false =>
      rw [insSorted_filter_neg lt p x (isortBy lt xs) hx, ih, List.filter_cons, hx]
      simp
    | true =>
      rw [insSorted_filter_pos lt p x (isortBy lt xs) hx
        (fun y _ hpy => hp y x hpy hx), ih, List.filter_cons, hx]
      simp

/-- Two sorted permutations of each other agree when the elements are
pairwise strictly comparable (no ties). -/
theorem sorted_perm_eq {α : Type} (lt : α → α → Bool) :
    ∀ (l1 l2 : List α), l1.Perm l2 → SortedB lt l1 → SortedB lt l2 →
      l1.Pairwise (fun a b => lt a b = true ∨ lt b a = true) → l1 = l2
  | [], l2, hperm, _, _, _ => hperm.nil_eq
  | x :: t1, [], hperm, _, _, _ => by
    exact absurd hperm.symm (by simp [List.Perm])
  | x :: t1, y :: t2, hperm, h1, h2, hD => by
    have h1 := List.pairwise_cons.mp h1
    have h2 := List.pairwise_cons.mp h2
    have hD := List.pairwise_cons.mp hD
    have hxy : x = y := by
      by_contra hne
      have hx2 : x ∈ t2 := by
        have := hperm.mem_iff.mp (List.mem_cons_self x t1)
        rcases List.mem_cons.mp this with h | h
        · exact absurd h hne
        · exact h
      have hy1 : y ∈ t1 := by
        have := hperm.symm.mem_iff.mp (List.mem_cons_self y t2)
        rcases List.mem_cons.mp this with h | h
        · exact absurd h.symm hne
        · exact h
      have hyx : lt y x = false := h1.1 y hy1
      have hxy' : lt x y = false := h2.1 x hx2
      rcases hD.1 y hy1 with h | h
      · rw [hxy'] at h
        cases h
      · rw [hyx] at h
        cases h
    subst hxy
    have htail := hperm.cons_inv
    rw [sorted_perm_eq lt t1 t2 htail h1.2 h2.2 hD.2]

theorem charsLt_irrefl : ∀ l : List Char, charsLt l l = false
  | [] => rfl
  | c :: cs => by
    rw [charsLt]
    simp [lt_irrefl, charsLt_irrefl cs]

theorem charsLt_asymm : ∀ a b : List Char, charsLt a b = true → charsLt b a = false
  | _, [], h => by simp [charsLt] at h
  | [], _ :: _, _ => rfl
  | a :: as, b :: bs, h => by
    rw [charsLt] at h ⊢
    by_cases hab : a < b
    · have hba : ¬(b < a) := lt_asymm hab
      simp [hab, hba]
    · by_cases hba : b < a
      · rw [if_neg hab, if_pos hba] at h
        cases h
      · rw [if_neg hab, if_neg hba] at h
        rw [if_neg hba, if_neg hab]
        exact charsLt_asymm as bs h

theorem charsLt_trans : ∀ a b c : List Char,
    charsLt a b = true → charsLt b c = true → charsLt a c = true
  | _, _, [], _, h2 => by simp [charsLt] at h2
  | [], _, _ :: _, _, _ => rfl
  | a :: as, [], c :: cs, h1, _ => by simp [charsLt] at h1
  | a :: as, b :: bs, c :: cs, h1, h2 => by
    rw [charsLt] at h1 h2 ⊢
    by_cases hab : a < b
    · by_cases hbc : b < c
      · have hac : a < c := lt_trans hab hbc
        simp [hac]
      · by_cases hcb : c < b
        · rw [if_neg hbc, if_pos hcb] at h2
          cases h2
        · have hbc' : b = c := le_antisymm (not_lt.mp hcb) (not_lt.mp hbc)
          subst hbc'
          simp [hab]
    · by_cases hba : b < a
      · rw [if_neg hab, if_pos hba] at h1
        cases h1
      · have hab' : a = b := le_antisymm (not_lt.mp hba) (not_lt.mp hab)
        subst hab'
        rw [if_neg hab, if_neg hba] at h1
        by_cases hbc : a < c
        · simp [hbc]
        · by_cases hcb : c < a
          · rw [if_neg hbc, if_pos hcb] at h2
            cases h2
          · rw [if_neg hbc, if_neg hcb] at h2 ⊢
            exact charsLt_trans as bs cs h1 h2

theorem charsLt_total : ∀ a b : List Char,
    charsLt a b = true ∨ charsLt b a = true ∨ a = b
  | [], [] => Or.inr (Or.inr rfl)
  | [], _ :: _ => Or.inl rfl
  | _ :: _, [] => Or.inr (Or.inl rfl)
  | a :: as, b :: bs => by
    rw [charsLt, charsLt]
    by_cases hab : a < b
    · exact Or.inl (by simp [hab])
    · by_cases hba : b < a
      · exact Or.inr (Or.inl (by simp [hba, lt_asymm hba]))
      · have hab' : a = b := le_antisymm (not_lt.mp hba) (not_lt.mp hab)
        subst hab'
        rcases charsLt_total as bs with h | h | h
        · exact Or.inl (by simp [hab, h])
        · exact Or.inr (Or.inl (by simp [hab, h]))
        · exact Or.inr (Or.inr (by rw [h]))

theorem strLt_asymm (a b : String) : strLt a b = true → strLt b a = false :=
  charsLt_asymm a.data b.data

theorem strLt_total (a b : String) : strLt a b = true ∨ strLt b a = true ∨ a = b := by
  rcases charsLt_total a.data b.data with h | h | h
  · exact Or.inl h
  · exact Or.inr (Or.inl h)
  · refine Or.inr (Or.inr ?_)
    cases a with
    | mk la =>
      cases b with
      | mk lb => exact congrArg String.mk h

theorem strLt_negtrans (a b c : String) :
    strLt a b = false → strLt b c = false → strLt a c = false := by
  intro hab hbc
  cases hac : strLt a c with
  | false => rfl
  | true =>
    exfalso
    rcases strLt_total a b with h | h | h
    · rw [h] at hab
      cases hab
    · rcases strLt_total b c with h' | h' | h'
      · rw [h'] at hbc
        cases hbc
      · have hca : charsLt c.data a.data = true := charsLt_trans c.data b.data a.data h' h
        have hca' : charsLt c.data a.data = false := charsLt_asymm a.data c.data hac
        rw [hca] at hca'
        cases hca'
      · subst h'
        have := strLt_asymm a b hac
        rw [this] at h
        cases h
    · subst h
      rw [hac] at hbc
      cases hbc

/-- C2 (counterexample): the claim orders ties at equal distance by
website key ascending (`["b", "c"]`), but the code's stable sort keeps
the feature-map iteration order, returning `["c", "b"]`. -/
theorem C2_counterexample :
    shortlist_by_hash anchorA mapCB 50 16 = ["c", "b"] ∧
      claimShortlistKeyTies anchorA mapCB = ["b", "c"] ∧
      (["c", "b"] : List String) ≠ ["b", "c"] := by
  decide

theorem distLt_asymm (p q : Nat × String) : distLt p q = true → distLt q p = false := by
  rw [distLt, distLt]
  simp only [decide_eq_true_eq, decide_eq_false_iff_not]
  omega

theorem distLt_negtrans (p q r : Nat × String) :
    distLt p q = false → distLt q r = false → distLt p r = false := by
  rw [distLt, distLt, distLt]
  simp only [decide_eq_false_iff_not]
  omega

/-- C2 (amended): for every anchor and feature map, the shortlist is the
eligible `(distance, website)` list — exactly the other websites with a
pHash within hamming distance 16 — sorted ascending by distance with ties
kept in feature-map iteration order (not key order), truncated to the
first 50. The conjuncts state: the code's output is the sorted-truncated
projection; the sorted list is nondecreasing in distance; filtering any
one distance returns those entries in original map order (stability); and
membership in the sorted list characterises eligibility. -/
theorem C2_shortlist_spec (fA : LogoFeatures)
    (f_all : List (String × LogoFeatures)) :
    shortlist_by_hash fA f_all 50 16 =
        ((isortBy distLt (rankedOf fA f_all 16)).take 50).map Prod.snd ∧
      SortedB distLt (isortBy distLt (rankedOf fA f_all 16)) ∧
      (∀ d : Nat, (isortBy distLt (rankedOf fA f_all 16)).filter
          (fun p => decide (p.1 = d)) =
        (rankedOf fA f_all 16).filter (fun p => decide (p.1 = d))) ∧
      (∀ (d : Nat) (w : String), (d, w) ∈ isortBy distLt (rankedOf fA f_all 16) ↔
        ∃ wf ∈ f_all, wf.1 = w ∧ wf.2.website ≠ fA.website ∧
          strFalsy fA.perceptual.phash = false ∧
          strFalsy wf.2.perceptual.phash = false ∧
          hamming_distance_hex (fA.perceptual.phash.getD "")
            (wf.2.perceptual.phash.getD "") = some d ∧ d ≤ 16) := by
  refine ⟨?_, ?_, ?_, ?_⟩
  · rw [shortlist_by_hash, rankedOf]
    rw [if_neg (by decide : ¬((50 : Nat) = 0))]
    by_cases hfal : strFalsy fA.perceptual.phash = true
    · rw [if_pos hfal, if_pos hfal]
      rfl
    · rw [if_neg hfal, if_neg hfal]
      rfl
  · exact isortBy_sorted distLt distLt_asymm distLt_negtrans _
  · intro d
    apply isortBy_filter_stable
    intro p q hp hq
    rw [decide_eq_true_eq] at hp hq
    rw [distLt, decide_eq_false_iff_not]
    omega
  · intro d w
    rw [(isortBy_perm distLt (rankedOf fA f_all 16)).mem_iff]
    rw [rankedOf]
    by_cases hfal : strFalsy fA.perceptual.phash = true
    · rw [if_pos hfal]
      simp [hfal]
    · rw [if_neg hfal]
      rw [List.mem_filterMap]
      constructor
      · rintro ⟨wf, hwf, hf⟩
        by_cases hweb : wf.2.website = fA.website
        · rw [if_pos hweb] at hf
          cases hf
        · rw [if_neg hweb] at hf
          by_cases hph : strFalsy wf.2.perceptual.phash = true
          · rw [if_pos hph] at hf
            cases hf
          · rw [if_neg hph] at hf
            cases hd : hamming_distance_hex (fA.perceptual.phash.getD "")
                (wf.2.perceptual.phash.getD "") with
            | none =>
              rw [hd] at hf
              cases hf
            | some dist =>
              rw [hd] at hf
              rw [show (match some dist with
                | none => none
                | some distance =>
                  if distance ≤ 16 then some (distance, wf.1) else none) =
                (if dist ≤ 16 then some (dist, wf.1) else none) from rfl] at hf
              by_cases hle : dist ≤ 16
              · rw [if_pos hle] at hf
                have h := Option.some.inj hf
                have h1 : dist = d := congrArg Prod.fst h
                have h2 : wf.1 = w := congrArg Prod.snd h
                subst h1
                exact ⟨wf, hwf, h2, hweb, Bool.not_eq_true _ ▸ hfal,
                  Bool.not_eq_true _ ▸ hph, hd, hle⟩
              · rw [if_neg hle] at hf
                cases hf
      · rintro ⟨wf, hwf, hw, hweb, _, hph, hd, hle⟩
        refine ⟨wf, hwf, ?_⟩
        rw [if_neg hweb, if_neg (by rw [hph]; simp : ¬(strFalsy wf.2.perceptual.phash = true)),
          hd]
        rw [show (match some d with
          | none => none
          | some distance =>
            if distance ≤ 16 then some (distance, wf.1) else none) =
          (if d ≤ 16 then some (d, wf.1) else none) from rfl]
        rw [if_pos hle, hw]

/-- C2 (witness): the amended characterisation instantiated on the
concrete anchor and map of the counterexample. -/
theorem C2_shortlist_spec_witness :
    shortlist_by_hash anchorA mapCB 50 16 =
      ((isortBy distLt (rankedOf anchorA mapCB 16)).take 50).map Prod.snd :=
  (C2_shortlist_spec anchorA mapCB).1

theorem selectLoop_nil (O : SelectOracles) (base_url : String) (i : Nat)
    (heap : List Candidate) (b f : Option (Nat × ℚ)) :
    selectLoop O base_url [] i heap b f =
      ((b.map Prod.fst).orElse (fun _ => f.map Prod.fst), heap) := rfl

theorem selectLoop_cons (O : SelectOracles) (base_url : String) (a : Nat)
    (rest : List Nat) (i : Nat) (heap : List Candidate) (b f : Option (Nat × ℚ)) :
    selectLoop O base_url (a :: rest) i heap b f =
      selectLoop O base_url rest (i + 1)
        (heap ++ [enrichCandidate O base_url i (heapGet heap a)])
        (if gotBytesAt O base_url i (heapGet heap a) then
          maxStep heap.length
            ((enrichCandidate O base_url i (heapGet heap a)).score.getD 0) b
         else b)
        (maxStep heap.length
          ((enrichCandidate O base_url i (heapGet heap a)).score.getD 0) f) := rfl

theorem maxStep_cases {newAddr : Nat} {score : ℚ} {acc : Option (Nat × ℚ)}
    {p : Nat × ℚ} (h : maxStep newAddr score acc = some p) :
    p = (newAddr, score) ∨ acc = some p := by
  cases acc with
  | none =>
    rw [maxStep] at h
    exact Or.inl (Option.some.inj h).symm
  | some q =>
    rw [maxStep] at h
    by_cases hlt : q.2 < score
    · rw [if_pos hlt] at h
      exact Or.inl (Option.some.inj h).symm
    · rw [if_neg hlt] at h
      exact Or.inr (congrArg some (Option.some.inj h))

theorem selectLoop_take (O : SelectOracles) (base_url : String) :
    ∀ (addrs : List Nat) (i : Nat) (heap : List Candidate)
      (b f : Option (Nat × ℚ)),
      ((selectLoop O base_url addrs i heap b f).2).take heap.length = heap
  | [], i, heap, b, f => List.take_length heap
  | a :: rest, i, heap, b, f => by
    rw [selectLoop_cons]
    have ih := selectLoop_take O base_url rest (i + 1)
      (heap ++ [enrichCandidate O base_url i (heapGet heap a)])
      (if gotBytesAt O base_url i (heapGet heap a) then
        maxStep heap.length
          ((enrichCandidate O base_url i (heapGet heap a)).score.getD 0) b
       else b)
      (maxStep heap.length
        ((enrichCandidate O base_url i (heapGet heap a)).score.getD 0) f)
    set r := selectLoop O base_url rest (i + 1)
      (heap ++ [enrichCandidate O base_url i (heapGet heap a)])
      (if gotBytesAt O base_url i (heapGet heap a) then
        maxStep heap.length
          ((enrichCandidate O base_url i (heapGet heap a)).score.getD 0) b
       else b)
      (maxStep heap.length
        ((enrichCandidate O base_url i (heapGet heap a)).score.getD 0) f) with hr
    have hlen : heap.length ≤
        (heap ++ [enrichCandidate O base_url i (heapGet heap a)]).length := by
      simp
    calc r.2.take heap.length
        = (r.2.take (heap ++ [enrichCandidate O base_url i (heapGet heap a)]).length).take
            heap.length := by
          rw [List.take_take, min_eq_left hlen]
      _ = (heap ++ [enrichCandidate O base_url i (heapGet heap a)]).take heap.length := by
          rw [ih]
      _ = heap := List.take_left heap _

theorem selectLoop_addr_lb (O : SelectOracles) (base_url : String) :
    ∀ (addrs : List Nat) (i : Nat) (heap : List Candidate)
      (b f : Option (Nat × ℚ)) (n : Nat), n ≤ heap.length →
      (∀ p, b = some p → n ≤ p.1) → (∀ p, f = some p → n ≤ p.1) →
      ∀ a, (selectLoop O base_url addrs i heap b f).1 = some a → n ≤ a
  | [], i, heap, b, f, n, hn, hb, hf, a => by
    rw [selectLoop_nil]
    cases b with
    | none =>
      cases f with
      | none => intro h; cases h
      | some p =>
        intro h
        have hp := Option.some.inj h
        rw [← hp]
        exact hf p rfl
    | some p =>
      intro h
      have hp := Option.some.inj h
      rw [← hp]
      exact hb p rfl
  | a0 :: rest, i, heap, b, f, n, hn, hb, hf, a => by
    rw [selectLoop_cons]
    apply selectLoop_addr_lb O base_url rest (i + 1) _ _ _ n
    · simp only [List.length_append, List.length_cons, List.length_nil]
      omega
    · intro p hp
      by_cases hgb : gotBytesAt O base_url i (heapGet heap a0) = true
      · rw [if_pos hgb] at hp
        rcases maxStep_cases hp with h | h
        · rw [h]
          exact hn
        · exact hb p h
      · rw [if_neg hgb] at hp
        exact hb p hp
    · intro p hp
      rcases maxStep_cases hp with h | h
      · rw [h]
        exact hn
      · exact hf p h

/-- C10: `select_best` never mutates its input: the original heap of
candidate dicts is an unchanged prefix of the final heap (all enrichments
are written only to freshly allocated copies appended after it), and any
returned address points past the original heap — the returned mapping is
a new dict. -/
theorem C10_select_best_no_mutation (O : SelectOracles) (heap : List Candidate)
    (candidates : List Nat) (base_url : String) (lazy : Bool) :
    ((select_best O heap candidates base_url lazy).2).take heap.length = heap ∧
      (∀ a, (select_best O heap candidates base_url lazy).1 = some a →
        heap.length ≤ a) := by
  rw [select_best]
  by_cases hemp : candidates.isEmpty = true
  · rw [if_pos hemp]
    exact ⟨List.take_length heap, fun a h => by cases h⟩
  · rw [if_neg hemp]
    cases lazy with
    | true =>
      simp only [if_true]
      constructor
      · exact List.take_left heap _
      · intro a h
        have := Option.some.inj h
        omega
    | false =>
      simp only [Bool.false_eq_true, if_false]
      constructor
      · exact selectLoop_take O base_url _ 0 heap none none
      · exact selectLoop_addr_lb O base_url _ 0 heap none none heap.length le_rfl
          (fun p h => by cases h) (fun p h => by cases h)

theorem heapGet_append_lt (h l : List Candidate) (a : Nat) (ha : a < h.length) :
    heapGet (h ++ l) a = heapGet h a := by
  rw [heapGet, heapGet]
  exact List.getD_append h l emptyCandidate a ha

theorem heapGet_append_self (h : List Candidate) (c : Candidate) :
    heapGet (h ++ [c]) h.length = c := by
  rw [heapGet]
  rw [List.getD_append_right h [c] emptyCandidate h.length le_rfl]
  simp

theorem evalsOf_append (O : SelectOracles) (base_url : String)
    (heap l : List Candidate) :
    ∀ (addrs : List Nat) (i : Nat), (∀ a ∈ addrs, a < heap.length) →
      evalsOf O base_url (heap ++ l) addrs i = evalsOf O base_url heap addrs i
  | [], _, _ => rfl
  | a :: rest, i, hv => by
    rw [evalsOf, evalsOf]
    rw [heapGet_append_lt heap l a (hv a (List.mem_cons_self a rest))]
    rw [evalsOf_append O base_url heap l rest (i + 1)
      (fun x hx => hv x (List.mem_cons_of_mem a hx))]

theorem optMap_orElse {α β : Type} (x y : Option α) (g : α → β) :
    ((x.orElse (fun _ => y)).map g) = (x.map g).orElse (fun _ => y.map g) := by
  cases x <;> rfl

theorem absAcc_append (heap l : List Candidate) (b : Option (Nat × ℚ))
    (hb : ∀ p, b = some p → p.1 < heap.length) :
    b.map (fun p => heapGet (heap ++ l) p.1) = b.map (fun p => heapGet heap p.1) := by
  cases b with
  | none => rfl
  | some p =>
    simp only [Option.map_some']
    rw [heapGet_append_lt heap l p.1 (hb p rfl)]

theorem maxStep_abs (heap : List Candidate) (copy3 : Candidate)
    (b : Option (Nat × ℚ))
    (hb : ∀ p, b = some p →
      p.1 < heap.length ∧ (heapGet heap p.1).score.getD 0 = p.2) :
    (maxStep heap.length (copy3.score.getD 0) b).map
        (fun p => heapGet (heap ++ [copy3]) p.1) =
      argStep scoreKeyC (b.map (fun p => heapGet heap p.1)) copy3 := by
  cases b with
  | none =>
    rw [maxStep]
    simp only [Option.map_some', Option.map_none']
    rw [argStep, heapGet_append_self]
  | some p =>
    obtain ⟨hlt, hsc⟩ := hb p rfl
    rw [maxStep]
    simp only [Option.map_some']
    rw [argStep]
    have hkey : scoreKeyC (heapGet heap p.1) = p.2 := hsc
    rw [hkey]
    have hkey2 : scoreKeyC copy3 = copy3.score.getD 0 := rfl
    rw [hkey2]
    by_cases hcmp : p.2 < copy3.score.getD 0
    · rw [if_pos hcmp, if_pos hcmp]
      simp only [Option.map_some']
      rw [heapGet_append_self]
    · rw [if_neg hcmp, if_neg hcmp]
      simp only [Option.map_some']
      rw [heapGet_append_lt heap [copy3] p.1 hlt]

theorem selectLoop_spec (O : SelectOracles) (base_url : String) :
    ∀ (addrs : List Nat) (i : Nat) (heap : List Candidate)
      (b f : Option (Nat × ℚ)),
      (∀ a ∈ addrs, a < heap.length) →
      (∀ p, b = some p →
        p.1 < heap.length ∧ (heapGet heap p.1).score.getD 0 = p.2) →
      (∀ p, f = some p →
        p.1 < heap.length ∧ (heapGet heap p.1).score.getD 0 = p.2) →
      ((selectLoop O base_url addrs i heap b f).1).map
          (heapGet (selectLoop O base_url addrs i heap b f).2) =
        (argFold scoreKeyC (b.map (fun p => heapGet heap p.1))
            (((evalsOf O base_url heap addrs i).filter (fun p => p.2)).map
              Prod.fst)).orElse
          (fun _ => argFold scoreKeyC (f.map (fun p => heapGet heap p.1))
            ((evalsOf O base_url heap addrs i).map Prod.fst))
  | [], i, heap, b, f, hv, hb, hf => by
    rw [selectLoop_nil, evalsOf]
    simp only [List.filter_nil, List.map_nil]
    rw [argFold, argFold, List.foldl_nil, List.foldl_nil]
    rw [optMap_orElse]
    cases b <;> cases f <;> rfl
  | a :: rest, i, heap, b, f, hv, hb, hf => by
    rw [selectLoop_cons]
    have ha : a < heap.length := hv a (List.mem_cons_self a rest)
    have hvrest : ∀ x ∈ rest,
        x < (heap ++ [enrichCandidate O base_url i (heapGet heap a)]).length := by
      intro x hx
      have := hv x (List.mem_cons_of_mem a hx)
      simp only [List.length_append, List.length_cons, List.length_nil]
      omega
    have hb' : ∀ p, (if gotBytesAt O base_url i (heapGet heap a) then
        maxStep heap.length
          ((enrichCandidate O base_url i (heapGet heap a)).score.getD 0) b
       else b) = some p →
        p.1 < (heap ++ [enrichCandidate O base_url i (heapGet heap a)]).length ∧
        (heapGet (heap ++ [enrichCandidate O base_url i (heapGet heap a)]) p.1).score.getD 0
          = p.2 := by
      intro p hp
      by_cases hgb : gotBytesAt O base_url i (heapGet heap a) = true
      · rw [if_pos hgb] at hp
        rcases maxStep_cases hp with h | h
        · rw [h]
          constructor
          · simp
          · rw [heapGet_append_self]
        · obtain ⟨h1, h2⟩ := hb p h
          constructor
          · simp only [List.length_append, List.length_cons, List.length_nil]
            omega
          · rw [heapGet_append_lt heap _ p.1 h1]
            exact h2
      · rw [if_neg hgb] at hp
        obtain ⟨h1, h2⟩ := hb p hp
        constructor
        · simp only [List.length_append, List.length_cons, List.length_nil]
          omega
        · rw [heapGet_append_lt heap _ p.1 h1]
          exact h2
    have hf' : ∀ p, maxStep heap.length
        ((enrichCandidate O base_url i (heapGet heap a)).score.getD 0) f = some p →
        p.1 < (heap ++ [enrichCandidate O base_url i (heapGet heap a)]).length ∧
        (heapGet (heap ++ [enrichCandidate O base_url i (heapGet heap a)]) p.1).score.getD 0
          = p.2 := by
      intro p hp
      rcases maxStep_cases hp with h | h
      · rw [h]
        constructor
        · simp
        · rw [heapGet_append_self]
      · obtain ⟨h1, h2⟩ := hf p h
        constructor
        · simp only [List.length_append, List.length_cons, List.length_nil]
          omega
        · rw [heapGet_append_lt heap _ p.1 h1]
          exact h2
    have ih := selectLoop_spec O base_url rest (i + 1)
      (heap ++ [enrichCandidate O base_url i (heapGet heap a)])
      (if gotBytesAt O base_url i (heapGet heap a) then
        maxStep heap.length
          ((enrichCandidate O base_url i (heapGet heap a)).score.getD 0) b
       else b)
      (maxStep heap.length
        ((enrichCandidate O base_url i (heapGet heap a)).score.getD 0) f)
      hvrest hb' hf'
    rw [ih]
    rw [evalsOf_append O base_url heap _ rest (i + 1)
      (fun x hx => hv x (List.mem_cons_of_mem a hx))]
    rw [evalsOf]
    rw [List.filter_cons]
    rw [maxStep_abs heap (enrichCandidate O base_url i (heapGet heap a)) f hf]
    by_cases hgb : gotBytesAt O base_url i (heapGet heap a) = true
    · rw [if_pos hgb]
      rw [if_pos (by rw [hgb] : (enrichCandidate O base_url i (heapGet heap a),
        gotBytesAt O base_url i (heapGet heap a)).2 = true)]
      rw [maxStep_abs heap (enrichCandidate O base_url i (heapGet heap a)) b hb]
      rw [List.map_cons, List.map_cons]
      simp only [argFold, List.foldl_cons]
    · rw [if_neg hgb]
      rw [if_neg (by rw [Bool.not_eq_true] at hgb; rw [hgb]; simp :
        ¬((enrichCandidate O base_url i (heapGet heap a),
          gotBytesAt O base_url i (heapGet heap a)).2 = true))]
      rw [absAcc_append heap _ b (fun p hp => (hb p hp).1)]
      rw [List.map_cons]
      simp only [argFold, List.foldl_cons]

theorem argStep_isSome {α : Type} (key : α → ℚ) (acc : Option α) (x : α) :
    (argStep key acc x).isSome = true := by
  cases acc with
  | none => rfl
  | some b =>
    rw [argStep]
    by_cases h : key b < key x
    · rw [if_pos h]
      rfl
    · rw [if_neg h]
      rfl

theorem argFold_isSome_of_acc {α : Type} (key : α → ℚ) :
    ∀ (l : List α) (acc : Option α), acc.isSome = true →
      (argFold key acc l).isSome = true
  | [], acc, h => h
  | x :: xs, acc, h => by
    rw [argFold, List.foldl_cons]
    exact argFold_isSome_of_acc key xs (argStep key acc x) (argStep_isSome key acc x)

theorem argFold_isSome_of_ne_nil {α : Type} (key : α → ℚ) (l : List α)
    (hl : l ≠ []) : (argFold key none l).isSome = true := by
  cases l with
  | nil => exact absurd rfl hl
  | cons x xs =>
    rw [argFold, List.foldl_cons]
    exact argFold_isSome_of_acc key xs (argStep key none x) (argStep_isSome key none x)

/-- C5: in non-lazy mode, on a non-empty candidate list (of valid heap
addresses), `select_best` returns exactly the claim's rule: candidates
are sorted by confidence descending, enriched in that order (bytes are
attempted only for the first `_MAX_FETCH = 6`, every candidate receives a
score), and the returned (fresh) dict is the highest-scoring candidate
that obtained bytes, or the highest-scoring candidate overall when none
did; in particular the result is never `None`. -/
theorem C5_select_best_nonlazy (O : SelectOracles) (heap : List Candidate)
    (candidates : List Nat) (base_url : String) (hne : candidates ≠ [])
    (hv : ∀ a ∈ candidates, a < heap.length) :
    ((select_best O heap candidates base_url false).1).map
        (heapGet (select_best O heap candidates base_url false).2) =
      claimSelect O heap candidates base_url ∧
      (claimSelect O heap candidates base_url).isSome = true := by
  have hordperm := isortBy_perm
    (fun x y => decide (confVal (heapGet heap y) < confVal (heapGet heap x))) candidates
  have hordne : isortBy
      (fun x y => decide (confVal (heapGet heap y) < confVal (heapGet heap x)))
      candidates ≠ [] := by
    intro h
    rw [h] at hordperm
    exact hne (List.Perm.eq_nil hordperm.symm)
  have hvord : ∀ a ∈ isortBy
      (fun x y => decide (confVal (heapGet heap y) < confVal (heapGet heap x)))
      candidates, a < heap.length :=
    fun a ha => hv a (hordperm.mem_iff.mp ha)
  constructor
  · rw [select_best]
    rw [if_neg (by rw [List.isEmpty_iff]; exact hne :
      ¬(candidates.isEmpty = true))]
    simp only [Bool.false_eq_true, if_false]
    rw [selectLoop_spec O base_url _ 0 heap none none hvord
      (fun p h => by cases h) (fun p h => by cases h)]
    rw [claimSelect]
    rfl
  · rw [claimSelect]
    set evals := evalsOf O base_url heap (isortBy
      (fun x y => decide (confVal (heapGet heap y) < confVal (heapGet heap x)))
      candidates) 0 with hevals
    have hevne : evals.map Prod.fst ≠ [] := by
      cases hord : isortBy
          (fun x y => decide (confVal (heapGet heap y) < confVal (heapGet heap x)))
          candidates with
      | nil => exact absurd hord hordne
      | cons x xs =>
        rw [hevals, hord, evalsOf]
        simp
    cases hfb : argFold scoreKeyC none
        ((evals.filter (fun p => p.2)).map Prod.fst) with
    | some c => rfl
    | none => exact argFold_isSome_of_ne_nil scoreKeyC _ hevne

/-- C5 (witness): the characterisation instantiated on a one-candidate
heap. -/
theorem C5_select_best_nonlazy_witness :
    ((select_best trivialOracles [emptyCandidate] [0] "b" false).1).map
        (heapGet (select_best trivialOracles [emptyCandidate] [0] "b" false).2) =
      claimSelect trivialOracles [emptyCandidate] [0] "b" ∧
      (claimSelect trivialOracles [emptyCandidate] [0] "b").isSome = true :=
  C5_select_best_nonlazy trivialOracles [emptyCandidate] [0] "b"
    (by decide) (by decide)

/-- C10 (witness): the frame property instantiated on a one-candidate
heap in lazy mode. -/
theorem C10_select_best_no_mutation_witness :
    ((select_best trivialOracles [emptyCandidate] [0] "b" true).2).take
        ([emptyCandidate] : List Candidate).length = [emptyCandidate] ∧
      (∀ a, (select_best trivialOracles [emptyCandidate] [0] "b" true).1 = some a →
        ([emptyCandidate] : List Candidate).length ≤ a) :=
  C10_select_best_no_mutation trivialOracles [emptyCandidate] [0] "b" true

theorem alookup_mem {α : Type} {k : String} {v : α} :
    ∀ {m : List (String × α)}, alookup k m = some v → (k, v) ∈ m := by
  intro m
  induction m with
  | nil => intro h; cases h
  | cons e rest ih =>
    intro h
    rw [alookup] at h
    by_cases he : e.1 = k
    · rw [if_pos he] at h
      have hv := Option.some.inj h
      have he2 : e = (k, v) := by
        obtain ⟨e1, e2⟩ := e
        simp only [] at he hv
        rw [he, hv]
      rw [he2]
      exact List.mem_cons_self _ _
    · rw [if_neg he] at h
      exact List.mem_cons_of_mem e (ih h)

theorem alookup_isSome_iff_mem {α : Type} (k : String) :
    ∀ (m : List (String × α)), (alookup k m).isSome = true ↔ k ∈ keysOf m := by
  intro m
  induction m with
  | nil => simp [alookup, keysOf]
  | cons e rest ih =>
    rw [alookup, keysOf, List.map_cons]
    by_cases he : e.1 = k
    · rw [if_pos he]
      simp [he]
    · rw [if_neg he]
      rw [List.mem_cons]
      constructor
      · intro h
        exact Or.inr (ih.mp h)
      · intro h
        rcases h with h | h
        · exact absurd h.symm he
        · exact ih.mpr h

theorem alookup_mapUpdate {α : Type} (k k' : String) (v : α) :
    ∀ (m : List (String × α)),
      alookup k' (m.map (fun e => if e.1 = k then (k, v) else e)) =
        if k' = k then (alookup k m).map (fun _ => v) else alookup k' m
  | [] => by
    by_cases h : k' = k
    · rw [if_pos h]
      rfl
    · rw [if_neg h]
      rfl
  | e :: rest => by
    rw [List.map_cons]
    by_cases he : e.1 = k
    · rw [if_pos he]
      by_cases hk' : k' = k
      · subst hk'
        rw [if_pos rfl, alookup, alookup, if_pos he,
          if_pos (show ((k', v) : String × α).1 = k' from rfl)]
        rfl
      · rw [if_neg hk', alookup, alookup,
          if_neg (show ¬((k, v) : String × α).1 = k' from fun h => hk' h.symm),
          if_neg (fun h => hk' (h.symm.trans he))]
        rw [alookup_mapUpdate k k' v rest, if_neg hk']
    · rw [if_neg he]
      by_cases hk' : k' = k
      · subst hk'
        rw [if_pos rfl]
        rw [alookup, alookup]
        rw [if_neg he, if_neg he]
        rw [alookup_mapUpdate k' k' v rest, if_pos rfl]
      · rw [if_neg hk']
        rw [alookup, alookup]
        by_cases hek' : e.1 = k'
        · rw [if_pos hek', if_pos hek']
        · rw [if_neg hek', if_neg hek']
          rw [alookup_mapUpdate k k' v rest, if_neg hk']

theorem alookup_append {α : Type} (k : String) :
    ∀ (m l : List (String × α)),
      alookup k (m ++ l) =
        match alookup k m with
        | some v => some v
        | none => alookup k l
  | [], l => rfl
  | e :: rest, l => by
    rw [List.cons_append, alookup, alookup]
    by_cases he : e.1 = k
    · rw [if_pos he, if_pos he]
    · rw [if_neg he, if_neg he]
      exact alookup_append k rest l

theorem alookup_none_of_not_contains {α : Type} {k : String} {m : List (String × α)}
    (h : ¬(containsKey m k = true)) : alookup k m = none := by
  rw [containsKey] at h
  cases hl : alookup k m with
  | none => rfl
  | some v => rw [hl] at h; exact absurd rfl h

theorem alookup_assocSet {α : Type} (m : List (String × α)) (k k' : String) (v : α) :
    alookup k' (assocSet m k v) = if k' = k then some v else alookup k' m := by
  rw [assocSet]
  by_cases hc : containsKey m k = true
  · rw [if_pos hc]
    rw [alookup_mapUpdate]
    by_cases hk' : k' = k
    · rw [if_pos hk', if_pos hk']
      rw [containsKey] at hc
      cases hl : alookup k m with
      | none => rw [hl] at hc; cases hc
      | some w => rfl
    · rw [if_neg hk', if_neg hk']
  · rw [if_neg hc]
    rw [alookup_append]
    by_cases hk' : k' = k
    · rw [if_pos hk']
      rw [hk', alookup_none_of_not_contains hc]
      rw [alookup, if_pos rfl]
    · rw [if_neg hk']
      cases hl : alookup k' m with
      | none =>
        rw [alookup, if_neg (fun h => hk' h.symm), alookup]
      | some w => rfl

theorem alookup_map_pair {α : Type} (f : String → α) :
    ∀ (l : List String) (k : String),
      alookup k (l.map (fun x => (x, f x))) = if k ∈ l then some (f k) else none := by
  intro l
  induction l with
  | nil => intro k; simp [alookup]
  | cons a l ih =>
    intro k
    rw [List.map_cons, alookup]
    by_cases ha : a = k
    · subst ha
      rw [if_pos rfl, if_pos (List.mem_cons_self a l)]
    · rw [if_neg ha, ih]
      by_cases hk : k ∈ l
      · rw [if_pos hk, if_pos (List.mem_cons_of_mem a hk)]
      · rw [if_neg hk, if_neg (fun h => by
          rcases List.mem_cons.mp h with h | h
          · exact ha h.symm
          · exact hk h)]

theorem keysOf_map_pair {α : Type} (f : String → α) :
    ∀ (l : List String), keysOf (l.map (fun x => (x, f x))) = l
  | [] => rfl
  | a :: l =>
    show a :: keysOf (l.map (fun x => (x, f x))) = a :: l from
      congrArg (List.cons a) (keysOf_map_pair f l)

theorem mem_assocSet {α : Type} {m : List (String × α)} {k : String} {v : α}
    {q : String × α} (h : q ∈ assocSet m k v) : q = (k, v) ∨ q ∈ m := by
  rw [assocSet] at h
  by_cases hc : containsKey m k = true
  · rw [if_pos hc] at h
    obtain ⟨e, he, heq⟩ := List.mem_map.mp h
    by_cases hek : e.1 = k
    · rw [if_pos hek] at heq
      exact Or.inl heq.symm
    · rw [if_neg hek] at heq
      exact Or.inr (heq ▸ he)
  · rw [if_neg hc] at h
    rcases List.mem_append.mp h with h | h
    · exact Or.inr h
    · exact Or.inl (List.mem_singleton.mp h)

theorem keysOf_mapUpdate {α : Type} (m : List (String × α)) (k : String) (v : α) :
    keysOf (m.map (fun e => if e.1 = k then (k, v) else e)) = keysOf m := by
  rw [keysOf, keysOf, List.map_map]
  apply List.map_congr_left
  intro e _
  by_cases hek : e.1 = k
  · simp only [Function.comp_apply, if_pos hek]
    exact hek.symm
  · simp only [Function.comp_apply, if_neg hek]

theorem keysOf_assocSet_present {α : Type} {m : List (String × α)} {k : String}
    (v : α) (h : k ∈ keysOf m) : keysOf (assocSet m k v) = keysOf m := by
  rw [assocSet, if_pos (by
    rw [containsKey]
    exact (alookup_isSome_iff_mem k m).mpr h)]
  exact keysOf_mapUpdate m k v

theorem keysOf_assocSet_absent {α : Type} {m : List (String × α)} {k : String}
    (v : α) (h : ¬k ∈ keysOf m) : keysOf (assocSet m k v) = keysOf m ++ [k] := by
  rw [assocSet, if_neg (by
    rw [containsKey]
    intro hc
    exact h ((alookup_isSome_iff_mem k m).mp hc))]
  rw [keysOf, keysOf, List.map_append]
  rfl

theorem mapUpdate_id {α : Type} {k : String} {x : String × α} :
    ∀ (l : List (String × α)), (∀ e ∈ l, ¬e.1 = k) →
      l.map (fun e => if e.1 = k then x else e) = l
  | [], _ => rfl
  | e :: rest, h => by
    rw [List.map_cons, if_neg (h e (List.mem_cons_self e rest)),
      mapUpdate_id rest (fun e' he' => h e' (List.mem_cons_of_mem e he'))]

theorem flattenB_append : ∀ (x y : List (String × List String)),
    flattenB (x ++ y) = flattenB x ++ flattenB y
  | [], y => rfl
  | e :: rest, y => by
    rw [List.cons_append, flattenB, flattenB, flattenB_append rest y, List.append_assoc]

theorem ufFind_zero (uf : UnionFind) (item : String) :
    ufFind 0 uf item =
      match alookup item uf.parent with
      | none => (item, ⟨assocSet uf.parent item item, assocSet uf.rank item 0⟩)
      | some p => if p = item then (item, uf) else (p, uf) := by
  rw [ufFind]

theorem ufFind_succ (fuel : Nat) (uf : UnionFind) (item : String) :
    ufFind (fuel + 1) uf item =
      match alookup item uf.parent with
      | none => (item, ⟨assocSet uf.parent item item, assocSet uf.rank item 0⟩)
      | some p =>
        if p = item then (item, uf)
        else
          ((ufFind fuel uf p).1,
            ⟨assocSet (ufFind fuel uf p).2.parent item (ufFind fuel uf p).1,
              (ufFind fuel uf p).2.rank⟩) := by
  rw [ufFind]

theorem ufFind_self (fuel : Nat) (uf : UnionFind) (w : String)
    (h : alookup w uf.parent = some w) : ufFind fuel uf w = (w, uf) := by
  cases fuel with
  | zero =>
    rw [ufFind_zero, h]
    exact if_pos rfl
  | succ fuel =>
    rw [ufFind_succ, h]
    exact if_pos rfl

theorem find_self (uf : UnionFind) (w : String) (h : alookup w uf.parent = some w) :
    uf.find w = (w, uf) :=
  ufFind_self uf.parent.length uf w h

theorem ufFind_pres : ∀ (fuel : Nat) (uf : UnionFind) (item : String),
    item ∈ keysOf uf.parent → ufClosed uf →
    keysOf (ufFind fuel uf item).2.parent = keysOf uf.parent ∧
      ufClosed (ufFind fuel uf item).2 ∧
      (ufFind fuel uf item).1 ∈ keysOf uf.parent := by
  intro fuel
  induction fuel with
  | zero =>
    intro uf item hi hc
    rw [ufFind_zero]
    cases hl : alookup item uf.parent with
    | none =>
      exfalso
      have hs := (alookup_isSome_iff_mem item uf.parent).mpr hi
      rw [hl] at hs
      simp at hs
    | some p =>
      simp only []
      have hmemp : p ∈ keysOf uf.parent := hc (item, p) (alookup_mem hl)
      by_cases hp : p = item
      · rw [if_pos hp]
        exact ⟨rfl, hc, hi⟩
      · rw [if_neg hp]
        exact ⟨rfl, hc, hmemp⟩
  | succ fuel ih =>
    intro uf item hi hc
    rw [ufFind_succ]
    cases hl : alookup item uf.parent with
    | none =>
      exfalso
      have hs := (alookup_isSome_iff_mem item uf.parent).mpr hi
      rw [hl] at hs
      simp at hs
    | some p =>
      simp only []
      have hmemp : p ∈ keysOf uf.parent := hc (item, p) (alookup_mem hl)
      by_cases hp : p = item
      · rw [if_pos hp]
        exact ⟨rfl, hc, hi⟩
      · rw [if_neg hp]
        obtain ⟨hk, hcl, hr⟩ := ih uf p hmemp hc
        have hik : item ∈ keysOf (ufFind fuel uf p).2.parent := hk.symm ▸ hi
        have hknew : keysOf (assocSet (ufFind fuel uf p).2.parent item (ufFind fuel uf p).1) =
            keysOf (ufFind fuel uf p).2.parent :=
          keysOf_assocSet_present _ hik
        refine ⟨hknew.trans hk, ?_, hr⟩
        intro q hq
        rw [show keysOf
            (⟨assocSet (ufFind fuel uf p).2.parent item (ufFind fuel uf p).1,
              (ufFind fuel uf p).2.rank⟩ : UnionFind).parent =
            keysOf (assocSet (ufFind fuel uf p).2.parent item (ufFind fuel uf p).1) from rfl,
          hknew]
        rcases mem_assocSet hq with hq | hq
        · rw [hq]
          exact hk.symm ▸ hr
        · exact hcl q hq

theorem find_pres (uf : UnionFind) (item : String) (hi : item ∈ keysOf uf.parent)
    (hc : ufClosed uf) :
    keysOf (uf.find item).2.parent = keysOf uf.parent ∧
      ufClosed (uf.find item).2 ∧ (uf.find item).1 ∈ keysOf uf.parent :=
  ufFind_pres uf.parent.length uf item hi hc

theorem union_eq (uf : UnionFind) (a b : String) :
    uf.union a b =
      if (uf.find a).1 = ((uf.find a).2.find b).1 then ((uf.find a).2.find b).2
      else
        if (alookup (uf.find a).1 ((uf.find a).2.find b).2.rank).getD 0 <
            (alookup ((uf.find a).2.find b).1 ((uf.find a).2.find b).2.rank).getD 0 then
          { ((uf.find a).2.find b).2 with
            parent := assocSet ((uf.find a).2.find b).2.parent (uf.find a).1
              ((uf.find a).2.find b).1 }
        else if (alookup ((uf.find a).2.find b).1 ((uf.find a).2.find b).2.rank).getD 0 <
            (alookup (uf.find a).1 ((uf.find a).2.find b).2.rank).getD 0 then
          { ((uf.find a).2.find b).2 with
            parent := assocSet ((uf.find a).2.find b).2.parent ((uf.find a).2.find b).1
              (uf.find a).1 }
        else
          { parent := assocSet ((uf.find a).2.find b).2.parent ((uf.find a).2.find b).1
              (uf.find a).1
            rank := assocSet ((uf.find a).2.find b).2.rank (uf.find a).1
              ((alookup (uf.find a).1 ((uf.find a).2.find b).2.rank).getD 0 + 1) } := rfl

theorem closed_assocSet {x y : String} {uf : UnionFind}
    (hx : x ∈ keysOf uf.parent) (hy : y ∈ keysOf uf.parent) (hc : ufClosed uf) :
    keysOf (assocSet uf.parent x y) = keysOf uf.parent ∧
      ∀ (R : List (String × Nat)), ufClosed ⟨assocSet uf.parent x y, R⟩ := by
  have hk := keysOf_assocSet_present (m := uf.parent) y hx
  refine ⟨hk, fun R q hq => ?_⟩
  rw [show keysOf (⟨assocSet uf.parent x y, R⟩ : UnionFind).parent =
      keysOf (assocSet uf.parent x y) from rfl, hk]
  rcases mem_assocSet hq with hq | hq
  · rw [hq]
    exact hy
  · exact hc q hq

theorem union_pres (uf : UnionFind) (a b : String) (ha : a ∈ keysOf uf.parent)
    (hb : b ∈ keysOf uf.parent) (hc : ufClosed uf) :
    keysOf (uf.union a b).parent = keysOf uf.parent ∧ ufClosed (uf.union a b) := by
  obtain ⟨hk1, hc1, hr1⟩ := find_pres uf a ha hc
  obtain ⟨hk2, hc2, hr2⟩ := find_pres (uf.find a).2 b (hk1.symm ▸ hb) hc1
  have hk21 : keysOf ((uf.find a).2.find b).2.parent = keysOf uf.parent := hk2.trans hk1
  have hka : (uf.find a).1 ∈ keysOf ((uf.find a).2.find b).2.parent := hk21.symm ▸ hr1
  have hkb : ((uf.find a).2.find b).1 ∈ keysOf ((uf.find a).2.find b).2.parent :=
    hk2.symm ▸ hr2
  rw [union_eq]
  by_cases h0 : (uf.find a).1 = ((uf.find a).2.find b).1
  · rw [if_pos h0]
    exact ⟨hk21, hc2⟩
  · rw [if_neg h0]
    by_cases h1 : (alookup (uf.find a).1 ((uf.find a).2.find b).2.rank).getD 0 <
        (alookup ((uf.find a).2.find b).1 ((uf.find a).2.find b).2.rank).getD 0
    · rw [if_pos h1]
      obtain ⟨hk3, hc3⟩ := closed_assocSet hka hkb hc2
      exact ⟨hk3.trans hk21, hc3 _⟩
    · rw [if_neg h1]
      by_cases h2 : (alookup ((uf.find a).2.find b).1 ((uf.find a).2.find b).2.rank).getD 0 <
          (alookup (uf.find a).1 ((uf.find a).2.find b).2.rank).getD 0
      · rw [if_pos h2]
        obtain ⟨hk3, hc3⟩ := closed_assocSet hkb hka hc2
        exact ⟨hk3.trans hk21, hc3 _⟩
      · rw [if_neg h2]
        obtain ⟨hk3, hc3⟩ := closed_assocSet hkb hka hc2
        exact ⟨hk3.trans hk21, hc3 _⟩

theorem foldUnion_pres : ∀ (edges : List (String × String × ℚ)) (uf : UnionFind),
    (∀ e ∈ edges, e.1 ∈ keysOf uf.parent ∧ e.2.1 ∈ keysOf uf.parent) → ufClosed uf →
    keysOf (edges.foldl ustep uf).parent = keysOf uf.parent ∧
      ufClosed (edges.foldl ustep uf)
  | [], uf, _, hc => ⟨rfl, hc⟩
  | e :: rest, uf, he, hc => by
    rw [List.foldl_cons]
    have h1 := he e (List.mem_cons_self e rest)
    have hu : keysOf (ustep uf e).parent = keysOf uf.parent ∧ ufClosed (ustep uf e) :=
      union_pres uf e.1 e.2.1 h1.1 h1.2 hc
    obtain ⟨hk, hcl⟩ := foldUnion_pres rest (ustep uf e)
      (fun e' he' =>
        ⟨hu.1.symm ▸ (he e' (List.mem_cons_of_mem e he')).1,
          hu.1.symm ▸ (he e' (List.mem_cons_of_mem e he')).2⟩)
      hu.2
    exact ⟨hk.trans hu.1, hcl⟩

theorem untouched_parent_assocSet {w x y : String} {uf : UnionFind}
    (hx : x ≠ w) (hy : y ≠ w) (hu : untouched w uf) (R : List (String × Nat)) :
    untouched w (⟨assocSet uf.parent x y, R⟩ : UnionFind) := by
  constructor
  · show alookup w (assocSet uf.parent x y) = some w
    rw [alookup_assocSet, if_neg (fun h => hx h.symm)]
    exact hu.1
  · intro q hq hq1
    rcases mem_assocSet hq with hq | hq
    · rw [hq]
      exact hy
    · exact hu.2 q hq hq1

theorem ufFind_avoid (w : String) : ∀ (fuel : Nat) (uf : UnionFind) (item : String),
    item ≠ w → untouched w uf →
    (ufFind fuel uf item).1 ≠ w ∧ untouched w (ufFind fuel uf item).2 := by
  intro fuel
  induction fuel with
  | zero =>
    intro uf item hne hu
    rw [ufFind_zero]
    cases hl : alookup item uf.parent with
    | none =>
      simp only []
      exact ⟨hne, untouched_parent_assocSet hne hne hu _⟩
    | some p =>
      simp only []
      have hp : p ≠ w := hu.2 (item, p) (alookup_mem hl) hne
      by_cases hpi : p = item
      · rw [if_pos hpi]
        exact ⟨hne, hu⟩
      · rw [if_neg hpi]
        exact ⟨hp, hu⟩
  | succ fuel ih =>
    intro uf item hne hu
    rw [ufFind_succ]
    cases hl : alookup item uf.parent with
    | none =>
      simp only []
      exact ⟨hne, untouched_parent_assocSet hne hne hu _⟩
    | some p =>
      simp only []
      have hp : p ≠ w := hu.2 (item, p) (alookup_mem hl) hne
      by_cases hpi : p = item
      · rw [if_pos hpi]
        exact ⟨hne, hu⟩
      · rw [if_neg hpi]
        obtain ⟨hr, hu'⟩ := ih uf p hp hu
        exact ⟨hr, untouched_parent_assocSet hne hr hu' _⟩

theorem find_avoid {w : String} (uf : UnionFind) (item : String) (hne : item ≠ w)
    (hu : untouched w uf) :
    (uf.find item).1 ≠ w ∧ untouched w (uf.find item).2 :=
  ufFind_avoid w uf.parent.length uf item hne hu

theorem union_avoid {w : String} (uf : UnionFind) (a b : String) (ha : a ≠ w)
    (hb : b ≠ w) (hu : untouched w uf) : untouched w (uf.union a b) := by
  obtain ⟨hra, hu1⟩ := find_avoid uf a ha hu
  obtain ⟨hrb, hu2⟩ := find_avoid (uf.find a).2 b hb hu1
  rw [union_eq]
  by_cases h0 : (uf.find a).1 = ((uf.find a).2.find b).1
  · rw [if_pos h0]
    exact hu2
  · rw [if_neg h0]
    by_cases h1 : (alookup (uf.find a).1 ((uf.find a).2.find b).2.rank).getD 0 <
        (alookup ((uf.find a).2.find b).1 ((uf.find a).2.find b).2.rank).getD 0
    · rw [if_pos h1]
      exact untouched_parent_assocSet hra hrb hu2 _
    · rw [if_neg h1]
      by_cases h2 : (alookup ((uf.find a).2.find b).1 ((uf.find a).2.find b).2.rank).getD 0 <
          (alookup (uf.find a).1 ((uf.find a).2.find b).2.rank).getD 0
      · rw [if_pos h2]
        exact untouched_parent_assocSet hrb hra hu2 _
      · rw [if_neg h2]
        exact untouched_parent_assocSet hrb hra hu2 _

theorem foldUnion_avoid {w : String} : ∀ (edges : List (String × String × ℚ))
    (uf : UnionFind), (∀ e ∈ edges, e.1 ≠ w ∧ e.2.1 ≠ w) → untouched w uf →
    untouched w (edges.foldl ustep uf)
  | [], _, _, hu => hu
  | e :: rest, uf, he, hu => by
    rw [List.foldl_cons]
    have h1 := he e (List.mem_cons_self e rest)
    exact foldUnion_avoid rest (ustep uf e)
      (fun e' he' => he e' (List.mem_cons_of_mem e he'))
      (union_avoid uf e.1 e.2.1 h1.1 h1.2 hu)

theorem add_all_eq (uf : UnionFind) (items : List String) :
    uf.add_all items = items.foldl addStep uf := rfl

theorem keysOf_diag (ks : List String) : keysOf (diagUF ks).parent = ks :=
  keysOf_map_pair (fun x => x) ks

theorem diag_closed (ks : List String) : ufClosed (diagUF ks) := by
  intro p hp
  obtain ⟨x, hx, he⟩ := List.mem_map.mp hp
  rw [keysOf_diag, ← he]
  exact hx

theorem diag_untouched {ks : List String} {w : String} (hw : w ∈ ks) :
    untouched w (diagUF ks) := by
  constructor
  · show alookup w (ks.map (fun x => (x, x))) = some w
    rw [alookup_map_pair, if_pos hw]
  · intro p hp h1
    obtain ⟨x, _, he⟩ := List.mem_map.mp hp
    rw [← he]
    rw [← he] at h1
    exact h1

theorem addStep_present {ks : List String} {item : String} (h : item ∈ ks) :
    addStep (diagUF ks) item = diagUF ks := by
  rw [addStep]
  have hl : alookup item (diagUF ks).parent = some item := by
    show alookup item (ks.map (fun x => (x, x))) = some item
    rw [alookup_map_pair, if_pos h]
  rw [find_self (diagUF ks) item hl]

theorem ufFind_none (fuel : Nat) (uf : UnionFind) (item : String)
    (h : alookup item uf.parent = none) :
    ufFind fuel uf item =
      (item, ⟨assocSet uf.parent item item, assocSet uf.rank item 0⟩) := by
  cases fuel with
  | zero => rw [ufFind_zero, h]
  | succ n => rw [ufFind_succ, h]

theorem addStep_absent {ks : List String} {item : String} (h : ¬item ∈ ks) :
    addStep (diagUF ks) item = diagUF (ks ++ [item]) := by
  have hl : alookup item (diagUF ks).parent = none := by
    show alookup item (ks.map (fun x => (x, x))) = none
    rw [alookup_map_pair, if_neg h]
  have hc1 : ¬(containsKey (ks.map (fun x => (x, x))) item = true) := fun hc => h (by
    have hm := (alookup_isSome_iff_mem item (ks.map (fun x => (x, x)))).mp hc
    rwa [keysOf_map_pair] at hm)
  have hc2 : ¬(containsKey (ks.map (fun x => (x, (0 : Nat)))) item = true) := fun hc => h (by
    have hm := (alookup_isSome_iff_mem item (ks.map (fun x => (x, (0 : Nat))))).mp hc
    rwa [keysOf_map_pair] at hm)
  rw [addStep, UnionFind.find, ufFind_none _ _ _ hl]
  show (⟨assocSet (ks.map (fun x => (x, x))) item item,
      assocSet (ks.map (fun x => (x, 0))) item 0⟩ : UnionFind) =
    ⟨(ks ++ [item]).map (fun x => (x, x)), (ks ++ [item]).map (fun x => (x, 0))⟩
  rw [assocSet, if_neg hc1, assocSet, if_neg hc2, List.map_append, List.map_append]
  rfl

theorem add_all_diag : ∀ (items ks : List String),
    (diagUF ks).add_all items = diagUF (addNewKeys ks items)
  | [], ks => rfl
  | item :: rest, ks => by
    rw [add_all_eq, List.foldl_cons, addNewKeys]
    by_cases h : item ∈ ks
    · rw [if_pos h, addStep_present h, ← add_all_eq, add_all_diag rest ks]
    · rw [if_neg h, addStep_absent h, ← add_all_eq, add_all_diag rest (ks ++ [item])]

theorem addNewKeys_self : ∀ (items ks : List String), items.Nodup →
    (∀ i ∈ items, ¬i ∈ ks) → addNewKeys ks items = ks ++ items
  | [], ks, _, _ => (List.append_nil ks).symm
  | item :: rest, ks, hnd, hni => by
    rw [addNewKeys, if_neg (hni item (List.mem_cons_self item rest)),
      addNewKeys_self rest (ks ++ [item]) (List.nodup_cons.mp hnd).2
        (fun i hi => by
          intro hmem
          rcases List.mem_append.mp hmem with hm | hm
          · exact hni i (List.mem_cons_of_mem item hi) hm
          · exact (List.nodup_cons.mp hnd).1 (List.mem_singleton.mp hm ▸ hi)),
      List.append_assoc]
    rfl

theorem flattenB_mapUpdate (root i : String) (v : List String) :
    ∀ (b : List (String × List String)), (keysOf b).Nodup → alookup root b = some v →
      (flattenB (b.map (fun e => if e.1 = root then (root, v ++ [i]) else e))).Perm
        (flattenB b ++ [i])
  | [], _, hl => by cases hl
  | e :: rest, hnd, hl => by
    rw [alookup] at hl
    have hnd' := List.nodup_cons.mp (by
      rw [keysOf, List.map_cons] at hnd
      exact hnd)
    by_cases he : e.1 = root
    · rw [if_pos he] at hl
      have hv : e.2 = v := Option.some.inj hl
      have hid : rest.map (fun e => if e.1 = root then (root, v ++ [i]) else e) = rest :=
        mapUpdate_id rest (fun e' he' heq => hnd'.1 (by
          rw [← he] at heq
          rw [← heq]
          exact List.mem_map_of_mem Prod.fst he'))
      rw [List.map_cons, if_pos he, hid]
      rw [flattenB, flattenB, hv, List.append_assoc, List.append_assoc]
      exact List.Perm.append_left v (List.perm_append_comm)
    · rw [if_neg he] at hl
      rw [List.map_cons, if_neg he, flattenB, flattenB, List.append_assoc]
      exact List.Perm.append_left e.2
        ((flattenB_mapUpdate root i v rest hnd'.2 hl).trans
          (List.Perm.refl _))

theorem flattenB_bucketAdd (b : List (String × List String)) (root i : String)
    (hnd : (keysOf b).Nodup) :
    (flattenB (bucketAdd b root i)).Perm (flattenB b ++ [i]) ∧
      (keysOf (bucketAdd b root i)).Nodup := by
  rw [bucketAdd, assocSet]
  by_cases hc : containsKey b root = true
  · rw [if_pos hc]
    rw [containsKey] at hc
    cases hl : alookup root b with
    | none => rw [hl] at hc; cases hc
    | some v =>
      constructor
      · exact flattenB_mapUpdate root i v b hnd hl
      · rw [keysOf_mapUpdate]
        exact hnd
  · rw [if_neg hc]
    have hnone := alookup_none_of_not_contains hc
    rw [hnone]
    constructor
    · rw [flattenB_append]
      exact List.Perm.refl _
    · have hmem : ¬root ∈ keysOf b := fun hm =>
        hc ((alookup_isSome_iff_mem root b).mpr hm)
      rw [keysOf, List.map_append]
      rw [keysOf] at hnd hmem
      exact List.Nodup.append hnd (List.nodup_singleton root)
        (List.disjoint_singleton.mpr hmem)

theorem alookup_bucketAdd_ne {b : List (String × List String)} {root i w : String}
    (h : root ≠ w) : alookup w (bucketAdd b root i) = alookup w b := by
  rw [bucketAdd, alookup_assocSet, if_neg (fun hh => h hh.symm)]

theorem groups_eq (uf : UnionFind) :
    uf.groups = ((keysOf uf.parent).foldl gstep (uf, [])).2 := rfl

theorem groupsFold_perm : ∀ (items : List String)
    (st : UnionFind × List (String × List String)),
    (∀ i ∈ items, i ∈ keysOf st.1.parent) → ufClosed st.1 → (keysOf st.2).Nodup →
    (flattenB (List.foldl gstep st items).2).Perm (flattenB st.2 ++ items)
  | [], st, _, _, _ => by
    rw [List.foldl_nil, List.append_nil]
  | item :: rest, st, hi, hc, hnd => by
    rw [List.foldl_cons]
    obtain ⟨hk, hcl, _⟩ := find_pres st.1 item (hi item (List.mem_cons_self item rest)) hc
    obtain ⟨hperm, hnd'⟩ := flattenB_bucketAdd st.2 (st.1.find item).1 item hnd
    have ih := groupsFold_perm rest (gstep st item)
      (fun i hi' => by
        show i ∈ keysOf (st.1.find item).2.parent
        rw [hk]
        exact hi i (List.mem_cons_of_mem item hi'))
      hcl hnd'
    refine ih.trans ?_
    have hstep : (flattenB (gstep st item).2 ++ rest).Perm
        ((flattenB st.2 ++ [item]) ++ rest) := List.Perm.append_right rest hperm
    refine hstep.trans ?_
    rw [List.append_assoc]
    exact List.Perm.refl _

theorem groupsFold_avoid (w : String) : ∀ (items : List String)
    (st : UnionFind × List (String × List String)),
    (∀ i ∈ items, i ≠ w) → untouched w st.1 →
    alookup w (List.foldl gstep st items).2 = alookup w st.2 ∧
      untouched w (List.foldl gstep st items).1
  | [], _, _, hu => ⟨rfl, hu⟩
  | item :: rest, st, hi, hu => by
    rw [List.foldl_cons]
    obtain ⟨hroot, hu'⟩ := find_avoid st.1 item (hi item (List.mem_cons_self item rest)) hu
    obtain ⟨h1, h2⟩ := groupsFold_avoid w rest (gstep st item)
      (fun i h => hi i (List.mem_cons_of_mem item h)) hu'
    exact ⟨h1.trans (alookup_bucketAdd_ne hroot), h2⟩

theorem gstep_at_w (w : String) (st : UnionFind × List (String × List String))
    (hu : untouched w st.1) (hb : alookup w st.2 = none) :
    alookup w (gstep st w).2 = some [w] ∧ untouched w (gstep st w).1 := by
  have hfind : st.1.find w = (w, st.1) := find_self st.1 w hu.1
  constructor
  · show alookup w (bucketAdd st.2 (st.1.find w).1 w) = some [w]
    rw [hfind, bucketAdd, alookup_assocSet, if_pos rfl]
    have hb' : alookup ((w, st.1) : String × UnionFind).1 st.2 = none := hb
    rw [hb']
    rfl
  · show untouched w (st.1.find w).2
    rw [hfind]
    exact hu

theorem groupsFold_single (w : String) (pre post : List String)
    (st : UnionFind × List (String × List String))
    (hpre : ∀ i ∈ pre, i ≠ w) (hpost : ∀ i ∈ post, i ≠ w)
    (hu : untouched w st.1) (hb : alookup w st.2 = none) :
    alookup w (List.foldl gstep st (pre ++ w :: post)).2 = some [w] := by
  rw [List.foldl_append, List.foldl_cons]
  obtain ⟨h1, h2⟩ := groupsFold_avoid w pre st hpre hu
  obtain ⟨g1, g2⟩ := gstep_at_w w (List.foldl gstep st pre) h2 (h1.trans hb)
  obtain ⟨h3, _⟩ := groupsFold_avoid w post (gstep (List.foldl gstep st pre) w) hpost g2
  exact h3.trans g1

theorem shortlist_eq_ranked (fA : LogoFeatures) (f_all : List (String × LogoFeatures)) :
    shortlist_by_hash fA f_all 50 16 =
      ((isortBy distLt (rankedOf fA f_all 16)).take 50).map Prod.snd := by
  rw [shortlist_by_hash, rankedOf]
  rw [if_neg (by decide : ¬((50 : Nat) = 0))]
  by_cases hfal : strFalsy fA.perceptual.phash = true
  · rw [if_pos hfal, if_pos hfal]
    rfl
  · rw [if_neg hfal, if_neg hfal]
    rfl

theorem ranked_mem_keys (fA : LogoFeatures) (f_all : List (String × LogoFeatures))
    (mh : Nat) (p : Nat × String) (hp : p ∈ rankedOf fA f_all mh) :
    p.2 ∈ keysOf f_all := by
  rw [rankedOf] at hp
  by_cases hfal : strFalsy fA.perceptual.phash = true
  · rw [if_pos hfal] at hp
    cases hp
  · rw [if_neg hfal] at hp
    obtain ⟨wf, hwf, hf⟩ := List.mem_filterMap.mp hp
    by_cases hweb : wf.2.website = fA.website
    · rw [if_pos hweb] at hf
      cases hf
    · rw [if_neg hweb] at hf
      by_cases hph : strFalsy wf.2.perceptual.phash = true
      · rw [if_pos hph] at hf
        cases hf
      · rw [if_neg hph] at hf
        cases hd : hamming_distance_hex (fA.perceptual.phash.getD "")
            (wf.2.perceptual.phash.getD "") with
        | none =>
          rw [hd] at hf
          cases hf
        | some dist =>
          rw [hd] at hf
          rw [show (match some dist with
            | none => none
            | some distance =>
              if distance ≤ mh then some (distance, wf.1) else none) =
            (if dist ≤ mh then some (dist, wf.1) else none) from rfl] at hf
          by_cases hle : dist ≤ mh
          · rw [if_pos hle] at hf
            have h2 : wf.1 = p.2 := congrArg Prod.snd (Option.some.inj hf)
            rw [← h2]
            exact List.mem_map_of_mem Prod.fst hwf
          · rw [if_neg hle] at hf
            cases hf

theorem shortlist_mem_keys (fA : LogoFeatures) (f_all : List (String × LogoFeatures))
    (c : String) (hc : c ∈ shortlist_by_hash fA f_all 50 16) : c ∈ keysOf f_all := by
  rw [shortlist_eq_ranked] at hc
  obtain ⟨p, hp, hpc⟩ := List.mem_map.mp hc
  have hp2 := (isortBy_perm distLt (rankedOf fA f_all 16)).mem_iff.mp
    (List.mem_of_mem_take hp)
  exact hpc ▸ ranked_mem_keys fA f_all 16 p hp2

theorem edges_mem_keys {Img : Type} (orbRaw : Img → Img → ℚ)
    (features_map : List (String × LogoFeatures)) (images_map : String → Option Img)
    (t : ℚ) (e : String × String × ℚ)
    (hmem : e ∈ build_similarity_edges orbRaw features_map images_map t) :
    e.1 ∈ keysOf features_map ∧ e.2.1 ∈ keysOf features_map := by
  rw [build_similarity_edges, pairwise_scores] at hmem
  by_cases hemp : features_map.isEmpty = true
  · rw [if_pos hemp] at hmem
    simp at hmem
  · rw [if_neg hemp] at hmem
    obtain ⟨website, hw, hin⟩ := List.mem_flatMap.mp hmem
    have hwk : website ∈ keysOf features_map := (isortBy_perm strLt _).mem_iff.mp hw
    cases ha : alookup website features_map with
    | none =>
      rw [ha] at hin
      simp at hin
    | some feature =>
      rw [ha] at hin
      obtain ⟨candidate, hc, heq⟩ := List.mem_filterMap.mp hin
      have hck : candidate ∈ keysOf features_map :=
        shortlist_mem_keys feature features_map candidate hc
      cases hb : alookup candidate features_map with
      | none =>
        rw [hb] at heq
        simp at heq
      | some other =>
        rw [hb] at heq
        simp only [] at heq
        by_cases hle : strLe candidate website = true
        · rw [if_pos hle] at heq
          simp at heq
        · rw [if_neg hle] at heq
          by_cases hge : pair_final_score orbRaw images_map t website candidate
              feature other ≥ t
          · rw [if_pos hge] at heq
            have h := Option.some.inj heq
            have h1 : website = e.1 := congrArg Prod.fst h
            have h2 : candidate = e.2.1 := congrArg Prod.fst (congrArg Prod.snd h)
            exact ⟨h1 ▸ hwk, h2 ▸ hck⟩
          · rw [if_neg hge] at heq
            simp at heq

/-- C7: after `add_all` over every feature website and a `union` per
edge, `groups()` partitions exactly the key set of the feature map:
the concatenation of the member lists is a permutation of the feature
websites (with unique keys, each website lands in exactly one group and
nothing else appears), and a website incident to no edge forms the
singleton group `[w]`. -/
theorem C7_groups_partition {Img : Type} (orbRaw : Img → Img → ℚ)
    (features_map : List (String × LogoFeatures)) (images_map : String → Option Img)
    (hnd : (keysOf features_map).Nodup) :
    (flattenB (pipeline_uf orbRaw features_map images_map T_LINK).groups).Perm
        (keysOf features_map) ∧
      ∀ w ∈ keysOf features_map,
        (∀ e ∈ build_similarity_edges orbRaw features_map images_map T_LINK,
            e.1 ≠ w ∧ e.2.1 ≠ w) →
          ∃ g ∈ (pipeline_uf orbRaw features_map images_map T_LINK).groups,
            g.2 = [w] := by
  have huf0 : UnionFind.empty.add_all (keysOf features_map) =
      diagUF (keysOf features_map) := by
    have h0 : UnionFind.empty = diagUF [] := rfl
    rw [h0, add_all_diag,
      addNewKeys_self (keysOf features_map) [] hnd (fun i _ hi => List.not_mem_nil i hi),
      List.nil_append]
  have hfold : pipeline_uf orbRaw features_map images_map T_LINK =
      (build_similarity_edges orbRaw features_map images_map T_LINK).foldl ustep
        (diagUF (keysOf features_map)) := by
    rw [pipeline_uf, huf0]
    rfl
  have hends : ∀ e ∈ build_similarity_edges orbRaw features_map images_map T_LINK,
      e.1 ∈ keysOf (diagUF (keysOf features_map)).parent ∧
        e.2.1 ∈ keysOf (diagUF (keysOf features_map)).parent := by
    intro e he
    obtain ⟨h1, h2⟩ := edges_mem_keys orbRaw features_map images_map T_LINK e he
    rw [keysOf_diag]
    exact ⟨h1, h2⟩
  obtain ⟨hkuf, hcuf⟩ := foldUnion_pres
    (build_similarity_edges orbRaw features_map images_map T_LINK)
    (diagUF (keysOf features_map)) hends (diag_closed _)
  rw [hfold, groups_eq]
  have hkeys : keysOf ((build_similarity_edges orbRaw features_map images_map
      T_LINK).foldl ustep (diagUF (keysOf features_map))).parent =
      keysOf features_map := hkuf.trans (keysOf_diag _)
  rw [hkeys]
  constructor
  · exact groupsFold_perm (keysOf features_map)
      ((build_similarity_edges orbRaw features_map images_map T_LINK).foldl ustep
        (diagUF (keysOf features_map)), [])
      (fun i hi => hkeys.symm ▸ hi) hcuf List.nodup_nil
  · intro w hw hno
    have hu1 : untouched w ((build_similarity_edges orbRaw features_map images_map
        T_LINK).foldl ustep (diagUF (keysOf features_map))) :=
      foldUnion_avoid _ _ hno (diag_untouched hw)
    obtain ⟨pre, post, hsplit⟩ := List.append_of_mem hw
    have hnd2 : (pre ++ w :: post).Nodup := hsplit ▸ hnd
    rw [List.nodup_append] at hnd2
    obtain ⟨hnp, hnwp, hdisj⟩ := hnd2
    have hpre : ∀ i ∈ pre, i ≠ w :=
      fun i hi hiw => hdisj hi (hiw ▸ List.mem_cons_self w post)
    have hpost : ∀ i ∈ post, i ≠ w :=
      fun i hi hiw => (List.nodup_cons.mp hnwp).1 (hiw ▸ hi)
    have hsingle := groupsFold_single w pre post
      ((build_similarity_edges orbRaw features_map images_map T_LINK).foldl ustep
        (diagUF (keysOf features_map)), [])
      hpre hpost hu1 rfl
    rw [congrArg (List.foldl gstep
      ((build_similarity_edges orbRaw features_map images_map T_LINK).foldl ustep
        (diagUF (keysOf features_map)), ([] : List (String × List String)))) hsplit]
    exact ⟨(w, [w]), alookup_mem hsingle, rfl⟩

/-- C7 (witness): on a concrete two-site map with no edges, the groups
partition the key set and both sites are singleton groups. -/
theorem C7_groups_partition_witness :
    (keysOf mapXY).Nodup ∧
      ((flattenB (pipeline_uf zeroOrb mapXY noImages T_LINK).groups).Perm
          (keysOf mapXY) ∧
        ∀ w ∈ keysOf mapXY,
          (∀ e ∈ build_similarity_edges zeroOrb mapXY noImages T_LINK,
              e.1 ≠ w ∧ e.2.1 ≠ w) →
            ∃ g ∈ (pipeline_uf zeroOrb mapXY noImages T_LINK).groups, g.2 = [w]) :=
  ⟨by decide, C7_groups_partition zeroOrb mapXY noImages (by decide)⟩

theorem alookup_eq_of_perm {α : Type} {m₁ m₂ : List (String × α)} (h : m₁.Perm m₂) :
    (keysOf m₁).Nodup → ∀ k, alookup k m₁ = alookup k m₂ := by
  induction h with
  | nil => intro _ k; rfl
  | cons e h ih =>
    intro hnd k
    rw [alookup, alookup]
    by_cases he : e.1 = k
    · rw [if_pos he, if_pos he]
    · rw [if_neg he, if_neg he]
      refine ih ?_ k
      rw [keysOf, List.map_cons] at hnd
      exact (List.nodup_cons.mp hnd).2
  | swap x y l =>
    intro hnd k
    rw [alookup, alookup, alookup, alookup]
    by_cases hy : y.1 = k
    · rw [if_pos hy]
      by_cases hx : x.1 = k
      · exfalso
        rw [keysOf, List.map_cons, List.map_cons] at hnd
        exact (List.nodup_cons.mp hnd).1
          (hy.trans hx.symm ▸ List.mem_cons_self x.1 (l.map Prod.fst))
      · rw [if_neg hx, if_pos hy]
    · rw [if_neg hy]
      by_cases hx : x.1 = k
      · rw [if_pos hx, if_pos hx]
      · rw [if_neg hx, if_neg hx, if_neg hy]
  | trans h₁ h₂ ih₁ ih₂ =>
    intro hnd k
    refine (ih₁ hnd k).trans (ih₂ ?_ k)
    exact (h₁.map Prod.fst).nodup_iff.mp hnd

theorem filterMap_congr2 {α β : Type} {f g : α → Option β} :
    ∀ {l : List α}, (∀ a ∈ l, f a = g a) → l.filterMap f = l.filterMap g
  | [], _ => rfl
  | a :: l, h => by
    rw [List.filterMap_cons, List.filterMap_cons, h a (List.mem_cons_self a l),
      filterMap_congr2 (fun b hb => h b (List.mem_cons_of_mem a hb))]

theorem flatMap_congr2 {α β : Type} {f g : α → List β} :
    ∀ {l : List α}, (∀ a ∈ l, f a = g a) → l.flatMap f = l.flatMap g
  | [], _ => rfl
  | a :: l, h => by
    rw [List.flatMap_cons, List.flatMap_cons, h a (List.mem_cons_self a l),
      flatMap_congr2 (fun b hb => h b (List.mem_cons_of_mem a hb))]

theorem alookup_map_val {α β : Type} (f : α → β) (k : String) :
    ∀ (m : List (String × α)),
      alookup k (m.map (fun e => (e.1, f e.2))) = (alookup k m).map f
  | [] => rfl
  | e :: rest => by
    rw [List.map_cons, alookup, alookup,
      show ((e.1, f e.2) : String × β).1 = e.1 from rfl]
    by_cases he : e.1 = k
    · rw [if_pos he, if_pos he]
      rfl
    · rw [if_neg he, if_neg he]
      exact alookup_map_val f k rest

theorem keysOf_map_val {α β : Type} (f : α → β) :
    ∀ (m : List (String × α)), keysOf (m.map (fun e => (e.1, f e.2))) = keysOf m
  | [] => rfl
  | e :: rest =>
    show e.1 :: keysOf (rest.map (fun e => (e.1, f e.2))) = e.1 :: keysOf rest from
      congrArg (List.cons e.1) (keysOf_map_val f rest)

theorem filter_length_mono {α : Type} (p q : α → Bool) :
    ∀ (l : List α), (∀ a ∈ l, q a = true → p a = true) →
      (l.filter q).length ≤ (l.filter p).length
  | [], _ => Nat.le_refl 0
  | x :: l, h => by
    rw [List.filter_cons, List.filter_cons]
    have ih := filter_length_mono p q l (fun b hb => h b (List.mem_cons_of_mem x hb))
    by_cases hq : q x = true
    · rw [if_pos hq, if_pos (h x (List.mem_cons_self x l) hq)]
      exact Nat.succ_le_succ ih
    · rw [if_neg hq]
      by_cases hp : p x = true
      · rw [if_pos hp]
        exact Nat.le_succ_of_le ih
      · rw [if_neg hp]
        exact ih

theorem filter_length_strict {α : Type} (p q : α → Bool) :
    ∀ (l : List α), (∀ a ∈ l, q a = true → p a = true) →
      ∀ a ∈ l, p a = true → q a = false →
      (l.filter q).length < (l.filter p).length
  | [], _, a, ha, _, _ => absurd ha (List.not_mem_nil a)
  | x :: l, h, a, ha, hpa, hqa => by
    rw [List.filter_cons, List.filter_cons]
    rcases List.mem_cons.mp ha with he | ha'
    · subst he
      rw [if_pos hpa, if_neg (by rw [hqa]; exact Bool.false_ne_true)]
      exact Nat.lt_succ_of_le
        (filter_length_mono p q l (fun b hb => h b (List.mem_cons_of_mem a hb)))
    · by_cases hq : q x = true
      · rw [if_pos hq, if_pos (h x (List.mem_cons_self x l) hq)]
        exact Nat.succ_lt_succ (filter_length_strict p q l
          (fun b hb => h b (List.mem_cons_of_mem x hb)) a ha' hpa hqa)
      · rw [if_neg hq]
        have ih := filter_length_strict p q l
          (fun b hb => h b (List.mem_cons_of_mem x hb)) a ha' hpa hqa
        by_cases hp : p x = true
        · rw [if_pos hp]
          exact Nat.lt_succ_of_lt ih
        · rw [if_neg hp]
          exact ih

theorem assoc_perm_of_lookup_eq {α : Type} :
    ∀ (m₁ m₂ : List (String × α)), (keysOf m₁).Nodup → (keysOf m₂).Nodup →
      (∀ k, alookup k m₁ = alookup k m₂) → m₁.Perm m₂
  | [], [], _, _, _ => List.Perm.refl []
  | [], e :: r, _, _, h => by
    exfalso
    have he := (h e.1).symm
    rw [alookup, alookup, if_pos rfl] at he
    cases he
  | e :: r₁, m₂, hnd₁, hnd₂, h => by
    have hmem : e ∈ m₂ := by
      have he := h e.1
      rw [alookup, if_pos rfl] at he
      exact alookup_mem he.symm
    obtain ⟨pre, post, hsplit⟩ := List.append_of_mem hmem
    subst hsplit
    have hkeys : keysOf (pre ++ e :: post) = keysOf pre ++ e.1 :: keysOf post := by
      rw [keysOf, List.map_append, List.map_cons]
      rfl
    rw [hkeys] at hnd₂
    obtain ⟨hnp, hncons, hdisj⟩ := List.nodup_append.mp hnd₂
    have hepre : ¬e.1 ∈ keysOf pre :=
      fun hm => hdisj hm (List.mem_cons_self e.1 (keysOf post))
    have hepost : ¬e.1 ∈ keysOf post := (List.nodup_cons.mp hncons).1
    have hnd₁' : (keysOf r₁).Nodup := by
      rw [keysOf, List.map_cons] at hnd₁
      exact (List.nodup_cons.mp hnd₁).2
    have her₁ : ¬e.1 ∈ keysOf r₁ := by
      rw [keysOf, List.map_cons] at hnd₁
      exact (List.nodup_cons.mp hnd₁).1
    have hndpp : (keysOf (pre ++ post)).Nodup := by
      rw [keysOf, List.map_append]
      rw [keysOf] at hnp hepre
      rw [keysOf] at hepost
      exact List.Nodup.append hnp (List.nodup_cons.mp hncons).2
        (fun a ha hb => hdisj ha (List.mem_cons_of_mem e.1 hb))
    have hlook : ∀ k, alookup k r₁ = alookup k (pre ++ post) := by
      intro k
      by_cases hk : e.1 = k
      · subst hk
        have h1 : alookup e.1 r₁ = none := by
          cases hl : alookup e.1 r₁ with
          | none => rfl
          | some v =>
            exact absurd ((alookup_isSome_iff_mem e.1 r₁).mp (by rw [hl]; rfl)) her₁
        have h2 : alookup e.1 (pre ++ post) = none := by
          cases hl : alookup e.1 (pre ++ post) with
          | none => rfl
          | some v =>
            have hm := (alookup_isSome_iff_mem e.1 (pre ++ post)).mp (by rw [hl]; rfl)
            rw [keysOf, List.map_append] at hm
            rcases List.mem_append.mp hm with hm | hm
            · exact absurd hm hepre
            · exact absurd hm hepost
        rw [h1, h2]
      · have hek := h k
        rw [alookup, if_neg hk] at hek
        rw [hek, alookup_append, alookup_append]
        cases alookup k pre with
        | some v => rfl
        | none =>
          rw [alookup, if_neg hk]
    have ih := assoc_perm_of_lookup_eq r₁ (pre ++ post) hnd₁' hndpp hlook
    exact (ih.cons e).trans List.perm_middle.symm

theorem chase_zero (m : List (String × String)) (k : String) :
    chase 0 m k =
      match alookup k m with
      | none => k
      | some p => if p = k then k else p := by
  rw [chase]

theorem chase_succ (f : Nat) (m : List (String × String)) (k : String) :
    chase (f + 1) m k =
      match alookup k m with
      | none => k
      | some p => if p = k then k else chase f m p := by
  rw [chase]

theorem chase_none {m : List (String × String)} {k : String}
    (h : alookup k m = none) : ∀ fuel, chase fuel m k = k := by
  intro fuel
  cases fuel with
  | zero => rw [chase_zero, h]
  | succ f => rw [chase_succ, h]

theorem chase_self {m : List (String × String)} {k : String}
    (h : alookup k m = some k) : ∀ fuel, chase fuel m k = k := by
  intro fuel
  cases fuel with
  | zero =>
    rw [chase_zero, h]
    exact if_pos rfl
  | succ f =>
    rw [chase_succ, h]
    exact if_pos rfl

theorem chase_step_zero {m : List (String × String)} {k p : String}
    (h : alookup k m = some p) (hp : p ≠ k) : chase 0 m k = p := by
  rw [chase_zero, h]
  exact if_neg hp

theorem chase_step_succ {m : List (String × String)} {k p : String} (f : Nat)
    (h : alookup k m = some p) (hp : p ≠ k) : chase (f + 1) m k = chase f m p := by
  rw [chase_succ, h]
  exact if_neg hp

theorem chase_congr {m₁ m₂ : List (String × String)}
    (h : ∀ x, alookup x m₁ = alookup x m₂) :
    ∀ (fuel : Nat) (k : String), chase fuel m₁ k = chase fuel m₂ k := by
  intro fuel
  induction fuel with
  | zero =>
    intro k
    cases hl : alookup k m₁ with
    | none =>
      rw [chase_none hl, chase_none ((h k).symm.trans hl)]
    | some p =>
      by_cases hp : p = k
      · subst hp
        rw [chase_self hl, chase_self ((h p).symm.trans hl)]
      · rw [chase_step_zero hl hp, chase_step_zero ((h k).symm.trans hl) hp]
  | succ f ih =>
    intro k
    cases hl : alookup k m₁ with
    | none =>
      rw [chase_none hl, chase_none ((h k).symm.trans hl)]
    | some p =>
      by_cases hp : p = k
      · subst hp
        rw [chase_self hl, chase_self ((h p).symm.trans hl)]
      · rw [chase_step_succ f hl hp, chase_step_succ f ((h k).symm.trans hl) hp]
        exact ih p

theorem mu_lt_of_parent {uf : UnionFind} {k p : String} (hcl : ufClosed uf)
    (hri : RankInv uf) (h : alookup k uf.parent = some p) (hp : p ≠ k) :
    muOf uf p < muOf uf k := by
  have hrk := hri k p h hp
  apply filter_length_strict
  · intro x _ hx
    rw [decide_eq_true_eq] at hx
    rw [decide_eq_true_eq]
    exact Nat.lt_trans hrk hx
  · exact hcl (k, p) (alookup_mem h)
  · rw [decide_eq_true_eq]
    exact hrk
  · rw [decide_eq_false_iff_not]
    exact Nat.lt_irrefl _

theorem mu_bound {uf : UnionFind} {k : String} (hk : k ∈ keysOf uf.parent) :
    muOf uf k < uf.parent.length := by
  have h := filter_length_strict (fun _ => true)
    (fun x => decide (rkOf uf k < rkOf uf x)) (keysOf uf.parent)
    (fun a _ _ => rfl) k hk rfl (by
      rw [decide_eq_false_iff_not]
      exact Nat.lt_irrefl _)
  rw [List.filter_true] at h
  rw [muOf]
  calc ((keysOf uf.parent).filter (fun x => decide (rkOf uf k < rkOf uf x))).length
      < (keysOf uf.parent).length := h
    _ = uf.parent.length := List.length_map uf.parent Prod.fst

theorem chase_big {uf : UnionFind} (hcl : ufClosed uf) (hri : RankInv uf) :
    ∀ (fuel₁ : Nat) (k : String), k ∈ keysOf uf.parent → muOf uf k < fuel₁ →
      (∀ fuel₂, muOf uf k < fuel₂ → chase fuel₁ uf.parent k = chase fuel₂ uf.parent k) ∧
      alookup (chase fuel₁ uf.parent k) uf.parent = some (chase fuel₁ uf.parent k) := by
  intro fuel₁
  induction fuel₁ with
  | zero =>
    intro k _ hmu
    exact absurd hmu (Nat.not_lt_zero _)
  | succ f ih =>
    intro k hk hmu
    cases hl : alookup k uf.parent with
    | none =>
      exfalso
      have hs := (alookup_isSome_iff_mem k uf.parent).mpr hk
      rw [hl] at hs
      cases hs
    | some p =>
      by_cases hp : p = k
      · subst hp
        refine ⟨fun fuel₂ _ => ?_, ?_⟩
        · rw [chase_self hl, chase_self hl]
        · rw [chase_self hl]
          exact hl
      · have hpk : p ∈ keysOf uf.parent := hcl (k, p) (alookup_mem hl)
        have hmup : muOf uf p < muOf uf k := mu_lt_of_parent hcl hri hl hp
        obtain ⟨ihs, ihroot⟩ := ih p hpk (by omega)
        constructor
        · intro fuel₂ hf2
          cases fuel₂ with
          | zero => exact absurd hf2 (Nat.not_lt_zero _)
          | succ f₂ =>
            rw [chase_step_succ f hl hp, chase_step_succ f₂ hl hp]
            have h1 := ihs f (by omega)
            have h2 := ihs f₂ (by omega)
            rw [← h1] at h2
            exact h2
        · rw [chase_step_succ f hl hp]
          exact ihroot

theorem ufFind_root_chase : ∀ (fuel : Nat) (uf : UnionFind) (item : String),
    (ufFind fuel uf item).1 = chase fuel uf.parent item := by
  intro fuel
  induction fuel with
  | zero =>
    intro uf item
    rw [ufFind_zero]
    cases hl : alookup item uf.parent with
    | none =>
      rw [chase_none hl]
    | some p =>
      simp only []
      by_cases hp : p = item
      · rw [if_pos hp]
        subst hp
        rw [chase_self hl]
      · rw [if_neg hp, chase_step_zero hl hp]
  | succ f ih =>
    intro uf item
    rw [ufFind_succ]
    cases hl : alookup item uf.parent with
    | none =>
      rw [chase_none hl]
    | some p =>
      simp only []
      by_cases hp : p = item
      · rw [if_pos hp]
        subst hp
        rw [chase_self hl]
      · rw [if_neg hp, chase_step_succ f hl hp]
        exact ih uf p

theorem chase_mem {uf : UnionFind} (hcl : ufClosed uf) :
    ∀ (fuel : Nat) (k : String), k ∈ keysOf uf.parent →
      chase fuel uf.parent k ∈ keysOf uf.parent := by
  intro fuel
  induction fuel with
  | zero =>
    intro k hk
    cases hl : alookup k uf.parent with
    | none => rw [chase_none hl]; exact hk
    | some p =>
      by_cases hp : p = k
      · subst hp
        rw [chase_self hl]
        exact hk
      · rw [chase_step_zero hl hp]
        exact hcl (k, p) (alookup_mem hl)
  | succ f ih =>
    intro k hk
    cases hl : alookup k uf.parent with
    | none => rw [chase_none hl]; exact hk
    | some p =>
      by_cases hp : p = k
      · subst hp
        rw [chase_self hl]
        exact hk
      · rw [chase_step_succ f hl hp]
        exact ih p (hcl (k, p) (alookup_mem hl))

theorem chase_rk_ge {uf : UnionFind} (hcl : ufClosed uf) (hri : RankInv uf) :
    ∀ (fuel : Nat) (k : String), k ∈ keysOf uf.parent →
      rkOf uf k ≤ rkOf uf (chase fuel uf.parent k) := by
  intro fuel
  induction fuel with
  | zero =>
    intro k hk
    cases hl : alookup k uf.parent with
    | none => rw [chase_none hl]
    | some p =>
      by_cases hp : p = k
      · subst hp
        rw [chase_self hl]
      · rw [chase_step_zero hl hp]
        exact Nat.le_of_lt (hri k p hl hp)
  | succ f ih =>
    intro k hk
    cases hl : alookup k uf.parent with
    | none => rw [chase_none hl]
    | some p =>
      by_cases hp : p = k
      · subst hp
        rw [chase_self hl]
      · rw [chase_step_succ f hl hp]
        exact Nat.le_trans (Nat.le_of_lt (hri k p hl hp))
          (ih p (hcl (k, p) (alookup_mem hl)))

theorem mu_lt_of_rk {uf : UnionFind} {k r : String} (hr : r ∈ keysOf uf.parent)
    (hrk : rkOf uf k < rkOf uf r) : muOf uf r < muOf uf k := by
  apply filter_length_strict
  · intro x _ hx
    rw [decide_eq_true_eq] at hx
    rw [decide_eq_true_eq]
    exact Nat.lt_trans hrk hx
  · exact hr
  · rw [decide_eq_true_eq]
    exact hrk
  · rw [decide_eq_false_iff_not]
    exact Nat.lt_irrefl _

theorem chase_chase {uf : UnionFind} (hcl : ufClosed uf) (hri : RankInv uf) :
    ∀ (f : Nat) (k : String), k ∈ keysOf uf.parent →
      chase uf.parent.length uf.parent (chase f uf.parent k) =
        chase uf.parent.length uf.parent k := by
  intro f
  induction f with
  | zero =>
    intro k hk
    cases hl : alookup k uf.parent with
    | none => rw [chase_none hl]
    | some p =>
      by_cases hp : p = k
      · subst hp
        rw [chase_self hl]
      · rw [chase_step_zero hl hp]
        have hpm : p ∈ keysOf uf.parent := hcl (k, p) (alookup_mem hl)
        have hmuk := mu_bound hk
        have hmup := mu_lt_of_parent hcl hri hl hp
        cases hN : uf.parent.length with
        | zero => omega
        | succ n =>
          rw [← hN, show chase uf.parent.length uf.parent k =
            chase (uf.parent.length - 1 + 1) uf.parent k by rw [Nat.sub_add_cancel (by omega)],
            chase_step_succ _ hl hp]
          exact (chase_big hcl hri uf.parent.length p hpm (by omega)).1
            (uf.parent.length - 1) (by omega)
  | succ f ih =>
    intro k hk
    cases hl : alookup k uf.parent with
    | none => rw [chase_none hl]
    | some p =>
      by_cases hp : p = k
      · subst hp
        rw [chase_self hl]
      · rw [chase_step_succ f hl hp]
        have hpm : p ∈ keysOf uf.parent := hcl (k, p) (alookup_mem hl)
        have hmuk := mu_bound hk
        have hmup := mu_lt_of_parent hcl hri hl hp
        rw [ih p hpm]
        rw [show chase uf.parent.length uf.parent k =
          chase (uf.parent.length - 1 + 1) uf.parent k by rw [Nat.sub_add_cancel (by omega)],
          chase_step_succ _ hl hp]
        exact (chase_big hcl hri uf.parent.length p hpm (by omega)).1
          (uf.parent.length - 1) (by omega)

theorem muOf_assocSet_present {uf : UnionFind} {item r : String}
    (h : item ∈ keysOf uf.parent) (w : String) :
    muOf (⟨assocSet uf.parent item r, uf.rank⟩ : UnionFind) w = muOf uf w := by
  rw [muOf, muOf,
    show keysOf (⟨assocSet uf.parent item r, uf.rank⟩ : UnionFind).parent =
      keysOf (assocSet uf.parent item r) from rfl,
    keysOf_assocSet_present r h]
  rfl

theorem retarget_chase {uf : UnionFind} (hcl : ufClosed uf) (hri : RankInv uf)
    {item r : String} (hitem : item ∈ keysOf uf.parent) (hr : r ∈ keysOf uf.parent)
    (hrk : rkOf uf item < rkOf uf r)
    (hchase : chase uf.parent.length uf.parent r =
      chase uf.parent.length uf.parent item) :
    ufClosed ⟨assocSet uf.parent item r, uf.rank⟩ ∧
      RankInv ⟨assocSet uf.parent item r, uf.rank⟩ ∧
      ∀ w, chase uf.parent.length (assocSet uf.parent item r) w =
        chase uf.parent.length uf.parent w := by
  have hkeys : keysOf (assocSet uf.parent item r) = keysOf uf.parent :=
    keysOf_assocSet_present r hitem
  have hlook : ∀ x, alookup x (assocSet uf.parent item r) =
      if x = item then some r else alookup x uf.parent :=
    fun x => alookup_assocSet uf.parent item x r
  have hne : r ≠ item := fun he => absurd hrk (by rw [he]; exact Nat.lt_irrefl _)
  have hcl' : ufClosed ⟨assocSet uf.parent item r, uf.rank⟩ := by
    intro q hq
    show q.2 ∈ keysOf (assocSet uf.parent item r)
    rw [hkeys]
    rcases mem_assocSet hq with hq | hq
    · rw [hq]
      exact hr
    · exact hcl q hq
  have hri' : RankInv ⟨assocSet uf.parent item r, uf.rank⟩ := by
    intro k p hkp hpk
    rw [show (⟨assocSet uf.parent item r, uf.rank⟩ : UnionFind).parent =
        assocSet uf.parent item r from rfl, hlook k] at hkp
    show rkOf uf k < rkOf uf p
    by_cases hk : k = item
    · rw [if_pos hk] at hkp
      have hrp : r = p := Option.some.inj hkp
      subst hrp
      subst hk
      exact hrk
    · rw [if_neg hk] at hkp
      exact hri k p hkp hpk
  have main : ∀ (n : Nat) (w : String), muOf uf w ≤ n →
      chase uf.parent.length (assocSet uf.parent item r) w =
        chase uf.parent.length uf.parent w := by
    intro n
    induction n with
    | zero =>
      intro w h0
      by_cases hw : w = item
      · subst hw
        exact absurd (mu_lt_of_rk hr hrk) (by omega)
      · have hlw : alookup w (assocSet uf.parent item r) = alookup w uf.parent := by
          rw [hlook w, if_neg hw]
        cases hl : alookup w uf.parent with
        | none => rw [chase_none (hlw.trans hl), chase_none hl]
        | some q =>
          by_cases hq : q = w
          · have h1 : alookup w (assocSet uf.parent item r) = some w := by
              rw [hlw, hl, hq]
            have h2 : alookup w uf.parent = some w := by rw [hl, hq]
            rw [chase_self h1, chase_self h2]
          · exact absurd (mu_lt_of_parent hcl hri hl hq) (by omega)
    | succ n ih =>
      intro w hle
      by_cases hw : w = item
      · subst hw
        have hmuI := mu_bound hitem
        have hmuR := mu_lt_of_rk hr hrk
        have hN1 : uf.parent.length - 1 + 1 = uf.parent.length :=
          Nat.sub_add_cancel (by omega)
        rw [show chase uf.parent.length (assocSet uf.parent w r) w =
            chase (uf.parent.length - 1 + 1) (assocSet uf.parent w r) w by
            rw [hN1],
          chase_step_succ _ (by rw [hlook w, if_pos rfl]) hne]
        have hrmem' : r ∈ keysOf (⟨assocSet uf.parent w r, uf.rank⟩ :
            UnionFind).parent := by
          show r ∈ keysOf (assocSet uf.parent w r)
          rw [hkeys]
          exact hr
        have hmu' := muOf_assocSet_present (r := r) hitem r
        have hbig := (chase_big hcl' hri' uf.parent.length r hrmem'
          (by rw [hmu']; omega)).1 (uf.parent.length - 1) (by rw [hmu']; omega)
        have hih := ih r (by omega)
        exact hbig.symm.trans (hih.trans hchase)
      · have hlw : alookup w (assocSet uf.parent item r) = alookup w uf.parent := by
          rw [hlook w, if_neg hw]
        cases hl : alookup w uf.parent with
        | none => rw [chase_none (hlw.trans hl), chase_none hl]
        | some q =>
          by_cases hq : q = w
          · have h1 : alookup w (assocSet uf.parent item r) = some w := by
              rw [hlw, hl, hq]
            have h2 : alookup w uf.parent = some w := by rw [hl, hq]
            rw [chase_self h1, chase_self h2]
          · have hwm : w ∈ keysOf uf.parent :=
              (alookup_isSome_iff_mem w uf.parent).mp (by rw [hl]; rfl)
            have hqm : q ∈ keysOf uf.parent := hcl (w, q) (alookup_mem hl)
            have hmuw := mu_bound hwm
            have hmuq := mu_lt_of_parent hcl hri hl hq
            have hN1 : uf.parent.length - 1 + 1 = uf.parent.length :=
              Nat.sub_add_cancel (by omega)
            rw [show chase uf.parent.length (assocSet uf.parent item r) w =
                chase (uf.parent.length - 1 + 1) (assocSet uf.parent item r) w by
                rw [hN1],
              chase_step_succ _ (hlw.trans hl) hq,
              show chase uf.parent.length uf.parent w =
                chase (uf.parent.length - 1 + 1) uf.parent w by rw [hN1],
              chase_step_succ _ hl hq]
            have hqmem' : q ∈ keysOf (⟨assocSet uf.parent item r, uf.rank⟩ :
                UnionFind).parent := by
              show q ∈ keysOf (assocSet uf.parent item r)
              rw [hkeys]
              exact hqm
            have hmu' := muOf_assocSet_present (r := r) hitem q
            have hbig' := (chase_big hcl' hri' uf.parent.length q hqmem'
              (by rw [hmu']; omega)).1 (uf.parent.length - 1) (by rw [hmu']; omega)
            have hbig := (chase_big hcl hri uf.parent.length q hqm (by omega)).1
              (uf.parent.length - 1) (by omega)
            have hih := ih q (by omega)
            exact hbig'.symm.trans (hih.trans hbig)
  exact ⟨hcl', hri', fun w => main (muOf uf w) w (Nat.le_refl _)⟩

theorem findMaster : ∀ (fuel : Nat) (uf : UnionFind) (item : String),
    ufClosed uf → RankInv uf → item ∈ keysOf uf.parent →
    (ufFind fuel uf item).2.rank = uf.rank ∧
      keysOf (ufFind fuel uf item).2.parent = keysOf uf.parent ∧
      ufClosed (ufFind fuel uf item).2 ∧ RankInv (ufFind fuel uf item).2 ∧
      ∀ w, chase uf.parent.length (ufFind fuel uf item).2.parent w =
        chase uf.parent.length uf.parent w := by
  intro fuel
  induction fuel with
  | zero =>
    intro uf item hcl hri hmem
    rw [ufFind_zero]
    cases hl : alookup item uf.parent with
    | none =>
      exfalso
      have hs := (alookup_isSome_iff_mem item uf.parent).mpr hmem
      rw [hl] at hs
      cases hs
    | some p =>
      simp only []
      by_cases hp : p = item
      · rw [if_pos hp]
        exact ⟨rfl, rfl, hcl, hri, fun w => rfl⟩
      · rw [if_neg hp]
        exact ⟨rfl, rfl, hcl, hri, fun w => rfl⟩
  | succ f ih =>
    intro uf item hcl hri hmem
    rw [ufFind_succ]
    cases hl : alookup item uf.parent with
    | none =>
      exfalso
      have hs := (alookup_isSome_iff_mem item uf.parent).mpr hmem
      rw [hl] at hs
      cases hs
    | some p =>
      simp only []
      by_cases hp : p = item
      · rw [if_pos hp]
        exact ⟨rfl, rfl, hcl, hri, fun w => rfl⟩
      · rw [if_neg hp]
        have hpm : p ∈ keysOf uf.parent := hcl (item, p) (alookup_mem hl)
        obtain ⟨ihrank, ihkeys, ihcl, ihri, ihchase⟩ := ih uf p hcl hri hpm
        have hrchase : (ufFind f uf p).1 = chase f uf.parent p :=
          ufFind_root_chase f uf p
        have hrm : (ufFind f uf p).1 ∈ keysOf uf.parent := by
          rw [hrchase]
          exact chase_mem hcl f p hpm
        have hitem' : item ∈ keysOf (ufFind f uf p).2.parent := ihkeys.symm ▸ hmem
        have hr' : (ufFind f uf p).1 ∈ keysOf (ufFind f uf p).2.parent :=
          ihkeys.symm ▸ hrm
        have hlen : (ufFind f uf p).2.parent.length = uf.parent.length := by
          have h1 : (keysOf (ufFind f uf p).2.parent).length =
              (keysOf uf.parent).length := by rw [ihkeys]
          rw [keysOf, keysOf, List.length_map, List.length_map] at h1
          exact h1
        have hrkeq : ∀ x, rkOf (ufFind f uf p).2 x = rkOf uf x := by
          intro x
          rw [rkOf, rkOf, ihrank]
        have hrk' : rkOf (ufFind f uf p).2 item < rkOf (ufFind f uf p).2 (ufFind f uf p).1 := by
          rw [hrkeq, hrkeq, hrchase]
          exact Nat.lt_of_lt_of_le (hri item p hl hp) (chase_rk_ge hcl hri f p hpm)
        have hmuI := mu_bound hmem
        have hN1 : uf.parent.length - 1 + 1 = uf.parent.length :=
          Nat.sub_add_cancel (by omega)
        have hmup := mu_lt_of_parent hcl hri hl hp
        have hchase' : chase (ufFind f uf p).2.parent.length (ufFind f uf p).2.parent
            (ufFind f uf p).1 =
            chase (ufFind f uf p).2.parent.length (ufFind f uf p).2.parent item := by
          rw [hlen, ihchase, ihchase, hrchase, chase_chase hcl hri f p hpm,
            show chase uf.parent.length uf.parent item =
              chase (uf.parent.length - 1 + 1) uf.parent item by rw [hN1],
            chase_step_succ _ hl hp]
          exact (chase_big hcl hri uf.parent.length p hpm (by omega)).1
            (uf.parent.length - 1) (by omega)
        obtain ⟨hcl2, hri2, hchase2⟩ :=
          retarget_chase ihcl ihri hitem' hr' hrk' hchase'
        refine ⟨ihrank, ?_, hcl2, hri2, ?_⟩
        · exact (keysOf_assocSet_present _ hitem').trans ihkeys
        · intro w
          have h2 := hchase2 w
          rw [hlen] at h2
          exact h2.trans (ihchase w)

theorem parent_length_eq {α : Type} {m₁ m₂ : List (String × α)}
    (h : keysOf m₁ = keysOf m₂) : m₁.length = m₂.length := by
  have h2 := congrArg List.length h
  rwa [keysOf, keysOf, List.length_map, List.length_map] at h2

theorem root_stable {uf : UnionFind} (hcl : ufClosed uf) (hri : RankInv uf)
    {r : String} (hr : r ∈ keysOf uf.parent)
    (hch : chase uf.parent.length uf.parent r = r) :
    alookup r uf.parent = some r := by
  cases hl : alookup r uf.parent with
  | none =>
    exfalso
    have hs := (alookup_isSome_iff_mem r uf.parent).mpr hr
    rw [hl] at hs
    cases hs
  | some p =>
    by_cases hp : p = r
    · rw [hp]
    · exfalso
      have hmur := mu_bound hr
      have hN1 : uf.parent.length - 1 + 1 = uf.parent.length :=
        Nat.sub_add_cancel (by omega)
      have hstep : chase uf.parent.length uf.parent r =
          chase (uf.parent.length - 1) uf.parent p := by
        rw [show chase uf.parent.length uf.parent r =
          chase (uf.parent.length - 1 + 1) uf.parent r by rw [hN1],
          chase_step_succ _ hl hp]
      have hpm : p ∈ keysOf uf.parent := hcl (r, p) (alookup_mem hl)
      have hge := chase_rk_ge hcl hri (uf.parent.length - 1) p hpm
      rw [← hstep, hch] at hge
      exact absurd (Nat.lt_of_lt_of_le (hri r p hl hp) hge) (Nat.lt_irrefl _)

theorem findMaster' (uf : UnionFind) (item : String) (hcl : ufClosed uf)
    (hri : RankInv uf) (hmem : item ∈ keysOf uf.parent) :
    (uf.find item).2.rank = uf.rank ∧
      keysOf (uf.find item).2.parent = keysOf uf.parent ∧
      ufClosed (uf.find item).2 ∧ RankInv (uf.find item).2 ∧
      ∀ w, chase uf.parent.length (uf.find item).2.parent w =
        chase uf.parent.length uf.parent w :=
  findMaster uf.parent.length uf item hcl hri hmem

theorem rankinv_link {S : UnionFind} (hri : RankInv S) {x y : String}
    (hrk : rkOf S x < rkOf S y) :
    RankInv ⟨assocSet S.parent x y, S.rank⟩ := by
  intro k p hkp hpk
  rw [show (⟨assocSet S.parent x y, S.rank⟩ : UnionFind).parent =
      assocSet S.parent x y from rfl, alookup_assocSet] at hkp
  show rkOf S k < rkOf S p
  by_cases hk : k = x
  · rw [if_pos hk] at hkp
    have hpy : y = p := Option.some.inj hkp
    subst hpy
    subst hk
    exact hrk
  · rw [if_neg hk] at hkp
    exact hri k p hkp hpk

theorem rankinv_link_bump {S : UnionFind} (hri : RankInv S) {x y : String}
    (hyroot : alookup y S.parent = some y) (hxy : ¬x = y)
    (hrkeq : rkOf S x = rkOf S y) :
    RankInv ⟨assocSet S.parent x y, assocSet S.rank y (rkOf S y + 1)⟩ := by
  have hrk' : ∀ z, rkOf (⟨assocSet S.parent x y,
      assocSet S.rank y (rkOf S y + 1)⟩ : UnionFind) z =
      if z = y then rkOf S y + 1 else rkOf S z := by
    intro z
    rw [rkOf, show (⟨assocSet S.parent x y, assocSet S.rank y (rkOf S y + 1)⟩ :
        UnionFind).rank = assocSet S.rank y (rkOf S y + 1) from rfl, alookup_assocSet]
    by_cases hz : z = y
    · rw [if_pos hz, if_pos hz]
      rfl
    · rw [if_neg hz, if_neg hz]
      rfl
  intro k p hkp hpk
  rw [show (⟨assocSet S.parent x y, assocSet S.rank y (rkOf S y + 1)⟩ :
      UnionFind).parent = assocSet S.parent x y from rfl, alookup_assocSet] at hkp
  rw [hrk' k, hrk' p]
  by_cases hk : k = x
  · rw [if_pos hk] at hkp
    have hpy : y = p := Option.some.inj hkp
    subst hpy
    rw [if_pos rfl, if_neg (hk ▸ hxy), hk, hrkeq]
    exact Nat.lt_succ_self _
  · rw [if_neg hk] at hkp
    have hold := hri k p hkp hpk
    by_cases hky : k = y
    · exfalso
      rw [hky, hyroot] at hkp
      exact hpk ((Option.some.inj hkp).symm.trans hky.symm)
    · rw [if_neg hky]
      by_cases hpy : p = y
      · rw [if_pos hpy]
        rw [hpy] at hold
        exact Nat.lt_succ_of_lt hold
      · rw [if_neg hpy]
        exact hold

theorem unionMaster (uf : UnionFind) (a b : String) (ha : a ∈ keysOf uf.parent)
    (hb : b ∈ keysOf uf.parent) (hcl : ufClosed uf) (hri : RankInv uf) :
    keysOf (uf.union a b).parent = keysOf uf.parent ∧ ufClosed (uf.union a b) ∧
      RankInv (uf.union a b) := by
  obtain ⟨hrk1, hk1, hcl1, hri1, hch1⟩ := findMaster' uf a hcl hri ha
  obtain ⟨hrk2, hk2, hcl2, hri2, hch2⟩ :=
    findMaster' (uf.find a).2 b hcl1 hri1 (hk1.symm ▸ hb)
  have hk21 : keysOf ((uf.find a).2.find b).2.parent = keysOf uf.parent :=
    hk2.trans hk1
  have hlen1 : (uf.find a).2.parent.length = uf.parent.length := parent_length_eq hk1
  have hmua := mu_bound ha
  have hra_chase : (uf.find a).1 = chase uf.parent.length uf.parent a :=
    ufFind_root_chase uf.parent.length uf a
  have hra_root_uf : alookup (uf.find a).1 uf.parent = some (uf.find a).1 := by
    rw [hra_chase]
    exact (chase_big hcl hri uf.parent.length a ha hmua).2
  have hra_mem : (uf.find a).1 ∈ keysOf uf.parent := by
    rw [hra_chase]
    exact chase_mem hcl uf.parent.length a ha
  have hra_chase_S2 : chase ((uf.find a).2.find b).2.parent.length
      ((uf.find a).2.find b).2.parent (uf.find a).1 = (uf.find a).1 := by
    rw [parent_length_eq hk21]
    have h2 := hch2 (uf.find a).1
    rw [hlen1] at h2
    rw [h2, hch1 (uf.find a).1]
    exact chase_self hra_root_uf uf.parent.length
  have hra_root_S2 : alookup (uf.find a).1 ((uf.find a).2.find b).2.parent =
      some (uf.find a).1 :=
    root_stable hcl2 hri2 (hk21.symm ▸ hra_mem) hra_chase_S2
  have hmub1 : muOf (uf.find a).2 b < (uf.find a).2.parent.length :=
    mu_bound (hk1.symm ▸ hb)
  have hrb_chase : ((uf.find a).2.find b).1 =
      chase (uf.find a).2.parent.length (uf.find a).2.parent b :=
    ufFind_root_chase (uf.find a).2.parent.length (uf.find a).2 b
  have hrb_root_S1 : alookup ((uf.find a).2.find b).1 (uf.find a).2.parent =
      some ((uf.find a).2.find b).1 := by
    rw [hrb_chase]
    exact (chase_big hcl1 hri1 (uf.find a).2.parent.length b (hk1.symm ▸ hb) hmub1).2
  have hrb_mem : ((uf.find a).2.find b).1 ∈ keysOf uf.parent := by
    rw [← hk1, hrb_chase]
    exact chase_mem hcl1 (uf.find a).2.parent.length b (hk1.symm ▸ hb)
  have hrb_chase_S2 : chase ((uf.find a).2.find b).2.parent.length
      ((uf.find a).2.find b).2.parent ((uf.find a).2.find b).1 =
      ((uf.find a).2.find b).1 := by
    rw [parent_length_eq hk21]
    have h2 := hch2 ((uf.find a).2.find b).1
    rw [hlen1] at h2
    rw [h2]
    exact chase_self hrb_root_S1 uf.parent.length
  have hrb_root_S2 : alookup ((uf.find a).2.find b).1 ((uf.find a).2.find b).2.parent =
      some ((uf.find a).2.find b).1 :=
    root_stable hcl2 hri2 (hk21.symm ▸ hrb_mem) hrb_chase_S2
  rw [union_eq]
  by_cases h0 : (uf.find a).1 = ((uf.find a).2.find b).1
  · rw [if_pos h0]
    exact ⟨hk21, hcl2, hri2⟩
  · rw [if_neg h0]
    have hra_memS2 : (uf.find a).1 ∈ keysOf ((uf.find a).2.find b).2.parent :=
      hk21.symm ▸ hra_mem
    have hrb_memS2 : ((uf.find a).2.find b).1 ∈ keysOf ((uf.find a).2.find b).2.parent :=
      hk21.symm ▸ hrb_mem
    by_cases h1 : (alookup (uf.find a).1 ((uf.find a).2.find b).2.rank).getD 0 <
        (alookup ((uf.find a).2.find b).1 ((uf.find a).2.find b).2.rank).getD 0
    · rw [if_pos h1]
      obtain ⟨hks, hcls⟩ := closed_assocSet hra_memS2 hrb_memS2 hcl2
      exact ⟨hks.trans hk21, hcls _, rankinv_link hri2 h1⟩
    · rw [if_neg h1]
      by_cases h2 : (alookup ((uf.find a).2.find b).1 ((uf.find a).2.find b).2.rank).getD 0 <
          (alookup (uf.find a).1 ((uf.find a).2.find b).2.rank).getD 0
      · rw [if_pos h2]
        obtain ⟨hks, hcls⟩ := closed_assocSet hrb_memS2 hra_memS2 hcl2
        exact ⟨hks.trans hk21, hcls _, rankinv_link hri2 h2⟩
      · rw [if_neg h2]
        obtain ⟨hks, hcls⟩ := closed_assocSet hrb_memS2 hra_memS2 hcl2
        refine ⟨hks.trans hk21, hcls _, ?_⟩
        have heq : rkOf ((uf.find a).2.find b).2 ((uf.find a).2.find b).1 =
            rkOf ((uf.find a).2.find b).2 (uf.find a).1 :=
          Nat.le_antisymm (Nat.not_lt.mp h1) (Nat.not_lt.mp h2)
        exact rankinv_link_bump hri2 hra_root_S2 (fun he => h0 he.symm) heq

theorem diag_rankinv (ks : List String) : RankInv (diagUF ks) := by
  intro k p hkp hpk
  exfalso
  rw [show (diagUF ks).parent = ks.map (fun x => (x, x)) from rfl,
    alookup_map_pair] at hkp
  by_cases hk : k ∈ ks
  · rw [if_pos hk] at hkp
    exact hpk (Option.some.inj hkp).symm
  · rw [if_neg hk] at hkp
    cases hkp

theorem foldUnionMaster : ∀ (edges : List (String × String × ℚ)) (uf : UnionFind),
    (∀ e ∈ edges, e.1 ∈ keysOf uf.parent ∧ e.2.1 ∈ keysOf uf.parent) →
    ufClosed uf → RankInv uf →
    keysOf (edges.foldl ustep uf).parent = keysOf uf.parent ∧
      ufClosed (edges.foldl ustep uf) ∧ RankInv (edges.foldl ustep uf)
  | [], uf, _, hcl, hri => ⟨rfl, hcl, hri⟩
  | e :: rest, uf, he, hcl, hri => by
    rw [List.foldl_cons]
    have h1 := he e (List.mem_cons_self e rest)
    have hu : keysOf (ustep uf e).parent = keysOf uf.parent ∧
        ufClosed (ustep uf e) ∧ RankInv (ustep uf e) :=
      unionMaster uf e.1 e.2.1 h1.1 h1.2 hcl hri
    obtain ⟨hk, hcl', hri'⟩ := foldUnionMaster rest (ustep uf e)
      (fun e' he' =>
        ⟨hu.1.symm ▸ (he e' (List.mem_cons_of_mem e he')).1,
          hu.1.symm ▸ (he e' (List.mem_cons_of_mem e he')).2⟩)
      hu.2.1 hu.2.2
    exact ⟨hk.trans hu.1, hcl', hri'⟩

theorem assocSet_lookup_congr {α : Type} {m₁ m₂ : List (String × α)}
    (hl : ∀ k, alookup k m₁ = alookup k m₂) (k : String) (v : α) :
    ∀ x, alookup x (assocSet m₁ k v) = alookup x (assocSet m₂ k v) := by
  intro x
  rw [alookup_assocSet, alookup_assocSet]
  by_cases hx : x = k
  · rw [if_pos hx, if_pos hx]
  · rw [if_neg hx, if_neg hx]
    exact hl x

theorem assocSet_length_congr {α : Type} {m₁ m₂ : List (String × α)}
    (hl : ∀ k, alookup k m₁ = alookup k m₂) (hlen : m₁.length = m₂.length)
    (k : String) (v : α) :
    (assocSet m₁ k v).length = (assocSet m₂ k v).length := by
  rw [assocSet, assocSet]
  have hc : containsKey m₁ k = containsKey m₂ k := by
    rw [containsKey, containsKey, hl k]
  by_cases h : containsKey m₁ k = true
  · rw [if_pos h, if_pos (hc ▸ h), List.length_map, List.length_map, hlen]
  · rw [if_neg h, if_neg (by rw [← hc]; exact h)]
    rw [List.length_append, List.length_append, hlen]

theorem ufFind_bisim : ∀ (fuel : Nat) (S₁ S₂ : UnionFind) (item : String),
    UFR S₁ S₂ →
    (ufFind fuel S₁ item).1 = (ufFind fuel S₂ item).1 ∧
      UFR (ufFind fuel S₁ item).2 (ufFind fuel S₂ item).2 := by
  intro fuel
  induction fuel with
  | zero =>
    intro S₁ S₂ item hR
    rw [ufFind_zero, ufFind_zero, ← hR.1 item]
    cases hl : alookup item S₁.parent with
    | none =>
      simp only []
      refine ⟨trivial, assocSet_lookup_congr hR.1 item item, ?_, ?_⟩
      · exact assocSet_lookup_congr hR.2.1 item 0
      · exact assocSet_length_congr hR.1 hR.2.2 item item
    | some p =>
      simp only []
      by_cases hp : p = item
      · rw [if_pos hp, if_pos hp]
        exact ⟨rfl, hR⟩
      · rw [if_neg hp, if_neg hp]
        exact ⟨rfl, hR⟩
  | succ f ih =>
    intro S₁ S₂ item hR
    rw [ufFind_succ, ufFind_succ, ← hR.1 item]
    cases hl : alookup item S₁.parent with
    | none =>
      simp only []
      refine ⟨trivial, assocSet_lookup_congr hR.1 item item, ?_, ?_⟩
      · exact assocSet_lookup_congr hR.2.1 item 0
      · exact assocSet_length_congr hR.1 hR.2.2 item item
    | some p =>
      simp only []
      by_cases hp : p = item
      · rw [if_pos hp, if_pos hp]
        exact ⟨rfl, hR⟩
      · rw [if_neg hp, if_neg hp]
        obtain ⟨hr, hR'⟩ := ih S₁ S₂ p hR
        rw [hr]
        refine ⟨rfl, assocSet_lookup_congr hR'.1 item (ufFind f S₂ p).1, ?_, ?_⟩
        · exact hR'.2.1
        · exact assocSet_length_congr hR'.1 hR'.2.2 item (ufFind f S₂ p).1

theorem find_bisim {S₁ S₂ : UnionFind} (item : String) (hR : UFR S₁ S₂) :
    (S₁.find item).1 = (S₂.find item).1 ∧ UFR (S₁.find item).2 (S₂.find item).2 := by
  have h := ufFind_bisim S₁.parent.length S₁ S₂ item hR
  rw [UnionFind.find, UnionFind.find, ← hR.2.2]
  exact h

theorem union_bisim {S₁ S₂ : UnionFind} (a b : String) (hR : UFR S₁ S₂) :
    UFR (S₁.union a b) (S₂.union a b) := by
  obtain ⟨hra, hR1⟩ := find_bisim a hR
  obtain ⟨hrb, hR2⟩ := find_bisim b hR1
  rw [union_eq, union_eq, ← hra, ← hrb]
  have hrk : ∀ x, (alookup x ((S₁.find a).2.find b).2.rank).getD 0 =
      (alookup x ((S₂.find a).2.find b).2.rank).getD 0 := by
    intro x
    rw [hR2.2.1 x]
  by_cases h0 : (S₁.find a).1 = ((S₁.find a).2.find b).1
  · rw [if_pos h0, if_pos h0]
    exact hR2
  · rw [if_neg h0, if_neg h0]
    rw [← hrk (S₁.find a).1, ← hrk ((S₁.find a).2.find b).1]
    by_cases h1 : (alookup (S₁.find a).1 ((S₁.find a).2.find b).2.rank).getD 0 <
        (alookup ((S₁.find a).2.find b).1 ((S₁.find a).2.find b).2.rank).getD 0
    · rw [if_pos h1, if_pos h1]
      exact ⟨assocSet_lookup_congr hR2.1 _ _, hR2.2.1,
        assocSet_length_congr hR2.1 hR2.2.2 _ _⟩
    · rw [if_neg h1, if_neg h1]
      by_cases h2 : (alookup ((S₁.find a).2.find b).1 ((S₁.find a).2.find b).2.rank).getD 0 <
          (alookup (S₁.find a).1 ((S₁.find a).2.find b).2.rank).getD 0
      · rw [if_pos h2, if_pos h2]
        exact ⟨assocSet_lookup_congr hR2.1 _ _, hR2.2.1,
          assocSet_length_congr hR2.1 hR2.2.2 _ _⟩
      · rw [if_neg h2, if_neg h2]
        exact ⟨assocSet_lookup_congr hR2.1 _ _,
          assocSet_lookup_congr hR2.2.1 _ _,
          assocSet_length_congr hR2.1 hR2.2.2 _ _⟩

theorem foldUnion_bisim : ∀ (edges : List (String × String × ℚ))
    {S₁ S₂ : UnionFind}, UFR S₁ S₂ →
    UFR (edges.foldl ustep S₁) (edges.foldl ustep S₂)
  | [], _, _, hR => hR
  | e :: rest, S₁, S₂, hR => by
    rw [List.foldl_cons, List.foldl_cons]
    exact foldUnion_bisim rest (union_bisim e.1 e.2.1 hR)

theorem diag_bisim {ks₁ ks₂ : List String} (h : ks₁.Perm ks₂) :
    UFR (diagUF ks₁) (diagUF ks₂) := by
  refine ⟨?_, ?_, ?_⟩
  · intro k
    show alookup k (ks₁.map (fun x => (x, x))) = alookup k (ks₂.map (fun x => (x, x)))
    rw [alookup_map_pair, alookup_map_pair]
    by_cases hk : k ∈ ks₁
    · rw [if_pos hk, if_pos (h.mem_iff.mp hk)]
    · rw [if_neg hk, if_neg (fun hm => hk (h.mem_iff.mpr hm))]
  · intro k
    show alookup k (ks₁.map (fun x => (x, (0 : Nat)))) =
      alookup k (ks₂.map (fun x => (x, (0 : Nat))))
    rw [alookup_map_pair, alookup_map_pair]
    by_cases hk : k ∈ ks₁
    · rw [if_pos hk, if_pos (h.mem_iff.mp hk)]
    · rw [if_neg hk, if_neg (fun hm => hk (h.mem_iff.mpr hm))]
  · show (ks₁.map (fun x => (x, x))).length = (ks₂.map (fun x => (x, x))).length
    rw [List.length_map, List.length_map]
    exact h.length_eq

theorem gfold_nodup : ∀ (items : List String)
    (st : UnionFind × List (String × List String)),
    (keysOf st.2).Nodup → (keysOf (List.foldl gstep st items).2).Nodup
  | [], _, hnd => hnd
  | item :: rest, st, hnd => by
    rw [List.foldl_cons]
    exact gfold_nodup rest (gstep st item)
      (flattenB_bucketAdd st.2 (st.1.find item).1 item hnd).2

theorem gfold_char (N : Nat) : ∀ (items : List String) (uf : UnionFind)
    (buckets : List (String × List String)),
    ufClosed uf → RankInv uf → (∀ i ∈ items, i ∈ keysOf uf.parent) →
    uf.parent.length = N →
    ∀ r, alookup r (List.foldl gstep (uf, buckets) items).2 =
      if (items.filter (fun w => decide (chase N uf.parent w = r))).isEmpty
      then alookup r buckets
      else some ((alookup r buckets).getD [] ++
        items.filter (fun w => decide (chase N uf.parent w = r)))
  | [], uf, buckets, _, _, _, _, r => by
    rw [List.foldl_nil, List.filter_nil,
      if_pos (show ([] : List String).isEmpty = true from rfl)]
  | item :: rest, uf, buckets, hcl, hri, hmem, hlenN, r => by
    rw [List.foldl_cons]
    have hroot : (uf.find item).1 = chase N uf.parent item := by
      have h : (uf.find item).1 = chase uf.parent.length uf.parent item :=
        ufFind_root_chase uf.parent.length uf item
      rw [hlenN] at h
      exact h
    have hgs : gstep (uf, buckets) item =
        ((uf.find item).2, bucketAdd buckets (uf.find item).1 item) := rfl
    rw [hgs, hroot]
    have hmi : item ∈ keysOf uf.parent := hmem item (List.mem_cons_self item rest)
    obtain ⟨hrk1, hk1, hcl1, hri1, hch1⟩ := findMaster' uf item hcl hri hmi
    have hlen1 : (uf.find item).2.parent.length = N := (parent_length_eq hk1).trans hlenN
    have hchN : ∀ w, chase N (uf.find item).2.parent w = chase N uf.parent w := by
      intro w
      have h := hch1 w
      rw [hlenN] at h
      exact h
    have ih := gfold_char N rest (uf.find item).2
      (bucketAdd buckets (chase N uf.parent item) item)
      hcl1 hri1 (fun i hi => hk1.symm ▸ hmem i (List.mem_cons_of_mem item hi)) hlen1 r
    have hfilt : rest.filter (fun w => decide (chase N (uf.find item).2.parent w = r)) =
        rest.filter (fun w => decide (chase N uf.parent w = r)) := by
      apply List.filter_congr
      intro w _
      rw [hchN w]
    rw [hfilt] at ih
    rw [ih]
    by_cases hpi : chase N uf.parent item = r
    · have hcons : (item :: rest).filter (fun w => decide (chase N uf.parent w = r)) =
          item :: rest.filter (fun w => decide (chase N uf.parent w = r)) := by
        rw [List.filter_cons, if_pos (by rw [decide_eq_true_eq]; exact hpi)]
      rw [hcons]
      have hba : alookup r (bucketAdd buckets (chase N uf.parent item) item) =
          some ((alookup r buckets).getD [] ++ [item]) := by
        rw [bucketAdd, alookup_assocSet, if_pos hpi.symm, hpi]
      by_cases hre : (rest.filter (fun w => decide (chase N uf.parent w = r))).isEmpty = true
      · rw [if_pos hre, hba,
          if_neg (by rw [List.isEmpty_cons]; exact Bool.false_ne_true)]
        rw [List.isEmpty_iff] at hre
        rw [hre]
      · rw [if_neg hre, hba,
          if_neg (by rw [List.isEmpty_cons]; exact Bool.false_ne_true)]
        rw [show ((some ((alookup r buckets).getD [] ++ [item])).getD [] :
            List String) = (alookup r buckets).getD [] ++ [item] from rfl,
          List.append_assoc]
        rfl
    · have hcons : (item :: rest).filter (fun w => decide (chase N uf.parent w = r)) =
          rest.filter (fun w => decide (chase N uf.parent w = r)) := by
        rw [List.filter_cons,
          if_neg (by rw [decide_eq_true_eq]; exact hpi)]
      rw [hcons]
      have hba : alookup r (bucketAdd buckets (chase N uf.parent item) item) =
          alookup r buckets :=
        alookup_bucketAdd_ne hpi
      rw [hba]

theorem isortBy_eq_of_perm {α : Type} (lt : α → α → Bool)
    (hasymm : ∀ a b, lt a b = true → lt b a = false)
    (hnegtrans : ∀ a b c, lt a b = false → lt b c = false → lt a c = false)
    {l₁ l₂ : List α} (hperm : l₁.Perm l₂)
    (hcomp : l₁.Pairwise (fun a b => lt a b = true ∨ lt b a = true)) :
    isortBy lt l₁ = isortBy lt l₂ :=
  sorted_perm_eq lt _ _
    ((isortBy_perm lt l₁).trans (hperm.trans (isortBy_perm lt l₂).symm))
    (isortBy_sorted lt hasymm hnegtrans l₁)
    (isortBy_sorted lt hasymm hnegtrans l₂)
    ((isortBy_perm lt l₁).symm.pairwise hcomp (fun h => h.symm))

theorem strLt_comp_of_nodup {l : List String} (hnd : l.Nodup) :
    l.Pairwise (fun a b => strLt a b = true ∨ strLt b a = true) := by
  refine hnd.imp ?_
  intro a b hne
  rcases strLt_total a b with h | h | h
  · exact Or.inl h
  · exact Or.inr h
  · exact absurd h hne

theorem groupKeyLt_asymm (g h : String × List String) :
    groupKeyLt g h = true → groupKeyLt h g = false := by
  rw [groupKeyLt, groupKeyLt]
  rw [Bool.or_eq_true, Bool.and_eq_true]
  intro hgh
  rw [Bool.or_eq_false_iff, Bool.and_eq_false_iff]
  rcases hgh with hlen | ⟨hlen, hlt⟩
  · rw [decide_eq_true_eq] at hlen
    constructor
    · rw [decide_eq_false_iff_not]
      omega
    · left
      rw [decide_eq_false_iff_not]
      omega
  · rw [decide_eq_true_eq] at hlen
    constructor
    · rw [decide_eq_false_iff_not]
      omega
    · right
      exact strLt_asymm _ _ hlt

theorem groupKeyLt_negtrans (a b c : String × List String) :
    groupKeyLt a b = false → groupKeyLt b c = false → groupKeyLt a c = false := by
  rw [groupKeyLt, groupKeyLt, groupKeyLt]
  rw [Bool.or_eq_false_iff, Bool.and_eq_false_iff, Bool.or_eq_false_iff,
    Bool.and_eq_false_iff, Bool.or_eq_false_iff, Bool.and_eq_false_iff]
  intro hab hbc
  obtain ⟨hab1, hab2⟩ := hab
  obtain ⟨hbc1, hbc2⟩ := hbc
  rw [decide_eq_false_iff_not] at hab1 hbc1
  constructor
  · rw [decide_eq_false_iff_not]
    omega
  · by_cases hac : a.2.length = c.2.length
    · right
      have hablen : a.2.length = b.2.length := by omega
      have hbclen : b.2.length = c.2.length := by omega
      have h1 : strLt a.1 b.1 = false := by
        rcases hab2 with h | h
        · rw [decide_eq_false_iff_not] at h
          exact absurd hablen h
        · exact h
      have h2 : strLt b.1 c.1 = false := by
        rcases hbc2 with h | h
        · rw [decide_eq_false_iff_not] at h
          exact absurd hbclen h
        · exact h
      exact strLt_negtrans _ _ _ h1 h2
    · left
      rw [decide_eq_false_iff_not]
      exact hac

theorem groupKeyLt_comp {l : List (String × List String)}
    (hnd : (keysOf l).Nodup) :
    l.Pairwise (fun g h => groupKeyLt g h = true ∨ groupKeyLt h g = true) := by
  rw [keysOf, List.Nodup, List.pairwise_map] at hnd
  refine hnd.imp ?_
  intro g h hne
  rw [groupKeyLt, groupKeyLt]
  by_cases hlen : g.2.length = h.2.length
  · rcases strLt_total g.1 h.1 with hs | hs | hs
    · left
      rw [Bool.or_eq_true, Bool.and_eq_true]
      exact Or.inr ⟨by rw [decide_eq_true_eq]; exact hlen, hs⟩
    · right
      rw [Bool.or_eq_true, Bool.and_eq_true]
      exact Or.inr ⟨by rw [decide_eq_true_eq]; omega, hs⟩
    · exact absurd hs hne
  · by_cases hlt : h.2.length < g.2.length
    · left
      rw [Bool.or_eq_true]
      exact Or.inl (by rw [decide_eq_true_eq]; exact hlt)
    · right
      rw [Bool.or_eq_true]
      exact Or.inl (by rw [decide_eq_true_eq]; omega)

theorem sortedKeys_eq_of_perm {m₁ m₂ : List (String × LogoFeatures)}
    (hperm : m₁.Perm m₂) (hnd : (keysOf m₁).Nodup) :
    isortBy strLt (keysOf m₁) = isortBy strLt (keysOf m₂) :=
  isortBy_eq_of_perm strLt strLt_asymm strLt_negtrans (hperm.map Prod.fst)
    (strLt_comp_of_nodup hnd)

theorem distLt_comp_of_ties {l : List (Nat × String)}
    (hties : l.Pairwise (fun a b => a.1 ≠ b.1)) :
    l.Pairwise (fun a b => distLt a b = true ∨ distLt b a = true) := by
  refine hties.imp ?_
  intro a b hne
  rw [distLt, distLt, decide_eq_true_eq, decide_eq_true_eq]
  omega

theorem ranked_perm {m₁ m₂ : List (String × LogoFeatures)} (fA : LogoFeatures)
    (hperm : m₁.Perm m₂) : (rankedOf fA m₁ 16).Perm (rankedOf fA m₂ 16) := by
  rw [rankedOf, rankedOf]
  by_cases hf : strFalsy fA.perceptual.phash = true
  · rw [if_pos hf, if_pos hf]
  · rw [if_neg hf, if_neg hf]
    exact hperm.filterMap _

theorem shortlist_eq {m₁ m₂ : List (String × LogoFeatures)} (fA : LogoFeatures)
    (hperm : m₁.Perm m₂)
    (hties : (rankedOf fA m₁ 16).Pairwise (fun a b => a.1 ≠ b.1)) :
    shortlist_by_hash fA m₁ 50 16 = shortlist_by_hash fA m₂ 50 16 := by
  rw [shortlist_eq_ranked, shortlist_eq_ranked,
    isortBy_eq_of_perm distLt distLt_asymm distLt_negtrans (ranked_perm fA hperm)
      (distLt_comp_of_ties hties)]

theorem pairwise_eq {Img : Type} (orbRaw : Img → Img → ℚ)
    {m₁ m₂ : List (String × LogoFeatures)} (images_map : String → Option Img)
    (t : ℚ) (hperm : m₁.Perm m₂) (hnd : (keysOf m₁).Nodup)
    (hties : ∀ p ∈ m₁, (rankedOf p.2 m₁ 16).Pairwise (fun a b => a.1 ≠ b.1)) :
    pairwise_scores orbRaw m₁ images_map 50 16 t =
      pairwise_scores orbRaw m₂ images_map 50 16 t := by
  have halook := alookup_eq_of_perm hperm hnd
  rw [pairwise_scores, pairwise_scores]
  by_cases hemp : m₁.isEmpty = true
  · rw [if_pos hemp, if_pos (by
      rw [List.isEmpty_iff] at hemp ⊢
      exact (hemp ▸ hperm : ([] : List (String × LogoFeatures)).Perm m₂).symm.eq_nil)]
  · rw [if_neg hemp, if_neg (by
      rw [List.isEmpty_iff] at hemp ⊢
      exact fun h2 => hemp ((h2 ▸ hperm : m₁.Perm ([] : List (String × LogoFeatures))).eq_nil))]
    rw [← sortedKeys_eq_of_perm hperm hnd]
    apply flatMap_congr2
    intro website _
    rw [halook website]
    cases hb : alookup website m₂ with
    | none => rfl
    | some feature =>
      simp only []
      have hmem : (website, feature) ∈ m₁ := alookup_mem (by rw [halook website]; exact hb)
      rw [shortlist_eq feature hperm (hties (website, feature) hmem)]
      apply filterMap_congr2
      intro candidate _
      rw [halook candidate]

theorem edges_eq {Img : Type} (orbRaw : Img → Img → ℚ)
    {m₁ m₂ : List (String × LogoFeatures)} (images_map : String → Option Img)
    (t : ℚ) (hperm : m₁.Perm m₂) (hnd : (keysOf m₁).Nodup)
    (hties : ∀ p ∈ m₁, (rankedOf p.2 m₁ 16).Pairwise (fun a b => a.1 ≠ b.1)) :
    build_similarity_edges orbRaw m₁ images_map t =
      build_similarity_edges orbRaw m₂ images_map t := by
  rw [build_similarity_edges, build_similarity_edges]
  exact pairwise_eq orbRaw images_map t hperm hnd hties

theorem pipeline_uf_eq {Img : Type} (orbRaw : Img → Img → ℚ)
    (m : List (String × LogoFeatures)) (images_map : String → Option Img)
    (t : ℚ) (hnd : (keysOf m).Nodup) :
    pipeline_uf orbRaw m images_map t =
      (build_similarity_edges orbRaw m images_map t).foldl ustep
        (diagUF (keysOf m)) := by
  have huf0 : UnionFind.empty.add_all (keysOf m) = diagUF (keysOf m) := by
    have h0 : UnionFind.empty = diagUF [] := rfl
    rw [h0, add_all_diag,
      addNewKeys_self (keysOf m) [] hnd (fun i _ hi => List.not_mem_nil i hi),
      List.nil_append]
  rw [pipeline_uf, huf0]
  rfl

theorem group_and_report_eq {Img : Type} (orbRaw : Img → Img → ℚ)
    (features_map : List (String × LogoFeatures)) (images_map : String → Option Img)
    (total_sites : Nat) (t_link : ℚ) :
    group_and_report orbRaw features_map images_map total_sites t_link =
      (isortBy groupKeyLt
        ((pipeline_uf orbRaw features_map images_map t_link).groups.map
          (fun rm => (rm.1, isortBy strLt rm.2))),
       { total := total_sites
         extracted := features_map.length
         coverage := if total_sites ≠ 0
           then (features_map.length : ℚ) / (total_sites : ℚ) else 0
         pairs := (build_similarity_edges orbRaw features_map images_map t_link).length
         groups := (isortBy groupKeyLt
           ((pipeline_uf orbRaw features_map images_map t_link).groups.map
             (fun rm => (rm.1, isortBy strLt rm.2)))).length
         largest_group := ((isortBy groupKeyLt
           ((pipeline_uf orbRaw features_map images_map t_link).groups.map
             (fun rm => (rm.1, isortBy strLt rm.2)))).map
               (fun g => g.2.length)).foldl max 0
         threshold := t_link }) := rfl

theorem buckets_payload_eq {U₁ U₂ : UnionFind} {ks₁ ks₂ : List String}
    (hcl₁ : ufClosed U₁) (hri₁ : RankInv U₁) (hcl₂ : ufClosed U₂) (hri₂ : RankInv U₂)
    (hk₁ : keysOf U₁.parent = ks₁) (hk₂ : keysOf U₂.parent = ks₂)
    (hkperm : ks₁.Perm ks₂) (hnd : ks₁.Nodup) (hR : UFR U₁ U₂) :
    isortBy groupKeyLt (U₁.groups.map (fun rm => (rm.1, isortBy strLt rm.2))) =
      isortBy groupKeyLt (U₂.groups.map (fun rm => (rm.1, isortBy strLt rm.2))) := by
  have hnd₂ : ks₂.Nodup := hkperm.nodup_iff.mp hnd
  rw [groups_eq, groups_eq, hk₁, hk₂]
  have hchar₁ := gfold_char U₁.parent.length ks₁ U₁ [] hcl₁ hri₁
    (fun i hi => hk₁.symm ▸ hi) rfl
  have hchar₂ := gfold_char U₁.parent.length ks₂ U₂ [] hcl₂ hri₂
    (fun i hi => hk₂.symm ▸ hi) hR.2.2.symm
  have hndB₁ : (keysOf (List.foldl gstep (U₁, []) ks₁).2).Nodup :=
    gfold_nodup ks₁ (U₁, []) List.nodup_nil
  have hndB₂ : (keysOf (List.foldl gstep (U₂, []) ks₂).2).Nodup :=
    gfold_nodup ks₂ (U₂, []) List.nodup_nil
  have hndM₁ : (keysOf ((List.foldl gstep (U₁, []) ks₁).2.map
      (fun rm => (rm.1, isortBy strLt rm.2)))).Nodup := by
    rw [keysOf_map_val]
    exact hndB₁
  have hndM₂ : (keysOf ((List.foldl gstep (U₂, []) ks₂).2.map
      (fun rm => (rm.1, isortBy strLt rm.2)))).Nodup := by
    rw [keysOf_map_val]
    exact hndB₂
  have hlookM : ∀ r, alookup r ((List.foldl gstep (U₁, []) ks₁).2.map
      (fun rm => (rm.1, isortBy strLt rm.2))) =
      alookup r ((List.foldl gstep (U₂, []) ks₂).2.map
        (fun rm => (rm.1, isortBy strLt rm.2))) := by
    intro r
    rw [alookup_map_val, alookup_map_val, hchar₁ r, hchar₂ r]
    have hfeq : ks₂.filter (fun w => decide (chase U₁.parent.length U₂.parent w = r)) =
        ks₂.filter (fun w => decide (chase U₁.parent.length U₁.parent w = r)) := by
      apply List.filter_congr
      intro w _
      rw [chase_congr hR.1]
    rw [hfeq]
    have hFperm : (ks₁.filter (fun w => decide (chase U₁.parent.length U₁.parent w = r))).Perm
        (ks₂.filter (fun w => decide (chase U₁.parent.length U₁.parent w = r))) :=
      hkperm.filter _
    by_cases hF : (ks₁.filter
        (fun w => decide (chase U₁.parent.length U₁.parent w = r))).isEmpty = true
    · rw [if_pos hF, if_pos (by
        rw [List.isEmpty_iff] at hF ⊢
        exact (hF ▸ hFperm : ([] : List String).Perm _).symm.eq_nil)]
    · rw [if_neg hF, if_neg (by
        rw [List.isEmpty_iff] at hF ⊢
        exact fun h2 => hF ((h2 ▸ hFperm).eq_nil))]
      rw [Option.map_some', Option.map_some',
        show ((alookup r ([] : List (String × List String))).getD [] : List String) =
          [] from rfl, List.nil_append, List.nil_append]
      exact congrArg some (isortBy_eq_of_perm strLt strLt_asymm strLt_negtrans hFperm
        (strLt_comp_of_nodup (hnd.filter _)))
  have hMperm := assoc_perm_of_lookup_eq _ _ hndM₁ hndM₂ hlookM
  exact isortBy_eq_of_perm groupKeyLt groupKeyLt_asymm groupKeyLt_negtrans hMperm
    (groupKeyLt_comp hndM₁)

/-- C1 (amended): grouping is order-invariant provided no anchor sees two
eligible candidates at the same pHash hamming distance. For feature maps
holding the same records in different insertion order (unique websites,
tie-free per-anchor distance lists), `group_and_report` returns identical
`groups.json` payloads and identical `metrics.json` payloads. Without the
tie-free proviso the payloads can differ (see the counterexample). -/
theorem C1_order_invariant {Img : Type} (orbRaw : Img → Img → ℚ)
    (m₁ m₂ : List (String × LogoFeatures)) (images_map : String → Option Img)
    (total_sites : Nat) (hperm : m₁.Perm m₂) (hnd : (keysOf m₁).Nodup)
    (hties : ∀ p ∈ m₁, (rankedOf p.2 m₁ 16).Pairwise (fun a b => a.1 ≠ b.1)) :
    group_and_report orbRaw m₁ images_map total_sites T_LINK =
      group_and_report orbRaw m₂ images_map total_sites T_LINK := by
  have hkperm : (keysOf m₁).Perm (keysOf m₂) := hperm.map Prod.fst
  have hnd₂ : (keysOf m₂).Nodup := hkperm.nodup_iff.mp hnd
  have hedges := edges_eq orbRaw images_map T_LINK hperm hnd hties
  have hends₁ : ∀ e ∈ build_similarity_edges orbRaw m₁ images_map T_LINK,
      e.1 ∈ keysOf (diagUF (keysOf m₁)).parent ∧
        e.2.1 ∈ keysOf (diagUF (keysOf m₁)).parent := by
    intro e he
    obtain ⟨h1, h2⟩ := edges_mem_keys orbRaw m₁ images_map T_LINK e he
    rw [keysOf_diag]
    exact ⟨h1, h2⟩
  have hends₂ : ∀ e ∈ build_similarity_edges orbRaw m₁ images_map T_LINK,
      e.1 ∈ keysOf (diagUF (keysOf m₂)).parent ∧
        e.2.1 ∈ keysOf (diagUF (keysOf m₂)).parent := by
    intro e he
    obtain ⟨h1, h2⟩ := edges_mem_keys orbRaw m₁ images_map T_LINK e he
    rw [keysOf_diag]
    exact ⟨hkperm.mem_iff.mp h1, hkperm.mem_iff.mp h2⟩
  obtain ⟨hk₁, hcl₁, hri₁⟩ := foldUnionMaster
    (build_similarity_edges orbRaw m₁ images_map T_LINK) (diagUF (keysOf m₁))
    hends₁ (diag_closed _) (diag_rankinv _)
  obtain ⟨hk₂, hcl₂, hri₂⟩ := foldUnionMaster
    (build_similarity_edges orbRaw m₁ images_map T_LINK) (diagUF (keysOf m₂))
    hends₂ (diag_closed _) (diag_rankinv _)
  have hR := foldUnion_bisim (build_similarity_edges orbRaw m₁ images_map T_LINK)
    (diag_bisim hkperm)
  have hpay : isortBy groupKeyLt
      ((pipeline_uf orbRaw m₁ images_map T_LINK).groups.map
        (fun rm => (rm.1, isortBy strLt rm.2))) =
      isortBy groupKeyLt
        ((pipeline_uf orbRaw m₂ images_map T_LINK).groups.map
          (fun rm => (rm.1, isortBy strLt rm.2))) := by
    rw [pipeline_uf_eq orbRaw m₁ images_map T_LINK hnd,
      pipeline_uf_eq orbRaw m₂ images_map T_LINK hnd₂, ← hedges]
    exact buckets_payload_eq hcl₁ hri₁ hcl₂ hri₂ (hk₁.trans (keysOf_diag _))
      (hk₂.trans (keysOf_diag _)) hkperm hnd hR
  rw [group_and_report_eq, group_and_report_eq, hpay, hedges, hperm.length_eq]

/-- C1 (witness): on a concrete tie-free two-site map, both insertion
orders produce the same `groups.json` and `metrics.json` payloads. -/
theorem C1_order_invariant_witness :
    mapBD.Perm mapDB ∧ (keysOf mapBD).Nodup ∧
      (∀ p ∈ mapBD, (rankedOf p.2 mapBD 16).Pairwise (fun a b => a.1 ≠ b.1)) ∧
      group_and_report zeroOrb mapBD noImages 2 T_LINK =
        group_and_report zeroOrb mapDB noImages 2 T_LINK :=
  ⟨by decide, by decide, by decide,
    C1_order_invariant zeroOrb mapBD mapDB noImages 2 (by decide) (by decide)
      (by decide)⟩
